import Mathlib

/-!
# rec-watch: a verification development

A shallow embedding of the watch → dedup → schedule → encode pipeline of
`rec-watch` (packages `config`, `convert`, `watcher`, `cmd`), together with the
parts of the Go standard library the pipeline relies on (`fmt`, `strings`,
`path/filepath`, `time`), followed by theorems about the embedded code.

Conventions
* Go `string` values are Lean `String`s; the library functions work on the
  underlying `List Char`.
* Go `int` is a 64-bit two's-complement integer: values are `Int`s and every
  arithmetic result goes through `wrapInt`.
* Go `error` values are `Option String` (`none` is `nil`, `some msg` is an error
  whose `Error()` text is `msg`).
* Whatever the operating system decides (stat results, process exit status,
  the working directory, the clock) is an explicit argument.
-/

namespace RecWatch

/-! ## Machine integers and `fmt` -/

/-- Two's-complement wrap-around of a Go `int` (64 bit). -/
def wrapInt (x : Int) : Int :=
  (x + 9223372036854775808) % 18446744073709551616 - 9223372036854775808

/-- The decimal digit `d` (for `d < 10`) as a character. -/
def digitChar (d : Nat) : Char := Char.ofNat (48 + d)

/-- Decimal digits of `n`, most significant first, pushed in front of `acc`.
The first argument bounds the number of digits. -/
def natDigits : Nat → Nat → List Char → List Char
  | 0, _, acc => acc
  | fuel + 1, n, acc =>
    if n < 10 then digitChar n :: acc
    else natDigits fuel (n / 10) (digitChar (n % 10) :: acc)

/-- Decimal representation of a natural number (`"0"` for zero). -/
def formatNat (n : Nat) : List Char := natDigits (n + 1) n []

/-- The verb `%d` of `fmt.Sprintf` applied to a Go `int`. -/
def fmtInt (x : Int) : String :=
  if x < 0 then ⟨'-' :: formatNat x.natAbs⟩ else ⟨formatNat x.natAbs⟩

/-- Decimal digit characters. -/
def isDigit (c : Char) : Prop := 48 ≤ c.toNat ∧ c.toNat ≤ 57

/-! ## `strings` -/

namespace unicode

/-- Go `unicode.ToLower`: ASCII is handled inline by the Go runtime; a rune
above `MaxASCII` goes through the Unicode case table `tbl`. -/
def ToLower (tbl : Char → Char) (r : Char) : Char :=
  if r.toNat ≤ 127 then
    if 65 ≤ r.toNat ∧ r.toNat ≤ 90 then Char.ofNat (r.toNat + 32) else r
  else tbl r

end unicode

namespace strings

/-- Go `strings.ToLower`: every rune is mapped by `unicode.ToLower`. -/
def ToLower (tbl : Char → Char) (s : String) : String :=
  ⟨s.data.map (unicode.ToLower tbl)⟩

/-- Substring search on character lists. -/
def containsChars : List Char → List Char → Bool
  | [], sub => sub.isEmpty
  | c :: cs, sub => sub.isPrefixOf (c :: cs) || containsChars cs sub

/-- Go `strings.Contains`. -/
def Contains (s substr : String) : Bool := containsChars s.data substr.data

/-- Go `strings.HasPrefix`. -/
def HasPrefix (s pre : String) : Bool := pre.data.isPrefixOf s.data

end strings

/-! ## `path/filepath` (Unix) -/

namespace filepath

/-- The path separator test `os.IsPathSeparator`. -/
def isSep (c : Char) : Bool := c == '/'

/-- The loop of `filepath.Ext`, run on the reversed path: `acc` is the part of
the path to the right of the current position. -/
def extRev : List Char → List Char → List Char
  | [], _ => []
  | c :: rest, acc =>
    if isSep c then []
    else if c == '.' then '.' :: acc
    else extRev rest (c :: acc)

/-- Go `filepath.Ext`: the suffix beginning at the final dot of the final
element of the path, empty if there is no dot. -/
def Ext (path : String) : String := ⟨extRev path.data.reverse []⟩

/-- Go `filepath.Base`: the last element of the path, after removing trailing
separators; `"."` for the empty path, `"/"` for a path of separators only. -/
def Base (path : String) : String :=
  if path.data = [] then "."
  else
    let stripped := path.data.reverse.dropWhile isSep
    let last := (stripped.takeWhile (fun c => !isSep c)).reverse
    if last = [] then "/" else ⟨last⟩

/-- The elements of a path: the maximal separator-free pieces, empty ones
included. -/
def splitSep : List Char → List (List Char)
  | [] => [[]]
  | c :: cs =>
    if isSep c then [] :: splitSep cs
    else
      match splitSep cs with
      | [] => [[c]]
      | h :: t => (c :: h) :: t

/-- One element of the `filepath.Clean` loop. The output elements are kept
innermost first. Empty and `.` elements are skipped; `..` removes the previous
element if there is one that is not itself `..`, is dropped at the root, and is
kept otherwise; any other element is appended. -/
def cleanStep (rooted : Bool) (out : List (List Char)) (elem : List Char) :
    List (List Char) :=
  if elem = [] ∨ elem = ['.'] then out
  else if elem = ['.', '.'] then
    match out with
    | top :: rest => if top = ['.', '.'] then elem :: out else rest
    | [] => if rooted then [] else [elem]
  else elem :: out

/-- Elements joined by single separators. -/
def joinSep : List (List Char) → List Char
  | [] => []
  | [e] => e
  | e :: es => e ++ '/' :: joinSep es

/-- Go `filepath.Clean`: the shortest equivalent path by purely lexical
processing. -/
def Clean (path : String) : String :=
  if path.data = [] then "."
  else
    let rooted := path.data.head?.any isSep
    let out := (splitSep path.data).foldl (cleanStep rooted) []
    let body := joinSep out.reverse
    if rooted then ⟨'/' :: body⟩
    else if body = [] then "." else ⟨body⟩

/-- Go `filepath.Join` of two elements: the non-empty elements, from the first
non-empty one on, are joined by a separator and cleaned. -/
def Join (a b : String) : String :=
  if a ≠ "" then Clean ⟨a.data ++ '/' :: b.data⟩
  else if b ≠ "" then Clean b
  else ""

/-- Go `filepath.IsAbs`. -/
def IsAbs (path : String) : Bool := strings.HasPrefix path "/"

/-- Go `filepath.Abs`; `wd` is the result of `os.Getwd`. -/
def Abs (wd : Except String String) (path : String) : String × Option String :=
  if IsAbs path then (Clean path, none)
  else
    match wd with
    | .error e => ("", some e)
    | .ok d => (Join d path, none)

/-- A directory entry name: non-empty, separator free, neither `.` nor `..`. -/
def isFileName (n : List Char) : Prop :=
  n ≠ [] ∧ n ≠ ['.'] ∧ n ≠ ['.', '.'] ∧ ∀ c ∈ n, isSep c = false

/-- The path `p` has `n` as its last element: it is `n` or ends in a separator
followed by `n`. -/
def EndsWithElem (p n : List Char) : Prop :=
  p = n ∨ ∃ pre, p = pre ++ '/' :: n

end filepath

/-! ## `time` -/

namespace time

/-- A `time.Time`: an instant, given by the seconds since
1970-01-01T00:00:00Z and the nanoseconds within the second, together with the
offset, in seconds east of UTC, that the Location of the value has at that
instant. -/
structure Time where
  unix : Int
  nanosecond : Nat := 0
  offset : Int := 0
  deriving DecidableEq, Repr

/-- The days from 0000-01-01 to the first day of year `y` in the proleptic
Gregorian calendar, in which year 0 is a leap year. -/
def daysBeforeYear (y : Nat) : Nat :=
  365 * y + (y + 3) / 4 - (y + 99) / 100 + (y + 399) / 400

/-- Whether year `y` is a leap year. -/
def isLeap (y : Nat) : Bool := y % 4 = 0 ∧ (y % 100 ≠ 0 ∨ y % 400 = 0)

/-- The search for the year of day `n`: the year goes up while the next year
has begun by day `n`. -/
def yearLoop : Nat → Nat → Nat → Nat
  | 0, _, y => y
  | fuel + 1, n, y => if daysBeforeYear (y + 1) ≤ n then yearLoop fuel n (y + 1) else y

/-- The year that day `n` (counted from 0000-01-01) lies in. -/
def yearOfDay (n : Nat) : Nat := yearLoop (n / 100000 + 2) n (n / 366)

/-- The lengths of the months January to November. -/
def monthLengths (leap : Bool) : List Nat :=
  [31, if leap then 29 else 28, 31, 30, 31, 30, 31, 31, 30, 31, 30]

/-- The search through the months: `d` days remain at the start of month `m`,
whose length and those of the following months are in the list. -/
def monthLoop : List Nat → Nat → Nat → Nat × Nat
  | [], m, d => (m, d + 1)
  | len :: rest, m, d => if d < len then (m, d + 1) else monthLoop rest (m + 1) (d - len)

/-- The month (from 1) and the day of the month (from 1) of the day `doy` of
the year (from 0). -/
def monthDay (leap : Bool) (doy : Nat) : Nat × Nat :=
  monthLoop (monthLengths leap) 1 doy

/-- The wall-clock reading of the time in its Location, in seconds since
0000-01-01T00:00:00 of that clock: this is what `Format` prints. -/
def Time.abs (t : Time) : Int := t.unix + t.offset + 62167219200

/-- The day of the wall-clock reading, counted from 0000-01-01. -/
def Time.daysAbs (t : Time) : Int := t.abs / 86400

/-- The second of the day of the wall-clock reading. -/
def Time.secOfDay (t : Time) : Nat := (t.abs % 86400).toNat

/-- The day within the cycle of 400 years. -/
def Time.dayOfEra (t : Time) : Nat := (t.daysAbs % 146097).toNat

/-- The year within the cycle of 400 years. -/
def Time.yearOfEra (t : Time) : Nat := yearOfDay t.dayOfEra

/-- The method `Time.Year`. -/
def Time.year (t : Time) : Int := 400 * (t.daysAbs / 146097) + t.yearOfEra

/-- The day of the year, from 0. -/
def Time.dayOfYear (t : Time) : Nat := t.dayOfEra - daysBeforeYear t.yearOfEra

/-- The method `Time.Month`. -/
def Time.month (t : Time) : Nat := (monthDay (isLeap t.yearOfEra) t.dayOfYear).1

/-- The method `Time.Day`. -/
def Time.day (t : Time) : Nat := (monthDay (isLeap t.yearOfEra) t.dayOfYear).2

/-- The method `Time.Hour`. -/
def Time.hour (t : Time) : Nat := t.secOfDay / 3600

/-- The method `Time.Minute`. -/
def Time.minute (t : Time) : Nat := t.secOfDay % 3600 / 60

/-- The method `Time.Second`. -/
def Time.second (t : Time) : Nat := t.secOfDay % 60

/-- Go `time.appendInt`: a sign for negative values, then the decimal digits
padded with zeros to `width`. -/
def appendInt (x : Int) (width : Nat) : List Char :=
  let ds := formatNat x.natAbs
  let padded := List.replicate (width - ds.length) '0' ++ ds
  if x < 0 then '-' :: padded else padded

/-- The layout `"2006-01-02_15-04-05"` of `Time.Format`. -/
def formatStamp (t : Time) : String :=
  ⟨appendInt t.year 4 ++ '-' :: appendInt t.month 2 ++ '-' :: appendInt t.day 2
    ++ '_' :: appendInt t.hour 2 ++ '-' :: appendInt t.minute 2
    ++ '-' :: appendInt t.second 2⟩

end time

/-! ## Package `config` -/

namespace config

/-- A named quality profile. -/
structure Profile where
  CRF : Int
  Preset : String
  deriving DecidableEq, Repr

/-- The configuration record `config.Config`. -/
structure Config where
  WatchDirs : List String := []
  DestDir : String := ""
  CRF : Int := 0
  Preset : String := ""
  FPS : Int := 0
  Mute : Bool := false
  Keywords : List String := []
  IgnoreKeywords : List String := []
  NoPad : Bool := false
  StampPerFile : Bool := false
  NoTrash : Bool := false
  BatchStamp : Bool := false
  FFmpegBin : String := ""
  Concurrent : Int := 0
  Notify : Bool := false
  LogFile : String := ""
  DryRun : Bool := false
  Profiles : List (String × Profile) := []
  ParallelSplit : Bool := false
  GPU : Bool := false
  deriving DecidableEq, Repr

/-- The function `config.NewDefault`; `cwd` is the result of `os.Getwd` and
`numCPU` that of `runtime.NumCPU`. -/
def NewDefault (cwd : String) (numCPU : Int) : Config :=
  let defaultDest := filepath.Join cwd "out"
  let defaultConcurrent := wrapInt (numCPU - 1)
  let defaultConcurrent := if defaultConcurrent < 1 then 1 else defaultConcurrent
  { DestDir := defaultDest
    CRF := 22
    Preset := "faster"
    FPS := 30
    BatchStamp := true
    Concurrent := defaultConcurrent
    Notify := true }

end config

open config (Config)

/-! ## Package `convert`: the encoder command line -/

namespace convert

/-- The video filter chain built at the top of `ConvertOne` and of
`convertFile`. -/
def videoFilter (c : Config) : String :=
  let vf := "scale=1920:1080:force_original_aspect_ratio=decrease"
  if !c.NoPad then vf ++ ",pad=1920:1080:(ow-iw)/2:(oh-ih)/2" else vf

/-- The encoder binary chosen by `ConvertOne` and `convertFile`. -/
def ffmpegPath (c : Config) : String :=
  if c.FFmpegBin ≠ "" then c.FFmpegBin else "ffmpeg"

/-- The argument list `ffmpegArgs` that `ConvertOne` has built when it reaches
the encoder invocation. -/
def ConvertOne_ffmpegArgs (c : Config) (inPath outPath : String) : List String :=
  let vf := videoFilter c
  let ffmpegArgs := ["-i", inPath]
  -- Codec Selection
  let ffmpegArgs :=
    if c.GPU then
      let ffmpegArgs := ffmpegArgs ++ ["-c:v", "h264_videotoolbox"]
      let q : Int := 70
      let q :=
        if c.CRF > 0 then
          let q := wrapInt (100 - wrapInt (c.CRF * 2))
          if q < 1 then 1 else q
        else q
      ffmpegArgs ++ ["-q:v", fmtInt q]
    else
      let ffmpegArgs := ffmpegArgs ++ ["-vcodec", "libx264"]
      let ffmpegArgs := ffmpegArgs ++ ["-preset", c.Preset]
      ffmpegArgs ++ ["-crf", fmtInt c.CRF]
  let ffmpegArgs := ffmpegArgs ++ ["-vf", vf, "-movflags", "+faststart"]
  let ffmpegArgs :=
    if c.FPS > 0 then ffmpegArgs ++ ["-r", fmtInt c.FPS] else ffmpegArgs
  let ffmpegArgs :=
    if c.Mute then ffmpegArgs ++ ["-an"]
    else ffmpegArgs ++ ["-acodec", "aac", "-b:a", "128k", "-ac", "2"]
  ffmpegArgs ++ [outPath]

/-- The argument list `ffmpegArgs` that `convertFile` has built when it reaches
the encoder invocation. -/
def convertFile_ffmpegArgs (c : Config) (inPath outPath : String) : List String :=
  let vf := videoFilter c
  let ffmpegArgs := ["-i", inPath]
  -- Codec Logic Reused
  let ffmpegArgs :=
    if c.GPU then
      let ffmpegArgs := ffmpegArgs ++ ["-c:v", "h264_videotoolbox"]
      let q : Int := 70
      let q :=
        if c.CRF > 0 then
          let q := wrapInt (100 - wrapInt (c.CRF * 2))
          if q < 1 then 1 else q
        else q
      ffmpegArgs ++ ["-q:v", fmtInt q]
    else
      let ffmpegArgs := ffmpegArgs ++ ["-vcodec", "libx264"]
      let ffmpegArgs := ffmpegArgs ++ ["-preset", c.Preset]
      ffmpegArgs ++ ["-crf", fmtInt c.CRF]
  let ffmpegArgs := ffmpegArgs ++ ["-vf", vf, "-movflags", "+faststart"]
  -- Audio
  let ffmpegArgs :=
    if c.Mute then ffmpegArgs ++ ["-an"]
    else ffmpegArgs ++ ["-acodec", "aac", "-b:a", "128k", "-ac", "2"]
  ffmpegArgs ++ [outPath]

/-- What `os.Stat` reports about a file that exists. -/
structure FileInfo where
  ModTime : time.Time
  Size : Int
  deriving DecidableEq, Repr

/-- The output path computed at the top of `ConvertOne`: the modification time
of the input (the current time `now` when the stat failed), formatted, with the
extension `.mp4`, inside `outDir`. -/
def ConvertOne_outPath (stat : Option FileInfo) (now : time.Time) (outDir : String) :
    String :=
  let timeStamp :=
    match stat with
    | none => time.formatStamp now
    | some info => time.formatStamp info.ModTime
  filepath.Join outDir (timeStamp ++ ".mp4")

/-- The affine CRF-to-quality rule as the specification words it:
`clamp(x, lo, hi)`. -/
def clamp (x lo hi : Int) : Int := max lo (min hi x)

/-! ### Sample inputs -/

/-- The default configuration on an eight-core host: software encoding. -/
def sampleSoftware : Config := config.NewDefault "/work" 8

/-- The default configuration with hardware encoding switched on. -/
def sampleHardware : Config := { sampleSoftware with GPU := true }

/-- A software configuration whose preset is the string `-q:v`. -/
def samplePresetQv : Config := { sampleSoftware with Preset := "-q:v" }

/-- A sample time: 2024-01-02 03:04:05 UTC. -/
def sampleTime : time.Time := { unix := 1704164645 }

end convert

/-! ## Keyword filtering (`watcher.shouldProcess`, batch mode of `cmd`) -/

/-- The keyword loops of `shouldProcess` and of the batch-mode filter:
`for _, k := range keywords { if strings.Contains(lowerName, strings.ToLower(k)) { … } }`,
true when the body is reached for some keyword. -/
def keywordLoop (tbl : Char → Char) (lowerName : String) : List String → Bool
  | [] => false
  | k :: ks =>
    if strings.Contains lowerName (strings.ToLower tbl k) then true
    else keywordLoop tbl lowerName ks

/-- The keyword `k` is a case-insensitive substring of the name `f`: after
lower-casing both, the characters of `k` occur consecutively in `f`. -/
def ciSubstring (tbl : Char → Char) (k f : String) : Prop :=
  (strings.ToLower tbl k).data <:+: (strings.ToLower tbl f).data

/-- The exclude/include rule in the words of the specification: no ignore
keyword matches, and either no include keyword is configured or one matches. -/
def passesKeywordRule (tbl : Char → Char) (cfg : Config) (f : String) : Prop :=
  (∀ k ∈ cfg.IgnoreKeywords, ¬ ciSubstring tbl k f) ∧
  (cfg.Keywords = [] ∨ ∃ k ∈ cfg.Keywords, ciSubstring tbl k f)

namespace watcher

/-- The loop of `isTargetVideo` over the recognised extensions. -/
def extLoop (ext : String) : List String → Bool
  | [] => false
  | v :: vs => if ext = v then true else extLoop ext vs

/-- The method `Watcher.isTargetVideo`. -/
def isTargetVideo (tbl : Char → Char) (fName : String) : Bool :=
  let ext := strings.ToLower tbl (filepath.Ext fName)
  extLoop ext [".mov", ".mp4", ".m4v", ".avi", ".mkv"]

/-- The method `Watcher.shouldProcess`. -/
def shouldProcess (tbl : Char → Char) (cfg : Config) (fName : String) : Bool :=
  let lowerName := strings.ToLower tbl fName
  -- Exclude
  if cfg.IgnoreKeywords.length > 0 ∧ keywordLoop tbl lowerName cfg.IgnoreKeywords = true then
    false
  -- Include
  else if cfg.Keywords.length > 0 then
    let included := keywordLoop tbl lowerName cfg.Keywords
    if !included then false else true
  else true

end watcher

namespace cmd

/-- The body of the batch-mode filter loop of `rootCmd.Run` for one file:
`false` when the iteration ends in `continue`, `true` when the file is
appended. -/
def keepFile (tbl : Char → Char) (cfg : Config) (f : String) : Bool :=
  let name := filepath.Base f
  let lowerName := strings.ToLower tbl name
  -- Exclude
  let excluded := keywordLoop tbl lowerName cfg.IgnoreKeywords
  if excluded then false
  -- Include (if keywords are set)
  else if cfg.Keywords.length > 0 then
    let included := keywordLoop tbl lowerName cfg.Keywords
    if !included then false else true
  else true

/-- The keyword filter of `rootCmd.Run`: the value of `filteredFiles` after the
`// Keyword Filter` block. -/
def keywordFilter (tbl : Char → Char) (cfg : Config) (files : List String) : List String :=
  if cfg.Keywords.length > 0 ∨ cfg.IgnoreKeywords.length > 0 then
    files.foldl (fun filteredFiles f =>
      if keepFile tbl cfg f then filteredFiles ++ [f] else filteredFiles) []
  else files

end cmd

/-! ## Package `watcher`: the dedup gate -/

namespace watcher

/-- The Go map `processing map[string]bool`: `none` for an absent key. -/
abbrev ProcessingSet := String → Option Bool

/-- The empty map `make(map[string]bool)`. -/
def emptySet : ProcessingSet := fun _ => none

/-- The map read `processing[key]`: the zero value `false` for an absent key. -/
def lookup (processing : ProcessingSet) (key : String) : Bool :=
  (processing key).getD false

/-- The map write `processing[key] = v`. -/
def insert (processing : ProcessingSet) (key : String) (v : Bool) : ProcessingSet :=
  fun k => if k = key then some v else processing k

/-- The built-in `delete(processing, key)`. -/
def delete (processing : ProcessingSet) (key : String) : ProcessingSet :=
  fun k => if k = key then none else processing k

/-- An `fsnotify.Event`: the path and the operation bit mask. -/
structure Event where
  Name : String
  Op : Nat
  deriving DecidableEq, Repr

/-- The bit `fsnotify.Create`. -/
def Create : Nat := 1

/-- The bit `fsnotify.Rename`. -/
def Rename : Nat := 8

/-- What `os.Stat` reports after the debounce delay: the file, an error for
which `os.IsNotExist` holds, or any other error (a path element that is no
longer a directory, a permission or an input/output error), after which nothing
is known about the file. -/
inductive StatResult where
  | found
  | notExist
  | otherError
  deriving DecidableEq, Repr

/-- The stat has shown that the file is there. -/
def StatResult.sawFile (stat : StatResult) : Prop := stat = .found

/-- The lifecycle events sent on `EventChan`. -/
inductive LifecycleEvent where
  | FileFoundEvent (Path Name : String)
  | StartConvertEvent (Path : String)
  | SuccessEvent (Path OutPath : String)
  | FailureEvent (Path Err : String)
  deriving DecidableEq, Repr

/-- The receiver `Watcher`: its configuration and whether `EventChan` is
non-nil. -/
structure Watcher where
  Cfg : Config
  EventChan : Bool := false

/-- The arguments of a `go w.processFile(path, name, …)` statement. -/
structure Job where
  path : String
  name : String
  deriving DecidableEq, Repr

/-- The critical section of `handleEvent` (between `processingMu.Lock()` and
the matching `Unlock()`): the set afterwards, and whether `handleEvent` goes on
to start `processFile`. -/
def checkAndInsert (processing : ProcessingSet) (name : String) : ProcessingSet × Bool :=
  if lookup processing name then (processing, false)
  else (insert processing name true, true)

/-- The effect of one call of `handleEvent`. -/
structure HandleResult where
  processing : ProcessingSet
  spawned : Option Job
  events : List LifecycleEvent

/-- The method `Watcher.handleEvent`. `stat` is the result of `os.Stat` after
the two-second sleep and `processing` the set as found when the lock is
taken. -/
def handleEvent (tbl : Char → Char) (w : Watcher) (stat : StatResult) (event : Event)
    (processing : ProcessingSet) : HandleResult :=
  if event.Op &&& Create ≠ Create ∧ event.Op &&& Rename ≠ Rename then
    ⟨processing, none, []⟩
  else
    let fName := filepath.Base event.Name
    if strings.HasPrefix fName "." then ⟨processing, none, []⟩
    else if !isTargetVideo tbl fName then ⟨processing, none, []⟩
    else if !shouldProcess tbl w.Cfg fName then ⟨processing, none, []⟩
    else
      let events :=
        if w.EventChan then [LifecycleEvent.FileFoundEvent event.Name fName] else []
      -- time.Sleep(2 * time.Second)
      if stat = StatResult.notExist then ⟨processing, none, events⟩
      else
        let r := checkAndInsert processing event.Name
        if r.2 then ⟨r.1, some ⟨event.Name, fName⟩, events⟩
        else ⟨r.1, none, events⟩

/-- How a call of `Converter.Convert` ends: it returns a path and an error,
or it panics. -/
inductive ConvertResult where
  | returned (outPath : String) (err : Option String)
  | panicked (msg : String)
  deriving DecidableEq, Repr

/-- The ways `processFile` can end: four returns, and the panic of the
conversion, which `processFile` does not recover. -/
inductive Outcome where
  | mkdirFailed
  | absFailed
  | convertFailed
  | converted
  | convertPanicked
  deriving DecidableEq, Repr

/-- What the operating system and the converter answer during one run of
`processFile`. -/
structure ProcessEnv where
  absDest : String
  nowStamp : String
  mkdirErr : Option String
  absPath : String × Option String
  convert : String → String → ConvertResult

/-- A call of `convert.SendNotification`. -/
structure Notification where
  title : String
  message : String
  filePath : String
  deriving DecidableEq, Repr

/-- The effect of one run of `processFile`. -/
structure ProcessResult where
  processing : ProcessingSet
  outcome : Outcome
  events : List LifecycleEvent
  notifications : List Notification

/-- The method `Watcher.processFile`. Its only access to the set is the
deferred `delete`, which runs on every return path and also when the
conversion panics; `processing` is the set as found when the deferred function
takes the lock. A panic of the conversion is not recovered: nothing after the
call runs but the deferred function. -/
def processFile (w : Watcher) (env : ProcessEnv) (path name : String)
    (processing : ProcessingSet) : ProcessResult :=
  let deferred := delete processing path
  let baseOut := env.absDest
  let batchDir := if w.Cfg.BatchStamp then filepath.Join baseOut env.nowStamp else baseOut
  match env.mkdirErr with
  | some _ => ⟨deferred, .mkdirFailed, [], []⟩
  | none =>
    match env.absPath with
    | (_, some _) => ⟨deferred, .absFailed, [], []⟩
    | (absPath, none) =>
      let started := if w.EventChan then [LifecycleEvent.StartConvertEvent absPath] else []
      match env.convert absPath batchDir with
      | .panicked _ => ⟨deferred, .convertPanicked, started, []⟩
      | .returned _ (some err) =>
        ⟨deferred, .convertFailed,
          started ++ (if w.EventChan then [LifecycleEvent.FailureEvent absPath err] else []),
          if w.Cfg.Notify then
            [⟨"変換失敗", name ++ " の変換に失敗しました。", ""⟩]
          else []⟩
      | .returned outPath none =>
        ⟨deferred, .converted,
          started ++ (if w.EventChan then [LifecycleEvent.SuccessEvent path outPath] else []),
          if w.Cfg.Notify then
            [⟨"変換完了", name ++ " を変換しました。", outPath⟩]
          else []⟩

/-! ### The dedup gate as a transition system

`handleEvent` runs its check-and-insert under `processingMu`, and the deferred
function of `processFile` runs its `delete` under the same mutex, so both are
atomic steps on the shared set. -/

/-- The shared state: the set and the paths of the `processFile` goroutines
that have been started and have not yet run their deferred `delete`. -/
structure GateState where
  processing : ProcessingSet
  running : List String

/-- The atomic steps. -/
inductive GateStep where
  | discover (path : String)
  | finish (path : String)
  deriving DecidableEq, Repr

/-- The state when `Run` has created the empty map. -/
def GateState.init : GateState := ⟨emptySet, []⟩

/-- One atomic step: `discover p` is the critical section of `handleEvent` for
an accepted event named `p`, followed by `go w.processFile` when the path was
registered; `finish p` is the deferred `delete` of a running job for `p` (a
no-op when no such job is running). -/
def gateStep (s : GateState) : GateStep → GateState
  | .discover p =>
    let r := checkAndInsert s.processing p
    if r.2 then ⟨r.1, p :: s.running⟩ else ⟨r.1, s.running⟩
  | .finish p =>
    if p ∈ s.running then ⟨delete s.processing p, s.running.erase p⟩ else s

/-- The state after a sequence of atomic steps. -/
def gateRun (s : GateState) (steps : List GateStep) : GateState :=
  steps.foldl gateStep s

/-- The gate invariant: a path is registered exactly while a job for it is
running, and no path has two running jobs. -/
def GateInv (s : GateState) : Prop :=
  s.running.Nodup ∧ ∀ p, lookup s.processing p = true ↔ p ∈ s.running

end watcher

/-! ## Package `convert`: the worker pool of `ProcessFiles` -/

namespace convert

/-- Where a goroutine started by `ProcessFiles` stands: created, inside
`c.Convert`, back from `c.Convert`, past `<-semaphore`, past `wg.Done()`. -/
inductive Phase where
  | spawned
  | converting
  | returned
  | released
  | finished
  deriving DecidableEq, Repr

/-- One goroutine of `ProcessFiles`: its file, its phase and the error of its
`Convert` call once that has returned. -/
structure Worker where
  inPath : String
  phase : Phase
  err : Option String
  deriving DecidableEq, Repr

/-- The state of a `ProcessFiles` call: the capacity of the `semaphore`
channel, the output directory, the files the `range` loop has not reached,
whether the main goroutine stands between `wg.Add(1)` and the channel send, the
number of values in the channel, the `WaitGroup` counter, the goroutines started
so far, and whether `wg.Wait()` has returned. -/
structure PoolState where
  capacity : Nat
  batchDir : String
  pending : List String
  added : Bool
  semaphore : Nat
  wg : Nat
  workers : List Worker
  completed : Bool
  deriving DecidableEq, Repr

/-- The atomic steps of `ProcessFiles` and its goroutines in which every
`Convert` call returns; the step in which a call panics is in `RunStep`. -/
inductive PoolStep where
  | add
  | acquire
  | start (i : Nat)
  | ret (i : Nat) (err : Option String)
  | release (i : Nat)
  | done (i : Nat)
  | wait
  deriving DecidableEq, Repr

/-- The part of `ProcessFiles` before the loop: the output directory is
created (a failure is fatal) and the channel is made (a negative capacity
panics). `absDest` is the result of `filepath.Abs(c.Cfg.DestDir)`, `stamp` that
of `nowStamp()`. -/
def ProcessFiles_init (c : Config) (absDest stamp : String) (mkdirErr : Option String)
    (files : List String) : Except String PoolState :=
  let baseOut := absDest
  let batchDir := if c.BatchStamp then filepath.Join baseOut stamp else baseOut
  match mkdirErr with
  | some e => .error ("fatal: " ++ e)
  | none =>
    if c.Concurrent < 0 then .error "panic: makechan: size out of range"
    else
      .ok { capacity := c.Concurrent.toNat
            batchDir := batchDir
            pending := files
            added := false
            semaphore := 0
            wg := 0
            workers := []
            completed := false }

/-- Moves goroutine `i` from phase `src` to phase `dst`, recording `err` if
given; `none` when goroutine `i` does not exist or is not in phase `src`. -/
def advance (workers : List Worker) (i : Nat) (src dst : Phase) (err : Option (Option String)) :
    Option (List Worker) :=
  match workers.get? i with
  | some w =>
    if w.phase = src then
      some (workers.set i { w with phase := dst, err := err.getD w.err })
    else none
  | none => none

/-- One atomic step; a step that is not enabled leaves the state unchanged.
* `add`: `wg.Add(1)` at the top of the loop body.
* `acquire`: the send `semaphore <- struct{}{}` (possible only while the
  channel is not full) and the `go` statement that follows it.
* `start i`: goroutine `i` calls `c.Convert`.
* `ret i err`: that call returns.
* `release i`: the deferred `<-semaphore`.
* `done i`: the deferred `wg.Done()`.
* `wait`: `wg.Wait()` returns, after the loop, once the counter is zero. -/
def poolStep (s : PoolState) : PoolStep → PoolState
  | .add =>
    if s.pending ≠ [] ∧ s.added = false then { s with wg := s.wg + 1, added := true } else s
  | .acquire =>
    match s.pending with
    | inPath :: rest =>
      if s.added = true ∧ s.semaphore < s.capacity then
        { s with
          semaphore := s.semaphore + 1
          workers := s.workers ++ [⟨inPath, .spawned, none⟩]
          pending := rest
          added := false }
      else s
    | [] => s
  | .start i =>
    match advance s.workers i .spawned .converting none with
    | some ws => { s with workers := ws }
    | none => s
  | .ret i err =>
    match advance s.workers i .converting .returned (some err) with
    | some ws => { s with workers := ws }
    | none => s
  | .release i =>
    match advance s.workers i .returned .released none with
    | some ws => { s with workers := ws, semaphore := s.semaphore - 1 }
    | none => s
  | .done i =>
    match advance s.workers i .released .finished none with
    | some ws => { s with workers := ws, wg := s.wg - 1 }
    | none => s
  | .wait =>
    if s.pending = [] ∧ s.added = false ∧ s.wg = 0 then { s with completed := true } else s

/-- The state after a sequence of atomic steps. -/
def poolRun (s : PoolState) (steps : List PoolStep) : PoolState :=
  steps.foldl poolStep s

/-- The number of `Convert` calls in progress. -/
def running (s : PoolState) : Nat :=
  s.workers.countP (fun w => w.phase = .converting)

/-- Whether a goroutine holds a slot: it was started and has not yet received
from the channel. -/
def holdsSlot (w : Worker) : Bool :=
  w.phase = .spawned ∨ w.phase = .converting ∨ w.phase = .returned

/-- The pool invariant: the values in the channel are exactly the slots held,
and they never exceed the capacity. -/
def PoolInv (s : PoolState) : Prop :=
  s.workers.countP holdsSlot = s.semaphore ∧ s.semaphore ≤ s.capacity

/-- Five sample input files. -/
def sampleFiles : List String := ["a.mov", "b.mov", "c.mov", "d.mov", "e.mov"]

/-- A sample configuration with two pool slots. -/
def sampleTwoSlots : Config := { sampleSoftware with Concurrent := 2 }

/-- The pool state right after `ProcessFiles` has made its channel, for the
sample configuration with two slots and the five sample files. -/
def samplePool : PoolState :=
  { capacity := 2
    batchDir := "/out/20240102"
    pending := sampleFiles
    added := false
    semaphore := 0
    wg := 0
    workers := []
    completed := false }

/-- A schedule that tries to get three conversions going at once. -/
def sampleSchedule : List PoolStep :=
  [.add, .acquire, .start 0, .add, .acquire, .start 1, .add, .acquire, .start 2]

end convert

/-! ## Package `convert`: split mode -/

namespace convert

/-- The outcome of running an external command with `CombinedOutput`: `none`
when it exited with status zero, else the error text and the captured
output. -/
abbrev ExecResult := Option (String × String)

/-- The function `convertFile`: the error it returns. `exec` is the outcome of
the encoder process, consulted only when the process is started. -/
def convertFile (c : Config) (exec : ExecResult) (inPath outPath : String) :
    Option String :=
  let _ffmpegArgs := convertFile_ffmpegArgs c inPath outPath
  if c.DryRun then none
  else
    match exec with
    | some (err, out) => some ("ffmpeg error: " ++ err ++ "\n" ++ out)
    | none => none

/-- The local type `result` of `ConvertSplit`. -/
structure result where
  index : Int
  path : String
  err : Option String
  deriving DecidableEq, Repr

/-- What the operating system answers during one run of `ConvertSplit`. -/
structure SplitEnv where
  /-- `os.MkdirTemp("", "rec-watch-split-*")` -/
  mkdirTemp : Except String String
  /-- `s.Split(inPath, tmpDir, 300)` -/
  split : Except String (List String)
  /-- The encoder process of chunk `i`. -/
  chunkExec : Nat → ExecResult
  /-- The order in which the chunk goroutines complete. -/
  order : List Nat
  /-- `os.Getwd()`, for `filepath.Abs`. -/
  wd : Except String String
  /-- `os.Create(listFile)` -/
  createErr : Option String
  /-- `os.Stat(inPath)` -/
  stat : Option FileInfo
  /-- The merge process. -/
  mergeExec : ExecResult
  /-- `moveToTrash(inPath)` -/
  trashErr : Option String

/-- The anonymous struct `logEntry` of `ConvertOne`: the result record that is
marshalled to JSON and logged (`Type_` is its field `Type`). `DurationSec` is kept as the elapsed time in
nanoseconds; its conversion to a float is not modelled. -/
structure ResultRecord where
  Type_ : String
  Input : String
  Output : String
  DurationSec : Int
  OriginalSize : Int
  ConvertedSize : Int
  SizeDiff : Int
  Timestamp : String
  deriving DecidableEq, Repr

/-- What `ConvertOne` and `ConvertSplit` do to the outside world. -/
inductive Effect where
  | run (bin : String) (args : List String)
  | logRecord (r : ResultRecord)
  | mkdirTemp
  | split (inPath tmpDir : String)
  | mkdirAll (dir : String)
  | encode (index : Nat) (chunkPath outFile : String) (started : Bool)
  | createList (listFile : String)
  | writeLine (line : String)
  | merge (bin : String) (args : List String)
  | trash (inPath : String)
  | removeAll (tmpDir : String)
  deriving DecidableEq, Repr

/-- How a call ends: it returns its two results, or it panics. -/
inductive Outcome where
  | returned (outPath : String) (err : Option String)
  | panicked (msg : String)
  deriving DecidableEq, Repr

/-- The body of the goroutine that `ConvertSplit` starts for chunk `i`: the
value it stores in `results[i]`. -/
def chunkResult (c : Config) (env : SplitEnv) (tmpDir : String) (i : Nat)
    (chunkPath : String) : result :=
  let chuckOutDir := filepath.Join tmpDir "converted"
  let outFile := filepath.Join chuckOutDir (filepath.Base chunkPath)
  let err := convertFile c (env.chunkExec i) chunkPath outFile
  { index := i, path := outFile, err := err }

/-- The array `results` when `wg.Wait()` returns: it starts as
`make([]result, len(chunks))`, and the goroutines store into it in the order
`order` in which they complete. -/
def fillResults (c : Config) (env : SplitEnv) (tmpDir : String) (chunks : List String)
    (order : List Nat) : List result :=
  order.foldl
    (fun results i =>
      match chunks.get? i with
      | some chunkPath => results.set i (chunkResult c env tmpDir i chunkPath)
      | none => results)
    (List.replicate chunks.length { index := 0, path := "", err := none })

/-- The `// Check errors` loop of `ConvertSplit`: the error of the first entry
that has one, else the paths collected in `convertedChunks`. -/
def checkErrors : List result → List String → Except String (List String)
  | [], convertedChunks => .ok convertedChunks
  | res :: rest, convertedChunks =>
    match res.err with
    | some e => .error ("chunk " ++ fmtInt res.index ++ " failed: " ++ e)
    | none => checkErrors rest (convertedChunks ++ [res.path])

/-- The lines written to the concatenation list, one per converted chunk. -/
def concatLines (env : SplitEnv) (convertedChunks : List String) : List String :=
  convertedChunks.map (fun chunk =>
    let abs := (filepath.Abs env.wd chunk).1
    "file '" ++ abs ++ "'\n")

/-- The part of `ConvertSplit` that follows `wg.Wait()`: the error check, the
concatenation list, the merge and the trash move. -/
def ConvertSplit_afterWait (c : Config) (env : SplitEnv) (inPath outDir tmpDir : String)
    (results : List result) : List Effect × Outcome :=
  -- Check errors
  match checkErrors results [] with
  | .error e => ([], .returned "" (some e))
  | .ok convertedChunks =>
    -- 3. Merge (Concat)
    let listFile := filepath.Join tmpDir "concat.txt"
    match env.createErr with
    | some e => ([.createList listFile], .returned "" (some e))
    | none =>
      let written := Effect.createList listFile ::
        (concatLines env convertedChunks).map Effect.writeLine
      match env.stat with
      | none => (written, .panicked "nil pointer dereference")
      | some info =>
        let timeStamp := time.formatStamp info.ModTime
        let finalOutPath := filepath.Join outDir (timeStamp ++ ".mp4")
        let mergeArgs := ["-f", "concat", "-safe", "0", "-i", listFile, "-c", "copy", finalOutPath]
        let bin := if c.FFmpegBin = "" then "ffmpeg" else c.FFmpegBin
        let merged := written ++ [.merge bin mergeArgs]
        match env.mergeExec with
        | some (err, out) =>
          (merged, .returned "" (some ("merge failed: " ++ err ++ "\n" ++ out)))
        | none =>
          if !c.NoTrash && !c.DryRun then
            (merged ++ [.trash inPath], .returned finalOutPath none)
          else (merged, .returned finalOutPath none)

/-- The capacity of the channel `sem` of `ConvertSplit`. -/
def subPoolCapacity (c : Config) : Int :=
  if c.Concurrent = 0 then 4 else c.Concurrent

/-- Step `// 1. Split` of `ConvertSplit`: the chunk list (three mock chunks in
a dry run, else the result of `s.Split`) and what was done to get it. -/
def splitChunks (c : Config) (env : SplitEnv) (inPath tmpDir : String) :
    Except String (List String) × List Effect :=
  if c.DryRun then
    (.ok [filepath.Join tmpDir "chunk_000.mp4", filepath.Join tmpDir "chunk_001.mp4",
      filepath.Join tmpDir "chunk_002.mp4"], [])
  else (env.split, [.split inPath tmpDir])

/-- What the chunk goroutines do to the outside world, in the order in which
they complete. -/
def chunkEffects (c : Config) (env : SplitEnv) (tmpDir : String) (chunks : List String) :
    List Effect :=
  env.order.flatMap (fun i =>
    match chunks.get? i with
    | some chunkPath =>
      [.mkdirAll (filepath.Join tmpDir "converted"),
        .encode i chunkPath (chunkResult c env tmpDir i chunkPath).path (!c.DryRun)]
    | none => [])

/-- The method `Converter.ConvertSplit`. -/
def ConvertSplit (c : Config) (env : SplitEnv) (inPath outDir : String) :
    List Effect × Outcome :=
  -- Temp Dir
  match env.mkdirTemp with
  | .error e => ([.mkdirTemp], .returned "" (some e))
  | .ok tmpDir =>
    -- defer os.RemoveAll(tmpDir)
    match splitChunks c env inPath tmpDir with
    | (.error e, effs) =>
      (.mkdirTemp :: effs ++ [.removeAll tmpDir], .returned "" (some e))
    | (.ok chunks, effs) =>
      -- 2. Parallel Transcode chunks
      if c.Concurrent < 0 then
        (.mkdirTemp :: effs ++ [.removeAll tmpDir], .panicked "makechan: size out of range")
      else
        let results := fillResults c env tmpDir chunks env.order
        let tail := ConvertSplit_afterWait c env inPath outDir tmpDir results
        (.mkdirTemp :: effs ++ chunkEffects c env tmpDir chunks ++ tail.1 ++ [.removeAll tmpDir],
          tail.2)

/-- Whether an effect writes the concatenation list or runs the merge. -/
def Effect.isMergeWork : Effect → Bool
  | .createList _ => true
  | .writeLine _ => true
  | .merge _ _ => true
  | _ => false

/-- The lines written to the concatenation list, in the order written. -/
def writtenLines (effects : List Effect) : List String :=
  effects.filterMap (fun e =>
    match e with
    | .writeLine line => some line
    | _ => none)

/-- The path `ConvertSplit` passes to `convertFile` as the output of a chunk. -/
def chunkOutFile (tmpDir chunkPath : String) : String :=
  filepath.Join (filepath.Join tmpDir "converted") (filepath.Base chunkPath)

/-- A sample environment for split mode: three chunks, the encoder of chunk 1
fails, and the chunks complete in the order 2, 0, 1. -/
def sampleSplitEnv : SplitEnv :=
  { mkdirTemp := .ok "/tmp/rec-watch-split-1"
    split := .ok ["/tmp/rec-watch-split-1/chunk_000.mp4",
      "/tmp/rec-watch-split-1/chunk_001.mp4", "/tmp/rec-watch-split-1/chunk_002.mp4"]
    chunkExec := fun i => if i = 1 then some ("exit status 1", "boom") else none
    order := [2, 0, 1]
    wd := .ok "/work"
    createErr := none
    stat := some ⟨sampleTime, 1000⟩
    mergeExec := none
    trashErr := none }

/-- The same environment with every chunk encoder succeeding. -/
def sampleSplitEnvOk : SplitEnv := { sampleSplitEnv with chunkExec := fun _ => none }

end convert

/-! ### `ProcessFiles`: what a run does to every file -/

namespace convert

/-- Whether goroutine `i` exists and is about to call `c.Convert`. -/
def canStart (s : PoolState) (i : Nat) : Bool :=
  (advance s.workers i .spawned .converting none).isSome

/-- The `c.Convert` calls made along a run: the goroutine indices of the
enabled `start` steps, in the order in which they happen. -/
def convertCalls (s : PoolState) : List PoolStep → List Nat
  | [] => []
  | .start i :: rest =>
    (if canStart s i then [i] else []) ++ convertCalls (poolStep s (.start i)) rest
  | a :: rest => convertCalls (poolStep s a) rest

/-- How many atomic steps a goroutine in the given phase still has to take. -/
def Phase.rank : Phase → Nat
  | .spawned => 4
  | .converting => 3
  | .returned => 2
  | .released => 1
  | .finished => 0

/-- An upper bound on the number of state-changing steps left: six per file not
yet dispatched (one less once `wg.Add` is done), the remaining steps of every
goroutine, and the final `wg.Wait`. -/
def poolMeasure (s : PoolState) : Nat :=
  6 * s.pending.length + (s.workers.map (fun w => w.phase.rank)).sum +
    (if s.added then 0 else 1) + (if s.completed then 0 else 1)

/-- A schedule follows the outcome pattern `errs` when every `Convert` call of
goroutine `i` that returns in it returns `errs i`. -/
def followsOutcomes (errs : Nat → Option String) (steps : List PoolStep) : Prop :=
  ∀ i e, PoolStep.ret i e ∈ steps → e = errs i

/-- Whether a goroutine has not yet called `wg.Done()`. -/
def unfinished (w : Worker) : Bool := w.phase ≠ .finished

/-- The bookkeeping invariant of a `ProcessFiles` run over `files` in which the
goroutines `calls` have called `c.Convert` so far. -/
structure PoolWf (files : List String) (calls : List Nat) (s : PoolState) : Prop where
  dispatched : s.workers.map (fun w => w.inPath) ++ s.pending = files
  callsNodup : calls.Nodup
  callsIff : ∀ i, i ∈ calls ↔ ∃ w, s.workers.get? i = some w ∧ w.phase ≠ .spawned
  counter : s.wg = s.workers.countP unfinished + (if s.added then 1 else 0)
  slots : PoolInv s
  addedPending : s.added = true → s.pending ≠ []
  atEnd : s.completed = true → s.pending = [] ∧ s.added = false ∧ s.wg = 0

/-- A schedule that handles the files one after the other; the conversion of
the second file fails. -/
def sampleSequential : List PoolStep :=
  (List.range 5).flatMap (fun i =>
    [.add, .acquire, .start i, .ret i (if i = 1 then some "boom" else none),
      .release i, .done i]) ++ [.wait]

end convert

/-! ### The pieces of the encoder command line -/

namespace convert

/-- The quality value computed in the hardware branch of the
`// Codec Selection` block. -/
def hardwareQuality (crf : Int) : Int :=
  if crf > 0 then
    let q := wrapInt (100 - wrapInt (crf * 2))
    if q < 1 then 1 else q
  else 70

/-- The codec arguments: what the `// Codec Selection` block appends. -/
def codecArgs (c : Config) : List String :=
  if c.GPU then ["-c:v", "h264_videotoolbox", "-q:v", fmtInt (hardwareQuality c.CRF)]
  else ["-vcodec", "libx264", "-preset", c.Preset, "-crf", fmtInt c.CRF]

/-- The frame-rate override: present when the configured value is positive. -/
def fpsArgs (c : Config) : List String :=
  if c.FPS > 0 then ["-r", fmtInt c.FPS] else []

/-- The audio arguments. -/
def audioArgs (c : Config) : List String :=
  if c.Mute then ["-an"] else ["-acodec", "aac", "-b:a", "128k", "-ac", "2"]

/-- A software configuration without frame-rate override whose preset is the
string `-r`. -/
def samplePresetR : Config := { sampleSoftware with FPS := 0, Preset := "-r" }

/-- The default configuration with the frame-rate override switched off. -/
def sampleNoFps : Config := { sampleSoftware with FPS := 0 }

end convert

/-! ## Package `convert`: the whole of `ConvertOne` -/

namespace convert

/-- What the operating system answers during one run of `ConvertOne`. -/
structure OneEnv where
  /-- `os.Stat(inPath)` at the top of the function -/
  stat : Option FileInfo
  /-- `time.Now()`, used for the name when the stat failed -/
  now : time.Time
  /-- The encoder process. -/
  exec : ExecResult
  /-- `os.Stat(outPath)` after the encoder has finished -/
  statOut : Option FileInfo
  /-- `time.Since(startTime)` in nanoseconds -/
  elapsed : Int
  /-- `time.Now().Format(time.RFC3339)` -/
  timestamp : String
  /-- `moveToTrash(inPath)` -/
  trashErr : Option String

/-- The method `Converter.ConvertOne`: what it does and how it ends. Only the
JSON result line is kept of what it logs. -/
def ConvertOne (c : Config) (env : OneEnv) (inPath outDir : String) :
    List Effect × Outcome :=
  let outPath := ConvertOne_outPath env.stat env.now outDir
  let ffmpegPath := ffmpegPath c
  let ffmpegArgs := ConvertOne_ffmpegArgs c inPath outPath
  if c.DryRun then ([], .returned outPath none) -- Return success for dry-run
  else
    match env.exec with
    | some (err, output) =>
      ([.run ffmpegPath ffmpegArgs],
        .returned "" (some ("ffmpeg実行エラー: " ++ err ++ "\n" ++ output)))
    | none =>
      -- Stats collecting
      match env.statOut with
      | none => ([.run ffmpegPath ffmpegArgs], .panicked "nil pointer dereference")
      | some infoOut =>
        let convertedSize := infoOut.Size
        match env.stat with
        | none => ([.run ffmpegPath ffmpegArgs], .panicked "nil pointer dereference")
        | some info =>
          let originalSize := info.Size
          let logEntry : ResultRecord :=
            { Type_ := "conversion_result"
              Input := inPath
              Output := outPath
              DurationSec := env.elapsed
              OriginalSize := originalSize
              ConvertedSize := convertedSize
              SizeDiff := wrapInt (originalSize - convertedSize)
              Timestamp := env.timestamp }
          let done := [Effect.run ffmpegPath ffmpegArgs, .logRecord logEntry]
          if !c.NoTrash && !c.DryRun then (done ++ [.trash inPath], .returned outPath none)
          else (done, .returned outPath none)

/-- The result records logged, in order. -/
def records (effects : List Effect) : List ResultRecord :=
  effects.filterMap (fun e =>
    match e with
    | .logRecord r => some r
    | _ => none)

/-- A JSON value, as far as the result line needs it. -/
inductive JsonValue where
  | str (s : String)
  | int (n : Int)
  | float (nanos : Int)
  deriving DecidableEq, Repr

/-- The members of the JSON object that `json.Marshal(logEntry)` produces: one
per field, under the key of its `json` tag, in declaration order. -/
def marshal (r : ResultRecord) : List (String × JsonValue) :=
  [("type", .str r.Type_),
   ("input", .str r.Input),
   ("output", .str r.Output),
   ("duration_sec", .float r.DurationSec),
   ("original_size", .int r.OriginalSize),
   ("converted_size", .int r.ConvertedSize),
   ("size_diff", .int r.SizeDiff),
   ("timestamp", .str r.Timestamp)]

/-- A sample environment for `ConvertOne`: everything succeeds. -/
def sampleOneEnv : OneEnv :=
  { stat := some ⟨sampleTime, 5000⟩
    now := sampleTime
    exec := none
    statOut := some ⟨sampleTime, 1200⟩
    elapsed := 3000000000
    timestamp := "2024-01-02T03:05:00Z"
    trashErr := none }

/-- The same environment with a failing encoder. -/
def sampleOneEnvFail : OneEnv :=
  { sampleOneEnv with exec := some ("exit status 1", "Invalid data found") }

/-- The same environment with a failing trash move. -/
def sampleOneEnvTrashFail : OneEnv :=
  { sampleOneEnv with trashErr := some "gio command not found" }

end convert

namespace cmd

/-- The struct `LogEntry` of the `stats` command: what it decodes from a log
line. -/
structure LogEntry where
  Type_ : String
  Input : String
  Output : String
  DurationSec : Int
  OriginalSize : Int
  ConvertedSize : Int
  SizeDiff : Int
  Timestamp : String
  deriving DecidableEq, Repr

/-- The member of a JSON object with the given key. -/
def member (obj : List (String × convert.JsonValue)) (key : String) :
    Option convert.JsonValue :=
  (obj.find? (fun kv => kv.1 = key)).map (fun kv => kv.2)

/-- Decoding of a `string` field: the zero value when the member is absent,
an error when it is not a string. -/
def stringField (obj : List (String × convert.JsonValue)) (key : String) : Option String :=
  match member obj key with
  | none => some ""
  | some (.str s) => some s
  | some _ => none

/-- Decoding of an `int64` field. -/
def intField (obj : List (String × convert.JsonValue)) (key : String) : Option Int :=
  match member obj key with
  | none => some 0
  | some (.int n) => some n
  | some _ => none

/-- Decoding of a `float64` field. -/
def floatField (obj : List (String × convert.JsonValue)) (key : String) : Option Int :=
  match member obj key with
  | none => some 0
  | some (.float x) => some x
  | some (.int n) => some (n * 1000000000)
  | some _ => none

/-- What `json.Unmarshal(…, &entry)` leaves in a `LogEntry`, by the `json`
tags of its fields; `none` when it returns an error. -/
def unmarshal (obj : List (String × convert.JsonValue)) : Option LogEntry := do
  let type ← stringField obj "type"
  let input ← stringField obj "input"
  let output ← stringField obj "output"
  let durationSec ← floatField obj "duration_sec"
  let originalSize ← intField obj "original_size"
  let convertedSize ← intField obj "converted_size"
  let sizeDiff ← intField obj "size_diff"
  let timestamp ← stringField obj "timestamp"
  pure
    { Type_ := type
      Input := input
      Output := output
      DurationSec := durationSec
      OriginalSize := originalSize
      ConvertedSize := convertedSize
      SizeDiff := sizeDiff
      Timestamp := timestamp }

end cmd

/-! ### Acceptance by `handleEvent` -/

namespace watcher

/-- The acceptance conditions of the dedup gate: the event is a create or a
rename, the base name is not hidden, the extension is a recognised video
extension, the keyword filter passes, the stat after the debounce delay does not
report the file missing, and the path is not in the set. -/
def Accepts (tbl : Char → Char) (w : Watcher) (stat : StatResult) (event : Event)
    (processing : ProcessingSet) : Prop :=
  (event.Op &&& Create = Create ∨ event.Op &&& Rename = Rename) ∧
  strings.HasPrefix (filepath.Base event.Name) "." = false ∧
  isTargetVideo tbl (filepath.Base event.Name) = true ∧
  shouldProcess tbl w.Cfg (filepath.Base event.Name) = true ∧
  stat ≠ StatResult.notExist ∧
  lookup processing event.Name = false

/-- A watcher with the default configuration. -/
def sampleWatcher : Watcher := { Cfg := convert.sampleSoftware }

end watcher

/-! ### Batch mode: duplicate removal -/

namespace cmd

/-- The `// Unique` loop of `rootCmd.Run`: `uniqueFiles` is the map of the
paths seen so far (absent keys read as `false`) and `result` the slice built so
far. -/
def uniqueLoop : List String → (String → Bool) → List String → List String
  | [], _, result => result
  | f :: files, uniqueFiles, result =>
    if !uniqueFiles f then
      uniqueLoop files (fun k => if k = f then true else uniqueFiles k) (result ++ [f])
    else uniqueLoop files uniqueFiles result

/-- The value of `files` after the `// Unique` block. -/
def unique (files : List String) : List String :=
  uniqueLoop files (fun _ => false) []

end cmd

/-! ### Sortable time-stamp names -/

namespace strings

/-- The built-in comparison `a < b` of two Go strings: lexicographic, code
point by code point. -/
def less : List Char → List Char → Bool
  | _, [] => false
  | [], _ :: _ => true
  | a :: as, b :: bs => decide (a.toNat < b.toNat) || (decide (a = b) && less as bs)

end strings

namespace time

/-- The decimal digits of `n` in a field of width `w`, padded with zeros. -/
def padDigits : Nat → Nat → List Char
  | 0, _ => []
  | w + 1, n => padDigits w (n / 10) ++ [digitChar (n % 10)]

/-- A time whose wall-clock reading has a year from 0000 to 9999. -/
def Time.inRange (t : Time) : Prop := 0 ≤ t.year ∧ t.year ≤ 9999

/-- Two times have the same wall-clock reading down to the second. -/
def Time.sameSecond (t u : Time) : Prop :=
  t.year = u.year ∧ t.month = u.month ∧ t.day = u.day ∧ t.hour = u.hour ∧
  t.minute = u.minute ∧ t.second = u.second

/-- The order of the wall-clock readings of two times down to the second: year
first, then month, day, hour, minute and second. -/
def Time.secondBefore (t u : Time) : Prop :=
  t.year < u.year ∨ (t.year = u.year ∧
    (t.month < u.month ∨ (t.month = u.month ∧
      (t.day < u.day ∨ (t.day = u.day ∧
        (t.hour < u.hour ∨ (t.hour = u.hour ∧
          (t.minute < u.minute ∨ (t.minute = u.minute ∧ t.second < u.second)))))))))

end time

namespace convert

/-- The file name `ConvertOne` gives to the conversion of a file last modified
at `t`. -/
def outName (t : time.Time) : String := time.formatStamp t ++ ".mp4"

/-- A time half a second after the sample time. -/
def sampleTimeLater : time.Time := { unix := 1704164645, nanosecond := 500000000 }

/-- A time in the year after the sample time: 2025-01-01 00:00:00 UTC. -/
def sampleTimeNextYear : time.Time := { unix := 1735689600 }

/-- The offsets of a zone that leaves daylight saving time on 2024-11-03 at
06:00:00 UTC, going from four to five hours west of UTC. -/
def sampleZone (unix : Int) : Int := if unix < 1730613600 then -14400 else -18000

/-- A time half an hour before the zone leaves daylight saving time: the local
clock shows 01:30:00. -/
def sampleBeforeFallBack : time.Time := { unix := 1730611800, offset := -14400 }

/-- A time ten minutes after the zone has left daylight saving time, forty
minutes after the previous one: the local clock shows 01:10:00. -/
def sampleAfterFallBack : time.Time := { unix := 1730614200, offset := -18000 }

end convert

/-! ### `ProcessFiles` on a channel without buffer -/

namespace convert

/-- The atomic steps of `ProcessFiles` when the channel may have no buffer:
those of `PoolStep`, and the direct hand-over of a value from the blocked send
of the main goroutine to the deferred receive of goroutine `i`, the only way a
send on a channel of capacity 0 completes. -/
inductive ChanStep where
  | step (a : PoolStep)
  | handoff (i : Nat)
  deriving DecidableEq, Repr

/-- One atomic step on a channel that may have no buffer. The hand-over needs
the main goroutine at its send and goroutine `i` at its deferred receive; it
completes both and the `go` statement after the send starts the next
goroutine. -/
def chanStep (s : PoolState) : ChanStep → PoolState
  | .step a => poolStep s a
  | .handoff i =>
    match s.pending with
    | inPath :: rest =>
      if s.added = true ∧ s.capacity = 0 then
        match advance s.workers i .returned .released none with
        | some ws =>
          { s with
            workers := ws ++ [⟨inPath, .spawned, none⟩]
            pending := rest
            added := false }
        | none => s
      else s
    | [] => s

/-- The state after a sequence of such steps. -/
def chanRun (s : PoolState) (steps : List ChanStep) : PoolState :=
  steps.foldl chanStep s

/-- The states `ProcessFiles` can be in when its channel has capacity 0 and
the file list is not empty: the main goroutine is at the first file, before or
after `wg.Add(1)`, and no goroutine exists. -/
def Blocked (files : List String) (s : PoolState) : Prop :=
  s.capacity = 0 ∧ s.pending = files ∧ s.workers = [] ∧ s.semaphore = 0 ∧
  s.completed = false ∧ ((s.added = false ∧ s.wg = 0) ∨ (s.added = true ∧ s.wg = 1))

/-- A sample configuration with `Concurrent` 0. -/
def sampleNoSlots : Config := { sampleSoftware with Concurrent := 0 }

/-- The pool state right after `ProcessFiles` has made its channel, for the
sample configuration with `Concurrent` 0 and the five sample files. -/
def samplePool0 : PoolState :=
  { capacity := 0
    batchDir := "/out/20240102"
    pending := sampleFiles
    added := false
    semaphore := 0
    wg := 0
    workers := []
    completed := false }

end convert

/-! ### Samples with failing stats and dry runs -/

namespace convert

/-- The merge command line of `ConvertSplit` for the temporary directory
`tmpDir` and the output `finalOutPath`. -/
def mergeArgs (tmpDir finalOutPath : String) : List String :=
  ["-f", "concat", "-safe", "0", "-i", filepath.Join tmpDir "concat.txt", "-c", "copy",
    finalOutPath]

/-- The binary `ConvertSplit` runs for the merge. -/
def mergeBin (c : Config) : String :=
  if c.FFmpegBin = "" then "ffmpeg" else c.FFmpegBin

/-- Whether an effect starts an encoder process: the encoder run of
`ConvertOne`, the split run, a chunk encode that was started, or the merge
run. -/
def Effect.startsProcess : Effect → Bool
  | .run _ _ => true
  | .split _ _ => true
  | .encode _ _ _ started => started
  | .merge _ _ => true
  | _ => false

/-- The method `Converter.Convert`: the split path when `ParallelSplit` is
set, else `ConvertOne`. `one` and `env` are what the operating system answers
on either path. -/
def Convert (c : Config) (one : OneEnv) (env : SplitEnv) (inPath outDir : String) :
    List Effect × Outcome :=
  let shouldSplit := c.ParallelSplit
  if shouldSplit then
    if c.GPU then ConvertSplit c env inPath outDir
    else ConvertSplit c env inPath outDir
  else ConvertOne c one inPath outDir

/-- The split-mode sample with every encoder succeeding, for an input whose
stat fails. -/
def sampleSplitEnvNoStat : SplitEnv := { sampleSplitEnvOk with stat := none }

/-- The `ConvertOne` sample for an input whose stat fails. -/
def sampleOneEnvNoStat : OneEnv := { sampleOneEnv with stat := none }

/-- The `ConvertOne` sample with a failing stat of the output file. -/
def sampleOneEnvNoStatOut : OneEnv := { sampleOneEnv with statOut := none }

/-- The sample configuration as a dry run. -/
def sampleDryRun : Config := { sampleSoftware with DryRun := true }

/-- The sample configuration as a dry run in split mode. -/
def sampleDryRunSplit : Config :=
  { sampleSoftware with DryRun := true, ParallelSplit := true }

/-- The split-mode sample in which the merge process fails. -/
def sampleSplitEnvMergeFail : SplitEnv :=
  { sampleSplitEnvOk with
    mergeExec := some ("exit status 1", "No such file or directory") }

end convert

/-! ## Package `sort` and package `split` -/

namespace sort

/-- The order `a <= b` of two Go strings, that is, not `b < a`. -/
def le (a b : String) : Prop := strings.less b.data a.data = false

instance decLe : DecidableRel le :=
  fun a b => inferInstanceAs (Decidable (strings.less b.data a.data = false))

/-- Go `sort.Strings`: the strings in increasing order. The order on strings
is total and equal strings are identical, so the sorted arrangement is unique
and does not depend on the algorithm; it is computed here by insertion. -/
def Strings (x : List String) : List String := x.insertionSort le

end sort

namespace split

/-- The name the segment muxer gives to chunk number `i` under the pattern
`chunk_%03d.mp4`: the index in decimal, padded with zeros to three digits. -/
def chunkName (i : Nat) : String :=
  ⟨"chunk_".data ++ time.appendInt (i : Int) 3 ++ ".mp4".data⟩

/-- The path of chunk number `i` in the directory `outDir`. -/
def chunkPath (outDir : String) (i : Nat) : String :=
  filepath.Join outDir (chunkName i)

/-- The method `Splitter.Split`. `exec` is the outcome of the segmenting
process and `glob` the result of `filepath.Glob` for `chunk_*.mp4` in
`outDir`. -/
def Split (exec : convert.ExecResult) (glob : Except String (List String))
    (inFile outDir : String) (segmentTime : Int) : Except String (List String) :=
  let _outPattern := filepath.Join outDir "chunk_%03d.mp4"
  let _args := ["-i", inFile, "-c", "copy", "-map", "0", "-f", "segment",
    "-segment_time", fmtInt segmentTime, "-reset_timestamps", "1", _outPattern]
  match exec with
  | some (err, output) => .error ("split failed: " ++ err ++ "\n" ++ output)
  | none =>
    -- Verify and collect output files
    match glob with
    | .error err => .error err
    | .ok files => .ok (sort.Strings files)

end split

/-! ## Package `tui` -/

namespace tui

/-- The struct `Model`, without its subscription channel. -/
structure Model where
  cfg : Config
  queue : List String
  paths : List String
  history : List String
  cursor : Int
  deriving DecidableEq, Repr

/-- The messages `Update` receives: a key press (with the result of
`msg.String()`), a tick, one of the four watcher events, or anything else. -/
inductive Msg where
  | KeyMsg (key : String)
  | tickMsg
  | FileFoundEvent (Path Name : String)
  | StartConvertEvent (Path : String)
  | SuccessEvent (Path OutPath : String)
  | FailureEvent (Path Err : String)
  | other
  deriving DecidableEq, Repr

/-- The commands `Update` returns. -/
inductive Cmd where
  | nil
  | Quit
  | ExecProcess (name : String) (args : List String)
  | tickCmd
  | waitForActivity
  deriving DecidableEq, Repr

/-- The function `NewModel`; the cursor has the zero value. -/
def NewModel (cfg : Config) : Model :=
  { cfg := cfg, queue := [], paths := [], history := [], cursor := 0 }

/-- The `// Find index` loop of `Update`: the index of the first entry of
`paths` equal to `path`, counted from `i`, or -1. -/
def findIndex : List String → String → Int → Int
  | [], _, _ => -1
  | p :: rest, path, i => if p = path then i else findIndex rest path (i + 1)

/-- The method `Model.Update`. An index or a slice bound out of range panics,
which is the error result. The increment and the decrement of the cursor
cannot overflow under their guards (`len` is an `int`), so they are written
without wrapping. -/
def Update (m : Model) (msg : Msg) : Except String (Model × Cmd) :=
  match msg with
  | .KeyMsg key =>
    if key = "q" ∨ key = "ctrl+c" then .ok (m, .Quit)
    else if key = "up" ∨ key = "k" then
      let m := if m.cursor > 0 then { m with cursor := m.cursor - 1 } else m
      .ok (m, .nil)
    else if key = "down" ∨ key = "j" then
      let m :=
        if m.cursor < (m.queue.length : Int) - 1 then { m with cursor := m.cursor + 1 } else m
      .ok (m, .nil)
    else if key = " " then
      -- QuickLook
      if (m.queue.length : Int) > 0 ∧ m.cursor < (m.paths.length : Int) then
        if m.cursor < 0 then .error "index out of range"
        else
          let path := (m.paths.get? m.cursor.toNat).getD ""
          .ok (m, .ExecProcess "qlmanage" ["-p", path])
      else .ok (m, .nil)
    else .ok (m, .nil)
  | .tickMsg => .ok (m, .tickCmd)
  -- Watcher Events
  | .FileFoundEvent Path Name =>
    let m := { m with queue := m.queue ++ [Name] }
    let m := { m with paths := m.paths ++ [Path] }
    .ok (m, .waitForActivity)
  | .StartConvertEvent Path =>
    let idx := findIndex m.paths Path 0
    let removed : Except String Model :=
      if idx ≥ 0 then
        if (m.queue.length : Int) < idx + 1 then .error "slice bounds out of range"
        else
          -- Remove from queue and paths
          let m := { m with queue := m.queue.take idx.toNat ++ m.queue.drop (idx.toNat + 1) }
          let m := { m with paths := m.paths.take idx.toNat ++ m.paths.drop (idx.toNat + 1) }
          -- Adjust cursor
          if m.cursor ≥ (m.queue.length : Int) ∧ m.cursor > 0 then
            .ok { m with cursor := m.cursor - 1 }
          else .ok m
      else .ok m
    match removed with
    | .error e => .error e
    | .ok m =>
      .ok ({ m with history := ("🚀 Processing: " ++ Path) :: m.history }, .waitForActivity)
  | .SuccessEvent Path _ =>
    .ok ({ m with history := ("✅ Done: " ++ Path) :: m.history }, .waitForActivity)
  | .FailureEvent Path _ =>
    .ok ({ m with history := ("❌ Failed: " ++ Path) :: m.history }, .waitForActivity)
  | .other => .ok (m, .nil)

/-- The model after a sequence of messages, each handled by `Update`; the
error of the first `Update` that panics. -/
def run (m : Model) : List Msg → Except String Model
  | [] => .ok m
  | msg :: rest =>
    match Update m msg with
    | .error e => .error e
    | .ok (m, _) => run m rest

/-- The invariant of the model: `queue` and `paths` have the same length, and
the cursor is 0 or a valid index of `queue`. -/
def ModelInv (m : Model) : Prop :=
  m.queue.length = m.paths.length ∧ 0 ≤ m.cursor ∧
  (m.cursor = 0 ∨ m.cursor < (m.queue.length : Int))

/-- A sample session: two files are found, the cursor moves down, and the
second file starts converting and succeeds. -/
def sampleSession : List Msg :=
  [.FileFoundEvent "/in/a.mov" "a.mov", .FileFoundEvent "/in/b.mov" "b.mov", .KeyMsg "down",
    .StartConvertEvent "/in/b.mov", .KeyMsg " ", .SuccessEvent "/in/b.mov" "/out/b.mp4",
    .StartConvertEvent "/in/a.mov", .KeyMsg "down", .tickMsg]

end tui

/-! ### Lifecycle events of a watch-mode job -/

namespace watcher

/-- The field `Path` of a lifecycle event. -/
def LifecycleEvent.Path : LifecycleEvent → String
  | .FileFoundEvent Path _ => Path
  | .StartConvertEvent Path => Path
  | .SuccessEvent Path _ => Path
  | .FailureEvent Path _ => Path

/-- Whether a lifecycle event is a StartConvert event. -/
def LifecycleEvent.isStart : LifecycleEvent → Bool
  | .StartConvertEvent _ => true
  | _ => false

/-- Whether a lifecycle event is terminal: a Success or a Failure event. -/
def LifecycleEvent.isTerminal : LifecycleEvent → Bool
  | .SuccessEvent _ _ => true
  | .FailureEvent _ _ => true
  | _ => false

/-- The output directory `batchDir` of `processFile`. -/
def batchDir (w : Watcher) (env : ProcessEnv) : String :=
  if w.Cfg.BatchStamp then filepath.Join env.absDest env.nowStamp else env.absDest

/-- A watcher with the default configuration and an event channel. -/
def sampleTuiWatcher : Watcher := { Cfg := convert.sampleSoftware, EventChan := true }

/-- What the system answers to the job for `path` in the working directory
`/work` when the conversion succeeds. -/
def sampleProcessEnv (path : String) : ProcessEnv :=
  { absDest := "/out"
    nowStamp := "20240102"
    mkdirErr := none
    absPath := filepath.Abs (.ok "/work") path
    convert := fun _ outDir => .returned (filepath.Join outDir "2024-01-02_03-04-05.mp4") none }

/-- The same with a failing conversion. -/
def sampleProcessEnvFail (path : String) : ProcessEnv :=
  { sampleProcessEnv path with convert := fun _ _ => .returned "" (some "ffmpeg実行エラー") }

/-- The same with a conversion that panics. -/
def sampleProcessEnvPanic (path : String) : ProcessEnv :=
  { sampleProcessEnv path with
    convert := fun _ _ => .panicked "nil pointer dereference" }

end watcher

/-! ### Matching that ignores letter case, in the words of the specification -/

/-- Two characters are the same letter up to case: they are equal, or one is
an ASCII capital letter and the other the small letter that goes with it. -/
def sameLetter (a b : Char) : Prop :=
  a = b ∨ (65 ≤ a.toNat ∧ a.toNat ≤ 90 ∧ b.toNat = a.toNat + 32) ∨
    (65 ≤ b.toNat ∧ b.toNat ≤ 90 ∧ a.toNat = b.toNat + 32)

/-- The keyword `k` occurs in the name `f` when letter case is ignored: some
run of consecutive characters of `f` agrees with `k` letter by letter up to
case. -/
def occursIgnoringCase (k f : String) : Prop :=
  ∃ pre mid post, f.data = pre ++ mid ++ post ∧ List.Forall₂ sameLetter k.data mid

/-- The string has ASCII characters only. -/
def isASCII (s : String) : Prop := ∀ c ∈ s.data, c.toNat ≤ 127

/-- The exclude/include rule with matching that ignores letter case: no ignore
keyword occurs in the name, and either no include keyword is configured or one
occurs in it. -/
def passesRuleIgnoringCase (cfg : Config) (f : String) : Prop :=
  (∀ k ∈ cfg.IgnoreKeywords, ¬ occursIgnoringCase k f) ∧
  (cfg.Keywords = [] ∨ ∃ k ∈ cfg.Keywords, occursIgnoringCase k f)

/-- A configuration with the ignore keyword `archive`. -/
def sampleIgnoreArchive : Config := { IgnoreKeywords := ["archive"] }

/-- A configuration with the include keyword `Meeting` and the ignore keyword
`ARCHIVE`. -/
def sampleMeetingNoArchive : Config := { Keywords := ["Meeting"], IgnoreKeywords := ["ARCHIVE"] }

/-! ### `ProcessFiles` when a conversion panics -/

namespace convert

/-- The state of the program during a `ProcessFiles` call: the pool, the
goroutines whose `Convert` call has panicked, and whether the runtime has
terminated the program. -/
structure RunState where
  pool : PoolState
  panicking : List Nat
  crashed : Bool
  deriving DecidableEq, Repr

/-- The atomic steps of the program during a `ProcessFiles` call.
* `step a`: a step of the pool; a `ret` step is a `Convert` call that returns.
* `panic i msg`: the `Convert` call of goroutine `i` panics. The goroutine has
  no `recover`; its deferred function runs next, as after a return (the steps
  `release i` and `done i`).
* `crash i`: the deferred function of the panicking goroutine `i` has run and
  the runtime terminates the program. -/
inductive RunStep where
  | step (a : PoolStep)
  | panic (i : Nat) (msg : String)
  | crash (i : Nat)
  deriving DecidableEq, Repr

/-- One atomic step of the program; a step that is not enabled leaves the state
unchanged, and nothing is enabled once the program is terminated. A goroutine
whose call has panicked is in the phase `returned` (the call is over, the
deferred function is still to run), with the panic as its error. -/
def runStep (s : RunState) : RunStep → RunState
  | .step a => if s.crashed then s else { s with pool := poolStep s.pool a }
  | .panic i msg =>
    if s.crashed then s
    else
      match advance s.pool.workers i .converting .returned (some (some msg)) with
      | some ws =>
        { s with pool := { s.pool with workers := ws }, panicking := i :: s.panicking }
      | none => s
  | .crash i =>
    if i ∈ s.panicking ∧
        (s.pool.workers.get? i).map (fun w => w.phase) = some Phase.finished then
      { s with crashed := true }
    else s

/-- The state after a sequence of atomic steps of the program. -/
def runRun (s : RunState) (steps : List RunStep) : RunState :=
  steps.foldl runStep s

/-- The program state when `ProcessFiles` has made its channel. -/
def RunState.init (pool : PoolState) : RunState := ⟨pool, [], false⟩

/-- Two sample input files. -/
def sampleTwoFiles : List String := ["a.mov", "b.mov"]

/-- A sample configuration with one pool slot. -/
def sampleOneSlot : Config := { sampleSoftware with Concurrent := 1 }

/-- The pool state right after `ProcessFiles` has made its channel, for the
sample configuration with one slot and the two sample files. -/
def samplePoolOne : PoolState :=
  { capacity := 1
    batchDir := "/out/20240102"
    pending := sampleTwoFiles
    added := false
    semaphore := 0
    wg := 0
    workers := []
    completed := false }

/-- A run in which the conversion of the first file panics: the deferred
function of its goroutine releases the slot and calls `Done`, and the runtime
terminates the program. -/
def sampleCrash : List RunStep :=
  [.step .add, .step .acquire, .step (.start 0), .panic 0 "nil pointer dereference",
    .step (.release 0), .step (.done 0), .crash 0]

end convert

/-! # Theorems -/

/-! ## Facts about `fmt` and `time` formatting -/

theorem wrapInt_quality (crf : Int) (h0 : 0 ≤ crf) (h1 : crf ≤ 100) :
    wrapInt (100 - wrapInt (crf * 2)) = 100 - 2 * crf := by
  unfold wrapInt; omega

theorem digitChar_isDigit (d : Nat) (h : d < 10) : isDigit (digitChar d) := by
  unfold isDigit
  interval_cases d <;> decide

theorem natDigits_chars (fuel n : Nat) (acc : List Char) :
    ∀ ch ∈ natDigits fuel n acc, isDigit ch ∨ ch ∈ acc := by
  induction fuel generalizing n acc with
  | zero => intro ch h; exact Or.inr h
  | succ f ih =>
    intro ch h
    unfold natDigits at h
    split at h
    · rcases List.mem_cons.1 h with h | h
      · left; rw [h]; exact digitChar_isDigit n (by assumption)
      · exact Or.inr h
    · rcases ih _ _ ch h with h | h
      · exact Or.inl h
      · rcases List.mem_cons.1 h with h | h
        · left; rw [h]; exact digitChar_isDigit _ (Nat.mod_lt _ (by decide))
        · exact Or.inr h

theorem natDigits_ne_nil (fuel n : Nat) (acc : List Char) :
    natDigits (fuel + 1) n acc ≠ [] := by
  induction fuel generalizing n acc with
  | zero =>
    unfold natDigits
    split
    · simp
    · simp [natDigits]
  | succ f ih =>
    unfold natDigits
    split
    · simp
    · exact ih _ _

theorem formatNat_chars (n : Nat) : ∀ ch ∈ formatNat n, isDigit ch := by
  intro ch h
  rcases natDigits_chars _ _ _ ch h with h | h
  · exact h
  · cases h

theorem formatNat_ne_nil (n : Nat) : formatNat n ≠ [] := natDigits_ne_nil _ _ _

theorem fmtInt_chars (x : Int) : ∀ ch ∈ (fmtInt x).data, ch = '-' ∨ isDigit ch := by
  intro ch h
  unfold fmtInt at h
  split at h
  · rcases List.mem_cons.1 h with h | h
    · exact Or.inl h
    · exact Or.inr (formatNat_chars _ ch h)
  · exact Or.inr (formatNat_chars _ ch h)

theorem appendInt_chars (x : Int) (w : Nat) :
    ∀ ch ∈ time.appendInt x w, ch = '-' ∨ isDigit ch := by
  intro ch h
  have hp : ∀ ch ∈ List.replicate (w - (formatNat x.natAbs).length) '0' ++ formatNat x.natAbs,
      isDigit ch := by
    intro ch h
    rcases List.mem_append.1 h with h | h
    · rw [(List.mem_replicate.1 h).2]; unfold isDigit; decide
    · exact formatNat_chars _ ch h
  unfold time.appendInt at h
  simp only at h
  split at h
  · rcases List.mem_cons.1 h with h | h
    · exact Or.inl h
    · exact Or.inr (hp ch h)
  · exact Or.inr (hp ch h)

theorem formatStamp_chars (t : time.Time) :
    ∀ ch ∈ (time.formatStamp t).data, ch = '-' ∨ ch = '_' ∨ isDigit ch := by
  intro ch h
  unfold time.formatStamp at h
  simp only [List.mem_append, List.mem_cons, or_assoc] at h
  have key : ∀ x w, ch ∈ time.appendInt x w → ch = '-' ∨ ch = '_' ∨ isDigit ch := by
    intro x w hx
    rcases appendInt_chars x w ch hx with h | h
    · exact Or.inl h
    · exact Or.inr (Or.inr h)
  rcases h with h | h | h | h | h | h | h | h | h | h | h
  all_goals first
    | exact key _ _ h
    | exact Or.inl h
    | exact Or.inr (Or.inl h)

/-! ## Facts about `path/filepath` -/

section PathFacts
open filepath

theorem splitSep_ne_nil (p : List Char) : splitSep p ≠ [] := by
  cases p with
  | nil => simp [splitSep]
  | cons c cs =>
    unfold splitSep
    split
    · simp
    · split <;> simp

theorem splitSep_append_sep (x y : List Char) :
    splitSep (x ++ '/' :: y) = splitSep x ++ splitSep y := by
  induction x with
  | nil => simp [splitSep, isSep]
  | cons c cs ih =>
    simp only [List.cons_append, splitSep, List.append_eq]
    split
    · simp [ih]
    · rw [ih]
      cases h : splitSep cs with
      | nil => exact absurd h (splitSep_ne_nil cs)
      | cons a t => simp

theorem splitSep_of_noSep (n : List Char) (h : ∀ c ∈ n, isSep c = false) :
    splitSep n = [n] := by
  induction n with
  | nil => rfl
  | cons c cs ih =>
    have hc : isSep c = false := h c (List.mem_cons_self _ _)
    have ht := ih (fun d hd => h d (List.mem_cons_of_mem _ hd))
    simp [splitSep, hc, ht]

theorem cleanStep_fileName (rooted : Bool) (out : List (List Char)) (n : List Char)
    (hn : isFileName n) : cleanStep rooted out n = n :: out := by
  obtain ⟨h1, h2, h3, _⟩ := hn
  simp [cleanStep, h1, h2, h3]

theorem joinSep_append_singleton (l : List (List Char)) (n : List Char) :
    EndsWithElem (joinSep (l ++ [n])) n := by
  induction l with
  | nil => left; rfl
  | cons e es ih =>
    right
    cases es with
    | nil => exact ⟨e, by simp [joinSep]⟩
    | cons f fs =>
      rcases ih with h | ⟨pre, h⟩
      · refine ⟨e, ?_⟩
        simp only [List.cons_append, joinSep, List.append_eq] at h ⊢
        rw [h]
      · refine ⟨e ++ '/' :: pre, ?_⟩
        simp only [List.cons_append, joinSep, List.append_eq] at h ⊢
        rw [h]; simp

theorem fileName_cons (n : List Char) (hn : isFileName n) :
    ∃ c cs, n = c :: cs ∧ isSep c = false := by
  obtain ⟨h1, _, _, h4⟩ := hn
  cases n with
  | nil => exact absurd rfl h1
  | cons c cs => exact ⟨c, cs, rfl, h4 c (List.mem_cons_self _ _)⟩

theorem Clean_endsWithElem (p : String) (n : List Char) (hn : isFileName n)
    (hp : EndsWithElem p.data n) : EndsWithElem (Clean p).data n := by
  have hsplit : ∃ l, splitSep p.data = l ++ [n] := by
    rcases hp with h | ⟨pre, h⟩
    · exact ⟨[], by rw [h, splitSep_of_noSep n hn.2.2.2]; rfl⟩
    · exact ⟨splitSep pre, by rw [h, splitSep_append_sep, splitSep_of_noSep n hn.2.2.2]⟩
  obtain ⟨l, hl⟩ := hsplit
  have hne : p.data ≠ [] := by
    obtain ⟨c, cs, hc, _⟩ := fileName_cons n hn
    rcases hp with h | ⟨pre, h⟩ <;> rw [h] <;> simp [hc]
  unfold Clean
  simp only [hne, if_false, hl, List.foldl_append, List.foldl_cons, List.foldl_nil,
    cleanStep_fileName _ _ n hn, List.reverse_cons]
  have hj := joinSep_append_singleton
    (List.foldl (cleanStep (p.data.head?.any isSep)) [] l).reverse n
  have hbody : joinSep ((List.foldl (cleanStep (p.data.head?.any isSep)) [] l).reverse ++ [n])
      ≠ [] := by
    rcases hj with h | ⟨pre, h⟩ <;> rw [h]
    · exact hn.1
    · simp
  split
  · rcases hj with h | ⟨pre, h⟩
    · right; exact ⟨[], by simp [h]⟩
    · right; exact ⟨'/' :: pre, by simp [h]⟩
  · simp only [hbody, if_false]
    exact hj

theorem Join_endsWithElem (a b : String) (n : List Char) (hn : isFileName n)
    (hb : EndsWithElem b.data n) : EndsWithElem (Join a b).data n := by
  have hbne : b ≠ "" := by
    obtain ⟨c, cs, hc, _⟩ := fileName_cons n hn
    intro h
    rw [h] at hb
    rcases hb with h | ⟨pre, h⟩
    · rw [hc] at h; cases h
    · cases pre <;> cases h
  unfold Join
  by_cases ha : a = ""
  · rw [if_neg (not_not.2 ha), if_pos hbne]
    exact Clean_endsWithElem _ n hn hb
  · rw [if_pos ha]
    apply Clean_endsWithElem _ n hn
    rcases hb with h | ⟨pre, h⟩
    · right; exact ⟨a.data, by simp [h]⟩
    · right; exact ⟨a.data ++ '/' :: pre, by simp [h]⟩

theorem Base_of_endsWithElem (p : String) (n : List Char) (hn : isFileName n)
    (hp : EndsWithElem p.data n) : Base p = ⟨n⟩ := by
  obtain ⟨c, cs, hc, hsep⟩ := fileName_cons n hn
  have hne : p.data ≠ [] := by
    rcases hp with h | ⟨pre, h⟩ <;> rw [h] <;> simp [hc]
  have hrev : ∃ rest, p.data.reverse = n.reverse ++ rest ∧ (rest = [] ∨ ∃ r, rest = '/' :: r) := by
    rcases hp with h | ⟨pre, h⟩
    · exact ⟨[], by simp [h], Or.inl rfl⟩
    · exact ⟨'/' :: pre.reverse, by simp [h], Or.inr ⟨_, rfl⟩⟩
  obtain ⟨rest, hr, hrest⟩ := hrev
  have hnr : ∀ ch ∈ n.reverse, isSep ch = false := fun ch h => hn.2.2.2 ch (List.mem_reverse.1 h)
  have hnrne : n.reverse ≠ [] := by simp [hn.1]
  have hdrop : (n.reverse ++ rest).dropWhile isSep = n.reverse ++ rest := by
    cases hh : n.reverse with
    | nil => exact absurd hh hnrne
    | cons d ds =>
      have : isSep d = false := hnr d (by rw [hh]; exact List.mem_cons_self _ _)
      simp [List.dropWhile, this]
  have htake : (n.reverse ++ rest).takeWhile (fun ch => !isSep ch) = n.reverse := by
    rw [List.takeWhile_append_of_pos (by intro ch h; simp [hnr ch h])]
    rcases hrest with h | ⟨r, h⟩ <;> rw [h] <;> simp [List.takeWhile, isSep]
  unfold Base
  simp only [hne, if_false, hr, hdrop, htake, List.reverse_reverse, hn.1]

theorem Abs_endsWithElem (wd : Except String String) (p a : String) (n : List Char)
    (hn : isFileName n) (hp : EndsWithElem p.data n) (ha : Abs wd p = (a, none)) :
    EndsWithElem a.data n := by
  unfold Abs at ha
  split at ha
  · cases ha; exact Clean_endsWithElem p n hn hp
  · split at ha
    · cases ha
    · cases ha; exact Join_endsWithElem _ p n hn hp

end PathFacts

/-! ## Facts about the encoder command line -/

section ArgFacts
open filepath convert

theorem stampName_isFileName (t : time.Time) :
    isFileName ((time.formatStamp t).data ++ ['.', 'm', 'p', '4']) := by
  refine ⟨by simp, ?_, ?_, ?_⟩
  · intro h
    have := congrArg List.length h
    simp at this
  · intro h
    have := congrArg List.length h
    simp at this
  · intro ch h
    rcases List.mem_append.1 h with h | h
    · rcases formatStamp_chars t ch h with h | h | h
      · rw [h]; rfl
      · rw [h]; rfl
      · unfold isSep
        unfold isDigit at h
        have : ch ≠ '/' := by
          intro hc; rw [hc] at h; revert h; decide
        simp [this]
    · simp only [List.mem_cons, List.mem_singleton, List.not_mem_nil, or_false] at h
      rcases h with h | h | h | h <;> rw [h] <;> rfl

theorem ConvertOne_outPath_suffix (stat : Option FileInfo) (now : time.Time) (outDir : String) :
    ∃ pre, (ConvertOne_outPath stat now outDir).data = pre ++ ['.', 'm', 'p', '4'] := by
  have key : ∀ t : time.Time, ∃ pre,
      (Join outDir (time.formatStamp t ++ ".mp4")).data = pre ++ ['.', 'm', 'p', '4'] := by
    intro t
    have h := Join_endsWithElem outDir (time.formatStamp t ++ ".mp4") _ (stampName_isFileName t)
      (Or.inl (by simp [String.data_append]))
    rcases h with h | ⟨pre, h⟩
    · exact ⟨_, h⟩
    · exact ⟨pre ++ '/' :: (time.formatStamp t).data, by rw [h]; simp⟩
  unfold ConvertOne_outPath
  cases stat with
  | none => exact key now
  | some info => exact key info.ModTime

theorem ConvertOne_outPath_ne (stat : Option FileInfo) (now : time.Time) (outDir : String)
    (s : String) (hs : 'm' ∉ s.data) : ConvertOne_outPath stat now outDir ≠ s := by
  intro h
  obtain ⟨pre, hp⟩ := ConvertOne_outPath_suffix stat now outDir
  apply hs
  rw [← h, hp]
  simp

theorem fmtInt_ne (x : Int) (s : String) (ch : Char) (hch : ch ∈ s.data)
    (h1 : ch ≠ '-') (h2 : ¬ isDigit ch) : fmtInt x ≠ s := by
  intro h
  rw [← h] at hch
  rcases fmtInt_chars x ch hch with h | h
  · exact h1 h
  · exact h2 h

theorem fmtInt_ne_qv (x : Int) : fmtInt x ≠ "-q:v" :=
  fmtInt_ne x _ 'q' (by decide) (by decide) (by unfold isDigit; decide)

theorem fmtInt_ne_crf (x : Int) : fmtInt x ≠ "-crf" :=
  fmtInt_ne x _ 'c' (by decide) (by decide) (by unfold isDigit; decide)

theorem videoFilter_ne (c : Config) : videoFilter c ≠ "-q:v" ∧ videoFilter c ≠ "-crf" := by
  unfold videoFilter
  cases c.NoPad <;> decide

theorem ConvertOne_args_software_mem (c : Config) (inPath outPath : String)
    (hgpu : c.GPU = false) (ho : outPath ≠ "-q:v") :
    ("-q:v" ∈ ConvertOne_ffmpegArgs c inPath outPath ↔ inPath = "-q:v" ∨ c.Preset = "-q:v") := by
  have h1 := (fmtInt_ne_qv c.CRF).symm
  have h2 := (fmtInt_ne_qv c.FPS).symm
  have h3 := (videoFilter_ne c).1.symm
  have h4 := ho.symm
  simp only [ConvertOne_ffmpegArgs, hgpu, Bool.false_eq_true, if_false]
  split_ifs <;> simp [h1, h2, h3, h4, eq_comm]

theorem ConvertOne_args_hardware_mem (c : Config) (inPath outPath : String)
    (hgpu : c.GPU = true) (ho : outPath ≠ "-crf") :
    ("-crf" ∈ ConvertOne_ffmpegArgs c inPath outPath ↔ inPath = "-crf") := by
  have h1 : ∀ x, "-crf" ≠ fmtInt x := fun x => (fmtInt_ne_crf x).symm
  have h3 := (videoFilter_ne c).2.symm
  have h4 := ho.symm
  simp only [ConvertOne_ffmpegArgs, hgpu, if_true]
  split_ifs <;> simp [h1, h3, h4, eq_comm]
end ArgFacts

/-! ## Codec selection (C1, C2) -/

section CodecClaims
open filepath convert

theorem ConvertOne_args_software_crf (c : Config) (inPath outPath : String)
    (hgpu : c.GPU = false) :
    ["-crf", fmtInt c.CRF] <:+: ConvertOne_ffmpegArgs c inPath outPath := by
  simp only [ConvertOne_ffmpegArgs, hgpu, Bool.false_eq_true, if_false]
  split_ifs <;>
    exact ⟨["-i", inPath, "-vcodec", "libx264", "-preset", c.Preset], _, rfl⟩

theorem ConvertOne_args_hardware_qv (c : Config) (inPath outPath : String)
    (hgpu : c.GPU = true) :
    ∃ q : Int, ["-q:v", fmtInt q] <:+: ConvertOne_ffmpegArgs c inPath outPath ∧
      (0 < c.CRF → c.CRF ≤ 100 → q = clamp (100 - 2 * c.CRF) 1 100) ∧
      (c.CRF ≤ 0 → q = 70) := by
  refine ⟨if c.CRF > 0 then
      (if wrapInt (100 - wrapInt (c.CRF * 2)) < 1 then 1 else wrapInt (100 - wrapInt (c.CRF * 2)))
    else 70, ?_, ?_, ?_⟩
  · simp only [ConvertOne_ffmpegArgs, hgpu, if_true]
    split_ifs <;>
      exact ⟨["-i", inPath, "-c:v", "h264_videotoolbox"], _, rfl⟩
  · intro h0 h1
    rw [if_pos h0, wrapInt_quality c.CRF (le_of_lt h0) h1]
    unfold clamp; split <;> omega
  · intro h0
    rw [if_neg (by omega)]

/-- C1. In the hardware (GPU) branch of `ConvertOne` and of `convertFile` the
argument list starts `-i <in> -c:v h264_videotoolbox -q:v <q>`; for every CRF in
(0,100] the value `<q>` is `clamp(100 - 2*CRF, 1, 100)` printed in decimal, and
for CRF = 0 it is the fixed default 70. -/
theorem gpu_quality_clamp (c : Config) (inPath outPath : String) (hgpu : c.GPU = true) :
    (0 < c.CRF → c.CRF ≤ 100 →
      (ConvertOne_ffmpegArgs c inPath outPath).take 6 =
          ["-i", inPath, "-c:v", "h264_videotoolbox", "-q:v",
            fmtInt (clamp (100 - 2 * c.CRF) 1 100)] ∧
      (convertFile_ffmpegArgs c inPath outPath).take 6 =
          ["-i", inPath, "-c:v", "h264_videotoolbox", "-q:v",
            fmtInt (clamp (100 - 2 * c.CRF) 1 100)]) ∧
    (c.CRF = 0 →
      (ConvertOne_ffmpegArgs c inPath outPath).take 6 =
          ["-i", inPath, "-c:v", "h264_videotoolbox", "-q:v", "70"] ∧
      (convertFile_ffmpegArgs c inPath outPath).take 6 =
          ["-i", inPath, "-c:v", "h264_videotoolbox", "-q:v", "70"]) := by
  constructor
  · intro h0 h1
    have hq := wrapInt_quality c.CRF (le_of_lt h0) h1
    have hc : (if 100 - 2 * c.CRF < 1 then (1 : Int) else 100 - 2 * c.CRF)
        = clamp (100 - 2 * c.CRF) 1 100 := by
      unfold clamp; split <;> omega
    simp only [ConvertOne_ffmpegArgs, convertFile_ffmpegArgs, hgpu, if_true, gt_iff_lt, h0, hq,
      hc]
    constructor <;> split_ifs <;> rfl
  · intro h0
    simp only [ConvertOne_ffmpegArgs, convertFile_ffmpegArgs, hgpu, if_true, gt_iff_lt, h0,
      lt_irrefl, if_false]
    constructor <;> split_ifs <;> rfl

/-- Witness for C1: the default CRF 22 in hardware mode gives `-q:v 56` in both
builders. -/
theorem gpu_quality_clamp_witness :
    (ConvertOne_ffmpegArgs sampleHardware "in.mov" "out.mp4").take 6 =
        ["-i", "in.mov", "-c:v", "h264_videotoolbox", "-q:v", "56"] ∧
    (convertFile_ffmpegArgs sampleHardware "in.mov" "out.mp4").take 6 =
        ["-i", "in.mov", "-c:v", "h264_videotoolbox", "-q:v", "56"] :=
  (gpu_quality_clamp sampleHardware "in.mov" "out.mp4" rfl).1 (by decide) (by decide)

/-- C2 fails as stated: in software mode the preset is passed verbatim, so a
configuration whose preset is the string `-q:v` yields a software argument list
that has a `-q:v` element. -/
theorem codec_args_exclusive_counterexample :
    samplePresetQv.GPU = false ∧
    "-q:v" ∈ ConvertOne_ffmpegArgs samplePresetQv "in.mov"
      (ConvertOne_outPath none sampleTime "out") := by
  decide

/-- C2 (amended). For every configuration, input path and output directory:
in software mode the `ConvertOne` argument list contains `-crf` followed by the
CRF, and has a `-q:v` element only when the input path or the preset is itself
the string `-q:v`; in hardware mode it contains `-q:v` followed by the quality
(the clamp value for CRF in (0,100], 70 for CRF ≤ 0), and has a `-crf` element
only when the input path is itself the string `-crf`. With CRF = 22 the
software list contains `-crf 22` and the hardware list `-q:v 56`. -/
theorem codec_args_exclusive (c : Config) (inPath outDir : String)
    (stat : Option FileInfo) (now : time.Time) :
    (c.GPU = false →
      ["-crf", fmtInt c.CRF] <:+:
          ConvertOne_ffmpegArgs c inPath (ConvertOne_outPath stat now outDir) ∧
      ("-q:v" ∈ ConvertOne_ffmpegArgs c inPath (ConvertOne_outPath stat now outDir) ↔
          inPath = "-q:v" ∨ c.Preset = "-q:v") ∧
      (c.CRF = 22 → ["-crf", "22"] <:+:
          ConvertOne_ffmpegArgs c inPath (ConvertOne_outPath stat now outDir))) ∧
    (c.GPU = true →
      (∃ q : Int,
        ["-q:v", fmtInt q] <:+:
            ConvertOne_ffmpegArgs c inPath (ConvertOne_outPath stat now outDir) ∧
        (0 < c.CRF → c.CRF ≤ 100 → q = clamp (100 - 2 * c.CRF) 1 100) ∧
        (c.CRF ≤ 0 → q = 70)) ∧
      ("-crf" ∈ ConvertOne_ffmpegArgs c inPath (ConvertOne_outPath stat now outDir) ↔
          inPath = "-crf") ∧
      (c.CRF = 22 → ["-q:v", "56"] <:+:
          ConvertOne_ffmpegArgs c inPath (ConvertOne_outPath stat now outDir))) := by
  constructor
  · intro hgpu
    refine ⟨ConvertOne_args_software_crf c inPath _ hgpu,
      ConvertOne_args_software_mem c inPath _ hgpu
        (ConvertOne_outPath_ne stat now outDir _ (by decide)), ?_⟩
    intro h22
    have h := ConvertOne_args_software_crf c inPath (ConvertOne_outPath stat now outDir) hgpu
    rw [h22] at h
    exact h
  · intro hgpu
    refine ⟨ConvertOne_args_hardware_qv c inPath _ hgpu,
      ConvertOne_args_hardware_mem c inPath _ hgpu
        (ConvertOne_outPath_ne stat now outDir _ (by decide)), ?_⟩
    intro h22
    obtain ⟨q, hq, hclamp, _⟩ :=
      ConvertOne_args_hardware_qv c inPath (ConvertOne_outPath stat now outDir) hgpu
    have hq56 : q = 56 := by
      rw [hclamp (by omega) (by omega), h22]; decide
    rw [hq56] at hq
    exact hq

/-- Witness for C2: the default configuration (CRF 22, preset `faster`) in
software mode has `-crf 22` and no `-q:v`; in hardware mode it has `-q:v 56` and
no `-crf`. -/
theorem codec_args_exclusive_witness :
    (["-crf", "22"] <:+: ConvertOne_ffmpegArgs sampleSoftware "in.mov"
        (ConvertOne_outPath none sampleTime "out") ∧
      "-q:v" ∉ ConvertOne_ffmpegArgs sampleSoftware "in.mov"
        (ConvertOne_outPath none sampleTime "out")) ∧
    (["-q:v", "56"] <:+: ConvertOne_ffmpegArgs sampleHardware "in.mov"
        (ConvertOne_outPath none sampleTime "out") ∧
      "-crf" ∉ ConvertOne_ffmpegArgs sampleHardware "in.mov"
        (ConvertOne_outPath none sampleTime "out")) :=
  ⟨⟨((codec_args_exclusive sampleSoftware "in.mov" "out" none sampleTime).1 rfl).2.2 rfl,
    fun h => absurd
      (((codec_args_exclusive sampleSoftware "in.mov" "out" none sampleTime).1 rfl).2.1.1 h)
      (by decide)⟩,
   ⟨((codec_args_exclusive sampleHardware "in.mov" "out" none sampleTime).2 rfl).2.2 rfl,
    fun h => absurd
      (((codec_args_exclusive sampleHardware "in.mov" "out" none sampleTime).2 rfl).2.1.1 h)
      (by decide)⟩⟩

end CodecClaims

/-! ## Matching that ignores letter case -/

section CaseClaims

theorem char_eq_of_toNat (a b : Char) (h : a.toNat = b.toNat) : a = b := by
  apply Char.ext
  apply UInt32.ext
  exact h

theorem ofNat_small_toNat (n : Nat) (h1 : 65 ≤ n) (h2 : n ≤ 90) :
    (Char.ofNat (n + 32)).toNat = n + 32 := by
  interval_cases n <;> rfl

theorem toLower_eq_iff_sameLetter (tbl : Char → Char) (a b : Char)
    (ha : a.toNat ≤ 127) (hb : b.toNat ≤ 127) :
    unicode.ToLower tbl a = unicode.ToLower tbl b ↔ sameLetter a b := by
  unfold unicode.ToLower sameLetter
  rw [if_pos ha, if_pos hb]
  by_cases ua : 65 ≤ a.toNat ∧ a.toNat ≤ 90
  · by_cases ub : 65 ≤ b.toNat ∧ b.toNat ≤ 90
    · rw [if_pos ua, if_pos ub]
      constructor
      · intro h
        have := congrArg Char.toNat h
        rw [ofNat_small_toNat _ ua.1 ua.2, ofNat_small_toNat _ ub.1 ub.2] at this
        exact Or.inl (char_eq_of_toNat a b (by omega))
      · rintro (h | h | h)
        · rw [h]
        · omega
        · omega
    · rw [if_pos ua, if_neg ub]
      constructor
      · intro h
        have := congrArg Char.toNat h
        rw [ofNat_small_toNat _ ua.1 ua.2] at this
        exact Or.inr (Or.inl ⟨ua.1, ua.2, this.symm⟩)
      · rintro (h | h | h)
        · rw [h] at ua; exact absurd ua ub
        · apply char_eq_of_toNat
          rw [ofNat_small_toNat _ ua.1 ua.2]
          exact h.2.2.symm
        · omega
  · by_cases ub : 65 ≤ b.toNat ∧ b.toNat ≤ 90
    · rw [if_neg ua, if_pos ub]
      constructor
      · intro h
        have := congrArg Char.toNat h
        rw [ofNat_small_toNat _ ub.1 ub.2] at this
        exact Or.inr (Or.inr ⟨ub.1, ub.2, this⟩)
      · rintro (h | h | h)
        · rw [h] at ua; exact absurd ub ua
        · omega
        · apply char_eq_of_toNat
          rw [ofNat_small_toNat _ ub.1 ub.2]
          exact h.2.2
    · rw [if_neg ua, if_neg ub]
      constructor
      · intro h; exact Or.inl h
      · rintro (h | h | h)
        · exact h
        · omega
        · omega

theorem forall₂_congr_mem {R S : Char → Char → Prop} :
    ∀ (l₁ l₂ : List Char), (∀ a ∈ l₁, ∀ b ∈ l₂, (R a b ↔ S a b)) →
      (List.Forall₂ R l₁ l₂ ↔ List.Forall₂ S l₁ l₂)
  | [], [], _ => by simp
  | [], _ :: _, _ => by simp
  | _ :: _, [], _ => by simp
  | a :: l₁, b :: l₂, h => by
    simp only [List.forall₂_cons]
    rw [h a (List.mem_cons_self _ _) b (List.mem_cons_self _ _),
      forall₂_congr_mem l₁ l₂ (fun x hx y hy =>
        h x (List.mem_cons_of_mem _ hx) y (List.mem_cons_of_mem _ hy))]

theorem map_eq_map_iff_forall₂ (g : Char → Char) (l₁ l₂ : List Char) :
    l₁.map g = l₂.map g ↔ List.Forall₂ (fun a b => g a = g b) l₁ l₂ := by
  have h : List.Forall₂ (fun a b => g a = g b) l₁ l₂ ↔
      List.Forall₂ (· = ·) (l₁.map g) (l₂.map g) := by
    rw [List.forall₂_map_left_iff, List.forall₂_map_right_iff]
  rw [h, List.forall₂_eq_eq_eq]

theorem ciSubstring_iff_occurs (tbl : Char → Char) (k f : String)
    (hk : isASCII k) (hf : isASCII f) :
    ciSubstring tbl k f ↔ occursIgnoringCase k f := by
  unfold ciSubstring occursIgnoringCase strings.ToLower
  simp only
  rw [List.isInfix_map_iff]
  constructor
  · rintro ⟨mid, ⟨pre, post, hpp⟩, hmap⟩
    refine ⟨pre, mid, post, hpp.symm, ?_⟩
    have hmid : ∀ b ∈ mid, b.toNat ≤ 127 := by
      intro b hb
      apply hf
      rw [← hpp]
      simp [hb]
    rw [map_eq_map_iff_forall₂] at hmap
    exact (forall₂_congr_mem _ _ (fun a ha b hb =>
      toLower_eq_iff_sameLetter tbl a b (hk a ha) (hmid b hb))).1 hmap
  · rintro ⟨pre, mid, post, hpp, hall⟩
    refine ⟨mid, ⟨pre, post, hpp.symm⟩, ?_⟩
    have hmid : ∀ b ∈ mid, b.toNat ≤ 127 := by
      intro b hb
      apply hf
      rw [hpp]
      simp [hb]
    rw [map_eq_map_iff_forall₂]
    exact (forall₂_congr_mem _ _ (fun a ha b hb =>
      toLower_eq_iff_sameLetter tbl a b (hk a ha) (hmid b hb))).2 hall

theorem passesKeywordRule_iff_ignoringCase (tbl : Char → Char) (cfg : Config) (f : String)
    (hf : isASCII f) (hI : ∀ k ∈ cfg.IgnoreKeywords, isASCII k)
    (hK : ∀ k ∈ cfg.Keywords, isASCII k) :
    passesKeywordRule tbl cfg f ↔ passesRuleIgnoringCase cfg f := by
  unfold passesKeywordRule passesRuleIgnoringCase
  constructor
  · rintro ⟨h1, h2⟩
    refine ⟨fun k hk hc => h1 k hk ((ciSubstring_iff_occurs tbl k f (hI k hk) hf).2 hc), ?_⟩
    rcases h2 with h | ⟨k, hk, hc⟩
    · exact Or.inl h
    · exact Or.inr ⟨k, hk, (ciSubstring_iff_occurs tbl k f (hK k hk) hf).1 hc⟩
  · rintro ⟨h1, h2⟩
    refine ⟨fun k hk hc => h1 k hk ((ciSubstring_iff_occurs tbl k f (hI k hk) hf).1 hc), ?_⟩
    rcases h2 with h | ⟨k, hk, hc⟩
    · exact Or.inl h
    · exact Or.inr ⟨k, hk, (ciSubstring_iff_occurs tbl k f (hK k hk) hf).2 hc⟩

end CaseClaims

/-! ## Keyword and extension filters (C3, C4, C5) -/

section FilterClaims
open filepath

theorem containsChars_iff (s sub : List Char) :
    strings.containsChars s sub = true ↔ sub <:+: s := by
  induction s with
  | nil => simp [strings.containsChars, List.infix_nil]
  | cons c cs ih =>
    simp only [strings.containsChars, Bool.or_eq_true, ih, List.infix_cons_iff,
      List.isPrefixOf_iff_prefix]

theorem keywordLoop_iff (tbl : Char → Char) (f : String) (ks : List String) :
    keywordLoop tbl (strings.ToLower tbl f) ks = true ↔ ∃ k ∈ ks, ciSubstring tbl k f := by
  induction ks with
  | nil => simp [keywordLoop]
  | cons k ks ih =>
    unfold keywordLoop
    by_cases h : strings.Contains (strings.ToLower tbl f) (strings.ToLower tbl k) = true
    · have : ciSubstring tbl k f := (containsChars_iff _ _).1 h
      simp [h, this]
    · have : ¬ ciSubstring tbl k f := fun hc => h ((containsChars_iff _ _).2 hc)
      simp [h, this, ih]

theorem keywordLoop_false_iff (tbl : Char → Char) (f : String) (ks : List String) :
    keywordLoop tbl (strings.ToLower tbl f) ks = false ↔ ∀ k ∈ ks, ¬ ciSubstring tbl k f := by
  rw [← Bool.not_eq_true, keywordLoop_iff]
  constructor
  · intro h k hk hc; exact h ⟨k, hk, hc⟩
  · rintro h ⟨k, hk, hc⟩; exact h k hk hc

theorem shouldProcess_eq_true_iff (tbl : Char → Char) (cfg : Config) (f : String) :
    watcher.shouldProcess tbl cfg f = true ↔ passesKeywordRule tbl cfg f := by
  simp only [watcher.shouldProcess, passesKeywordRule]
  cases hI : keywordLoop tbl (strings.ToLower tbl f) cfg.IgnoreKeywords with
  | true =>
    obtain ⟨k, hk, hc⟩ := (keywordLoop_iff tbl f _).1 hI
    have hlen : cfg.IgnoreKeywords.length > 0 := List.length_pos_of_mem hk
    rw [if_pos ⟨hlen, rfl⟩]
    constructor
    · intro h; cases h
    · intro h; exact absurd hc (h.1 k hk)
  | false =>
    have hall := (keywordLoop_false_iff tbl f _).1 hI
    rw [if_neg (by simp)]
    by_cases hK : cfg.Keywords = []
    · simp only [hK, List.length_nil, gt_iff_lt, lt_irrefl, if_false, true_iff]
      exact ⟨hall, Or.inl trivial⟩
    · have hlen : cfg.Keywords.length > 0 := List.length_pos.2 hK
      rw [if_pos hlen]
      cases hin : keywordLoop tbl (strings.ToLower tbl f) cfg.Keywords with
      | true =>
        simp only [Bool.not_true, Bool.false_eq_true, if_false, true_iff]
        exact ⟨hall, Or.inr ((keywordLoop_iff tbl f _).1 hin)⟩
      | false =>
        simp only [Bool.not_false, if_true, Bool.false_eq_true, false_iff]
        rintro ⟨_, h | h⟩
        · exact hK h
        · rw [(keywordLoop_iff tbl f _).2 h] at hin; cases hin

theorem keepFile_eq_shouldProcess (tbl : Char → Char) (cfg : Config) (f : String) :
    cmd.keepFile tbl cfg f = watcher.shouldProcess tbl cfg (Base f) := by
  simp only [cmd.keepFile, watcher.shouldProcess]
  cases hI : keywordLoop tbl (strings.ToLower tbl (Base f)) cfg.IgnoreKeywords with
  | true =>
    obtain ⟨k, hk, _⟩ := (keywordLoop_iff tbl (Base f) _).1 hI
    have hlen : cfg.IgnoreKeywords.length > 0 := List.length_pos_of_mem hk
    simp [hlen]
  | false => simp

theorem foldl_append_filter (p : String → Bool) (files acc : List String) :
    files.foldl (fun r f => if p f then r ++ [f] else r) acc = acc ++ files.filter p := by
  induction files generalizing acc with
  | nil => simp
  | cons f fs ih =>
    simp only [List.foldl_cons, ih, List.filter_cons]
    split <;> simp

theorem keywordFilter_eq_filter (tbl : Char → Char) (cfg : Config) (files : List String) :
    cmd.keywordFilter tbl cfg files =
      files.filter (fun f => watcher.shouldProcess tbl cfg (Base f)) := by
  unfold cmd.keywordFilter
  split
  · rw [foldl_append_filter (fun f => cmd.keepFile tbl cfg f)]
    simp [keepFile_eq_shouldProcess]
  · rename_i h
    have hK : cfg.Keywords = [] := by
      by_contra hne; exact h (Or.inl (List.length_pos.2 hne))
    have hI : cfg.IgnoreKeywords = [] := by
      by_contra hne; exact h (Or.inr (List.length_pos.2 hne))
    symm
    rw [List.filter_eq_self]
    intro f _
    rw [shouldProcess_eq_true_iff]
    exact ⟨by simp [hI], Or.inl hK⟩

theorem extLoop_iff (ext : String) (vs : List String) :
    watcher.extLoop ext vs = true ↔ ext ∈ vs := by
  induction vs with
  | nil => simp [watcher.extLoop]
  | cons v vs ih =>
    unfold watcher.extLoop
    by_cases h : ext = v
    · simp [h]
    · simp [h, ih]

theorem shouldProcess_false_of_ignore (tbl : Char → Char) (cfg : Config) (f : String)
    (h : ∃ k ∈ cfg.IgnoreKeywords, ciSubstring tbl k f) :
    watcher.shouldProcess tbl cfg f = false := by
  obtain ⟨k, hk, hc⟩ := h
  rw [← Bool.not_eq_true, shouldProcess_eq_true_iff]
  exact fun h => h.1 k hk hc

/-- C3. `shouldProcess(f)` is true exactly when no ignore keyword is a
case-insensitive substring of `f` and either no include keyword is configured
or some include keyword is a case-insensitive substring of `f`; in particular
it is false whenever an ignore keyword matches, whatever the include keywords
are. For a name and keywords in ASCII, "case-insensitive substring" is read
letter by letter: some run of consecutive characters of the name agrees with
the keyword up to the case of the letters `A` to `Z`; beyond ASCII it is read
through the lower-case table of Unicode, as the code does. So `ARCHIVE_clip.mov`
is dropped for the ignore keyword `archive`, `MEETING_archive.mp4` is dropped
for the ignore keyword `ARCHIVE` though the include keyword `Meeting` matches,
and `weekly_meeting.mp4` is kept. -/
theorem shouldProcess_exclude_wins (tbl : Char → Char) (cfg : Config) (f : String) :
    (watcher.shouldProcess tbl cfg f = true ↔
      (∀ k ∈ cfg.IgnoreKeywords, ¬ ciSubstring tbl k f) ∧
      (cfg.Keywords = [] ∨ ∃ k ∈ cfg.Keywords, ciSubstring tbl k f)) ∧
    ((∃ k ∈ cfg.IgnoreKeywords, ciSubstring tbl k f) →
      watcher.shouldProcess tbl cfg f = false) ∧
    (isASCII f → (∀ k ∈ cfg.IgnoreKeywords, isASCII k) → (∀ k ∈ cfg.Keywords, isASCII k) →
      (watcher.shouldProcess tbl cfg f = true ↔
        (∀ k ∈ cfg.IgnoreKeywords, ¬ occursIgnoringCase k f) ∧
        (cfg.Keywords = [] ∨ ∃ k ∈ cfg.Keywords, occursIgnoringCase k f)) ∧
      ((∃ k ∈ cfg.IgnoreKeywords, occursIgnoringCase k f) →
        watcher.shouldProcess tbl cfg f = false)) ∧
    watcher.shouldProcess tbl sampleIgnoreArchive "ARCHIVE_clip.mov" = false ∧
    watcher.shouldProcess tbl sampleIgnoreArchive "clip.MOV" = true ∧
    watcher.shouldProcess tbl sampleMeetingNoArchive "MEETING_archive.mp4" = false ∧
    watcher.shouldProcess tbl sampleMeetingNoArchive "weekly_meeting.mp4" = true ∧
    watcher.shouldProcess tbl sampleMeetingNoArchive "clip.mov" = false := by
  refine ⟨shouldProcess_eq_true_iff tbl cfg f, shouldProcess_false_of_ignore tbl cfg f, ?_,
    rfl, rfl, rfl, rfl, rfl⟩
  intro hf hI hK
  refine ⟨?_, ?_⟩
  · rw [shouldProcess_eq_true_iff]
    exact passesKeywordRule_iff_ignoringCase tbl cfg f hf hI hK
  · rintro ⟨k, hk, hc⟩
    exact shouldProcess_false_of_ignore tbl cfg f
      ⟨k, hk, (ciSubstring_iff_occurs tbl k f (hI k hk) hf).2 hc⟩

/-- Witness for C3: `ARCHIVE_clip.mov` contains the ignore keyword `archive`
up to letter case, so it is dropped. -/
theorem shouldProcess_exclude_wins_witness :
    occursIgnoringCase "archive" "ARCHIVE_clip.mov" ∧
    watcher.shouldProcess id sampleIgnoreArchive "ARCHIVE_clip.mov" = false :=
  have hocc : occursIgnoringCase "archive" "ARCHIVE_clip.mov" :=
    ⟨[], "ARCHIVE".data, "_clip.mov".data, rfl, by
      repeat first
        | exact List.Forall₂.nil
        | refine List.Forall₂.cons (Or.inr (Or.inr (by decide))) ?_⟩
  ⟨hocc,
    ((shouldProcess_exclude_wins id sampleIgnoreArchive "ARCHIVE_clip.mov").2.2.1
      (by unfold isASCII; decide)
      (by unfold isASCII sampleIgnoreArchive; decide)
      (by unfold isASCII sampleIgnoreArchive; decide)).2
      ⟨"archive", by unfold sampleIgnoreArchive; decide, hocc⟩⟩

/-- C4. With neither include nor ignore keywords configured, a file name
passes `isTargetVideo` exactly when its extension, lower-cased, is one of
`.mov`, `.mp4`, `.m4v`, `.avi`, `.mkv`, and every file name passes
`shouldProcess`; so every recognised extension in any letter case passes both
and `isTargetVideo` is false for every other extension. -/
theorem no_filter_passes_video (tbl : Char → Char) (cfg : Config) (f : String)
    (hK : cfg.Keywords = []) (hI : cfg.IgnoreKeywords = []) :
    (strings.ToLower tbl (Ext f) ∈ [".mov", ".mp4", ".m4v", ".avi", ".mkv"] →
      watcher.isTargetVideo tbl f = true ∧ watcher.shouldProcess tbl cfg f = true) ∧
    (strings.ToLower tbl (Ext f) ∉ [".mov", ".mp4", ".m4v", ".avi", ".mkv"] →
      watcher.isTargetVideo tbl f = false) := by
  have hs : watcher.shouldProcess tbl cfg f = true := by
    rw [shouldProcess_eq_true_iff]
    exact ⟨by simp [hI], Or.inl hK⟩
  constructor
  · intro h
    exact ⟨(extLoop_iff _ _).2 h, hs⟩
  · intro h
    rw [← Bool.not_eq_true]
    exact fun ht => h ((extLoop_iff _ _).1 ht)

/-- Witness for C4: with the empty configuration `clip.MOV` and `clip.Mp4` pass
both tests and `notes.txt` is not a target video. -/
theorem no_filter_passes_video_witness :
    (watcher.isTargetVideo id "clip.MOV" = true ∧ watcher.shouldProcess id {} "clip.MOV" = true) ∧
    (watcher.isTargetVideo id "clip.Mp4" = true ∧ watcher.shouldProcess id {} "clip.Mp4" = true) ∧
    watcher.isTargetVideo id "notes.txt" = false :=
  ⟨(no_filter_passes_video id {} "clip.MOV" rfl rfl).1 (by decide),
   (no_filter_passes_video id {} "clip.Mp4" rfl rfl).1 (by decide),
   (no_filter_passes_video id {} "notes.txt" rfl rfl).2 (by decide)⟩

/-- C5. The batch-mode keyword filter returns exactly the files whose base
name passes the exclude/include rule (the rule of `shouldProcess`), as a
subsequence of the discovered list: surviving files keep their relative order.
For base names and keywords in ASCII the rule is the one read letter by letter:
no ignore keyword occurs in the base name up to letter case, and an include
keyword does if any is configured. For `[a.mov, b.MOV, archive_c.mp4]` with the
ignore keyword `archive` the result is `[a.mov, b.MOV]`; `Archive_c.mp4` and
`d_ARCHIVE.mp4` are dropped as well, and a file in a directory named `archive`
is kept, because only the base name is matched. -/
theorem batch_filter_subsequence (tbl : Char → Char) (cfg : Config) (files : List String) :
    cmd.keywordFilter tbl cfg files =
      files.filter (fun f => watcher.shouldProcess tbl cfg (Base f)) ∧
    (∀ f, f ∈ cmd.keywordFilter tbl cfg files ↔
      f ∈ files ∧ passesKeywordRule tbl cfg (Base f)) ∧
    List.Sublist (cmd.keywordFilter tbl cfg files) files ∧
    (cfg.IgnoreKeywords = ["archive"] → cfg.Keywords = [] →
      cmd.keywordFilter tbl cfg ["a.mov", "b.MOV", "archive_c.mp4"] = ["a.mov", "b.MOV"]) ∧
    ((∀ f ∈ files, isASCII (Base f)) → (∀ k ∈ cfg.IgnoreKeywords, isASCII k) →
      (∀ k ∈ cfg.Keywords, isASCII k) →
      ∀ f, f ∈ cmd.keywordFilter tbl cfg files ↔
        f ∈ files ∧ passesRuleIgnoringCase cfg (Base f)) ∧
    cmd.keywordFilter tbl sampleIgnoreArchive
        ["/rec/a.mov", "/rec/Archive_c.mp4", "/rec/b.MOV", "/rec/old/d_ARCHIVE.mp4",
          "/archive/e.mov"] =
      ["/rec/a.mov", "/rec/b.MOV", "/archive/e.mov"] ∧
    cmd.keywordFilter tbl sampleMeetingNoArchive
        ["x/clip.mov", "x/MEETING_1.mov", "x/meeting_Archive.mov", "x/Weekly_meeting.mp4"] =
      ["x/MEETING_1.mov", "x/Weekly_meeting.mp4"] := by
  refine ⟨keywordFilter_eq_filter tbl cfg files, ?_, ?_, ?_, ?_, rfl, rfl⟩
  rotate_left 3
  · intro hf hI hK f
    rw [keywordFilter_eq_filter, List.mem_filter, shouldProcess_eq_true_iff]
    constructor
    · rintro ⟨h1, h2⟩
      exact ⟨h1, (passesKeywordRule_iff_ignoringCase tbl cfg (Base f) (hf f h1) hI hK).1 h2⟩
    · rintro ⟨h1, h2⟩
      exact ⟨h1, (passesKeywordRule_iff_ignoringCase tbl cfg (Base f) (hf f h1) hI hK).2 h2⟩
  · intro f
    rw [keywordFilter_eq_filter, List.mem_filter, shouldProcess_eq_true_iff]
  · rw [keywordFilter_eq_filter]
    exact List.filter_sublist _
  · intro hI hK
    have h1 : watcher.shouldProcess tbl cfg (Base "a.mov") = true := by
      simp only [watcher.shouldProcess, hI, hK]; rfl
    have h2 : watcher.shouldProcess tbl cfg (Base "b.MOV") = true := by
      simp only [watcher.shouldProcess, hI, hK]; rfl
    have h3 : watcher.shouldProcess tbl cfg (Base "archive_c.mp4") = false := by
      simp only [watcher.shouldProcess, hI, hK]; rfl
    rw [keywordFilter_eq_filter]
    simp [List.filter, h1, h2, h3]

/-- Witness for C5: with the ignore keyword `archive`, a list of ASCII names is
filtered by the rule read letter by letter: `Archive_c.mp4` goes, `b.MOV`
stays. -/
theorem batch_filter_subsequence_witness :
    ("/rec/b.MOV" ∈ cmd.keywordFilter id sampleIgnoreArchive
        ["/rec/a.mov", "/rec/Archive_c.mp4", "/rec/b.MOV"] ↔
      "/rec/b.MOV" ∈ ["/rec/a.mov", "/rec/Archive_c.mp4", "/rec/b.MOV"] ∧
        passesRuleIgnoringCase sampleIgnoreArchive (Base "/rec/b.MOV")) ∧
    ("/rec/Archive_c.mp4" ∈ cmd.keywordFilter id sampleIgnoreArchive
        ["/rec/a.mov", "/rec/Archive_c.mp4", "/rec/b.MOV"] ↔
      "/rec/Archive_c.mp4" ∈ ["/rec/a.mov", "/rec/Archive_c.mp4", "/rec/b.MOV"] ∧
        passesRuleIgnoringCase sampleIgnoreArchive (Base "/rec/Archive_c.mp4")) ∧
    cmd.keywordFilter id sampleIgnoreArchive
        ["/rec/a.mov", "/rec/Archive_c.mp4", "/rec/b.MOV"] = ["/rec/a.mov", "/rec/b.MOV"] :=
  have h := (batch_filter_subsequence id sampleIgnoreArchive
    ["/rec/a.mov", "/rec/Archive_c.mp4", "/rec/b.MOV"]).2.2.2.2.1
    (by unfold isASCII; decide) (by unfold isASCII sampleIgnoreArchive; decide)
    (by unfold isASCII sampleIgnoreArchive; decide)
  ⟨h "/rec/b.MOV", h "/rec/Archive_c.mp4", by decide⟩

end FilterClaims

/-! ## The dedup gate (C6, C7) -/

section GateClaims
open watcher

theorem gateInv_init : GateInv GateState.init := by
  refine ⟨List.nodup_nil, ?_⟩
  intro p
  simp [GateState.init, lookup, emptySet]

theorem gateInv_step (s : GateState) (a : GateStep) (h : GateInv s) : GateInv (gateStep s a) := by
  obtain ⟨hnd, hmem⟩ := h
  cases a with
  | discover p =>
    simp only [gateStep, checkAndInsert]
    cases hp : lookup s.processing p with
    | true =>
      simp only [if_true, Bool.false_eq_true, if_false]
      exact ⟨hnd, hmem⟩
    | false =>
      simp only [Bool.false_eq_true, if_false, if_true]
      have hnot : p ∉ s.running := fun hin => by
        rw [(hmem p).2 hin] at hp; cases hp
      refine ⟨List.nodup_cons.2 ⟨hnot, hnd⟩, ?_⟩
      intro q
      by_cases hq : q = p
      · simp [lookup, watcher.insert, hq]
      · simp only [lookup, watcher.insert, hq, if_false, List.mem_cons, false_or]
        exact hmem q
  | finish p =>
    simp only [gateStep]
    by_cases hp : p ∈ s.running
    · simp only [hp, if_true]
      refine ⟨hnd.erase p, ?_⟩
      intro q
      by_cases hq : q = p
      · subst hq
        simp only [lookup, watcher.delete, if_true, Option.getD_none, Bool.false_eq_true, false_iff]
        exact fun hin => (List.Nodup.mem_erase_iff hnd).1 hin |>.1 rfl
      · simp only [lookup, watcher.delete, hq, if_false]
        rw [List.mem_erase_of_ne hq]
        exact hmem q
    · simp only [hp, if_false]
      exact ⟨hnd, hmem⟩

theorem gateInv_run (s : GateState) (steps : List GateStep) (h : GateInv s) :
    GateInv (gateRun s steps) := by
  induction steps generalizing s with
  | nil => exact h
  | cons a as ih => exact ih _ (gateInv_step s a h)

theorem handleEvent_spawned (tbl : Char → Char) (w : Watcher) (stat : StatResult)
    (event : Event) (m : ProcessingSet) (job : Job)
    (h : (handleEvent tbl w stat event m).spawned = some job) :
    job = ⟨event.Name, filepath.Base event.Name⟩ ∧
    lookup m event.Name = false ∧
    (handleEvent tbl w stat event m).processing = watcher.insert m event.Name true := by
  unfold handleEvent at h ⊢
  simp only [checkAndInsert] at h ⊢
  cases hl : lookup m event.Name with
  | true =>
    simp only [hl, if_true, Bool.false_eq_true, if_false] at h
    split_ifs at h
  | false =>
    simp only [hl, Bool.false_eq_true, if_false, if_true] at h ⊢
    split_ifs at h ⊢ <;> (cases h; exact ⟨rfl, trivial, rfl⟩)

theorem processFile_processing (w : Watcher) (env : ProcessEnv) (path name : String)
    (m : ProcessingSet) :
    (processFile w env path name m).processing = watcher.delete m path := by
  unfold processFile
  simp only
  split
  · rfl
  · split
    · rfl
    · split <;> rfl

/-- C6. In the step model with atomic check-and-insert and atomic delete, every
state reachable from the empty set has at most one running job per path, a path
is registered exactly while its job runs, and a discovery of a path that is
already registered changes nothing: no job is started and the set is the same,
whatever steps came before. -/
theorem dedup_one_job_per_path (steps : List GateStep) (p : String) :
    (gateRun GateState.init steps).running.count p ≤ 1 ∧
    (lookup (gateRun GateState.init steps).processing p = true ↔
      p ∈ (gateRun GateState.init steps).running) ∧
    (lookup (gateRun GateState.init steps).processing p = true →
      gateStep (gateRun GateState.init steps) (.discover p) = gateRun GateState.init steps) := by
  obtain ⟨hnd, hmem⟩ := gateInv_run GateState.init steps gateInv_init
  refine ⟨List.nodup_iff_count_le_one.1 hnd p, hmem p, ?_⟩
  intro h
  simp [gateStep, checkAndInsert, h]

/-- Witness for C6: three discoveries of `a.mov` in a row leave exactly one
running job, and the third changes nothing. -/
theorem dedup_one_job_per_path_witness :
    (gateRun GateState.init [.discover "a.mov", .discover "a.mov"]).running = ["a.mov"] ∧
    gateStep (gateRun GateState.init [.discover "a.mov", .discover "a.mov"])
        (.discover "a.mov") =
      gateRun GateState.init [.discover "a.mov", .discover "a.mov"] :=
  ⟨by decide,
   (dedup_one_job_per_path [.discover "a.mov", .discover "a.mov"] "a.mov").2.2 (by decide)⟩

/-- C7. Whatever the outcome of `processFile` (output directory not created,
path not resolved, conversion failed, conversion succeeded, conversion
panicked), the set it leaves
behind lacks the job's path and agrees with the set it found on every other
key; and the path a job is started with is the very key `handleEvent`
registered for it. -/
theorem processFile_unregisters (tbl : Char → Char) (w : Watcher) (env : ProcessEnv)
    (path name : String) (m : ProcessingSet) :
    (processFile w env path name m).processing path = none ∧
    lookup (processFile w env path name m).processing path = false ∧
    (∀ k, k ≠ path → (processFile w env path name m).processing k = m k) ∧
    (∀ stat event m0 job, (handleEvent tbl w stat event m0).spawned = some job →
      job.path = event.Name ∧
      lookup (handleEvent tbl w stat event m0).processing job.path = true ∧
      (∀ k, k ≠ job.path → (handleEvent tbl w stat event m0).processing k = m0 k) ∧
      (processFile w env job.path job.name m).processing job.path = none) := by
  have hdel : ∀ p n, (processFile w env p n m).processing p = none := by
    intro p n; rw [processFile_processing]; simp [watcher.delete]
  refine ⟨hdel path name, ?_, ?_, ?_⟩
  · rw [processFile_processing]; simp [lookup, watcher.delete]
  · intro k hk
    rw [processFile_processing]; simp [watcher.delete, hk]
  · intro stat event m0 job h
    obtain ⟨hjob, _, hset⟩ := handleEvent_spawned tbl w stat event m0 job h
    subst hjob
    refine ⟨rfl, ?_, ?_, hdel _ _⟩
    · rw [hset]; simp [lookup, watcher.insert]
    · intro k hk
      rw [hset]
      simp only [watcher.insert]
      rw [if_neg hk]

end GateClaims

/-! ## The worker pool (C8) -/

section PoolClaims
open convert

theorem countP_set (p : Worker → Bool) (l : List Worker) (i : Nat) (w w' : Worker)
    (h : l.get? i = some w) :
    (l.set i w').countP p + (if p w then 1 else 0) = l.countP p + (if p w' then 1 else 0) := by
  induction l generalizing i with
  | nil => simp at h
  | cons a as ih =>
    cases i with
    | zero =>
      simp only [List.get?_cons_zero, Option.some.injEq] at h
      subst h
      simp only [List.set_cons_zero, List.countP_cons]
      omega
    | succ j =>
      simp only [List.get?_cons_succ] at h
      have := ih j h
      simp only [List.set_cons_succ, List.countP_cons]
      omega

theorem advance_countP (p : Worker → Bool) (ws ws' : List Worker) (i : Nat) (src dst : Phase)
    (err : Option (Option String)) (h : advance ws i src dst err = some ws') :
    ∃ w, w.phase = src ∧
      ws'.countP p + (if p w then 1 else 0) =
        ws.countP p + (if p { w with phase := dst, err := err.getD w.err } then 1 else 0) := by
  unfold advance at h
  cases hg : ws.get? i with
  | none => rw [hg] at h; cases h
  | some w =>
    rw [hg] at h
    simp only at h
    split_ifs at h with hp
    cases h
    exact ⟨w, hp, countP_set p ws i w _ hg⟩

theorem poolInv_step (s : PoolState) (a : PoolStep) (h : PoolInv s) : PoolInv (poolStep s a) := by
  obtain ⟨hc, hle⟩ := h
  cases a with
  | add =>
    simp only [poolStep]
    split_ifs <;> exact ⟨hc, hle⟩
  | acquire =>
    simp only [poolStep]
    split
    · split_ifs with hh
      · refine ⟨?_, hh.2⟩
        simp [List.countP_append, holdsSlot, hc]
      · exact ⟨hc, hle⟩
    · exact ⟨hc, hle⟩
  | start i =>
    simp only [poolStep]
    cases ha : advance s.workers i .spawned .converting none with
    | none => exact ⟨hc, hle⟩
    | some ws =>
      obtain ⟨w, hw, hcnt⟩ := advance_countP holdsSlot _ _ _ _ _ _ ha
      simp [holdsSlot, hw] at hcnt
      exact ⟨by simp only []; omega, hle⟩
  | ret i err =>
    simp only [poolStep]
    cases ha : advance s.workers i .converting .returned (some err) with
    | none => exact ⟨hc, hle⟩
    | some ws =>
      obtain ⟨w, hw, hcnt⟩ := advance_countP holdsSlot _ _ _ _ _ _ ha
      simp [holdsSlot, hw] at hcnt
      exact ⟨by simp only []; omega, hle⟩
  | release i =>
    simp only [poolStep]
    cases ha : advance s.workers i .returned .released none with
    | none => exact ⟨hc, hle⟩
    | some ws =>
      obtain ⟨w, hw, hcnt⟩ := advance_countP holdsSlot _ _ _ _ _ _ ha
      simp [holdsSlot, hw] at hcnt
      exact ⟨by simp only []; omega, by simp only []; omega⟩
  | done i =>
    simp only [poolStep]
    cases ha : advance s.workers i .released .finished none with
    | none => exact ⟨hc, hle⟩
    | some ws =>
      obtain ⟨w, hw, hcnt⟩ := advance_countP holdsSlot _ _ _ _ _ _ ha
      simp [holdsSlot, hw] at hcnt
      exact ⟨by simp only []; omega, hle⟩
  | wait =>
    simp only [poolStep]
    split_ifs <;> exact ⟨hc, hle⟩

theorem poolStep_capacity (s : PoolState) (a : PoolStep) :
    (poolStep s a).capacity = s.capacity := by
  cases a <;> simp only [poolStep] <;> (repeat' split) <;> rfl

theorem poolRun_inv (s : PoolState) (steps : List PoolStep) (h : PoolInv s) :
    PoolInv (poolRun s steps) ∧ (poolRun s steps).capacity = s.capacity := by
  induction steps generalizing s with
  | nil => exact ⟨h, rfl⟩
  | cons a as ih =>
    obtain ⟨h1, h2⟩ := ih (poolStep s a) (poolInv_step s a h)
    exact ⟨h1, by rw [poolRun, List.foldl_cons] at *; rw [← poolStep_capacity s a]; exact h2⟩

theorem running_le_held (s : PoolState) : running s ≤ s.workers.countP holdsSlot := by
  unfold running
  apply List.countP_mono_left
  intro w _ hw
  simp only [decide_eq_true_eq] at hw
  simp [holdsSlot, hw]

theorem ProcessFiles_init_inv (c : Config) (absDest stamp : String) (mkdirErr : Option String)
    (files : List String) (s0 : PoolState)
    (h : ProcessFiles_init c absDest stamp mkdirErr files = .ok s0) :
    PoolInv s0 ∧ (s0.capacity : Int) = c.Concurrent ∧ s0.pending = files ∧ s0.workers = [] := by
  unfold ProcessFiles_init at h
  cases mkdirErr with
  | some e => cases h
  | none =>
    simp only at h
    by_cases hneg : c.Concurrent < 0
    · rw [if_pos hneg] at h; cases h
    · rw [if_neg hneg] at h
      cases h
      refine ⟨⟨rfl, Nat.zero_le _⟩, ?_, rfl, rfl⟩
      simp only [Int.toNat_of_nonneg (not_lt.1 hneg)]

/-- C8. Whatever the file list and the interleaving of the main loop with its
goroutines, the number of `Convert` calls in progress during `ProcessFiles`
never exceeds the configured concurrency (for every concurrency with which the
pool can be created, in particular every n ≥ 1); with concurrency 2 and 5 files
it never exceeds 2. -/
theorem pool_never_exceeds_capacity (c : Config) (absDest stamp : String)
    (mkdirErr : Option String) (files : List String) (s0 : PoolState) (steps : List PoolStep)
    (hinit : ProcessFiles_init c absDest stamp mkdirErr files = .ok s0) :
    (running (poolRun s0 steps) : Int) ≤ c.Concurrent ∧
    (c.Concurrent = 2 → files.length = 5 → running (poolRun s0 steps) ≤ 2) := by
  obtain ⟨hinv, hcap, _, _⟩ := ProcessFiles_init_inv c absDest stamp mkdirErr files s0 hinit
  obtain ⟨⟨hcount, hle⟩, hcap'⟩ := poolRun_inv s0 steps hinv
  have hrun := running_le_held (poolRun s0 steps)
  have hbound : running (poolRun s0 steps) ≤ s0.capacity := by omega
  refine ⟨?_, ?_⟩
  · rw [← hcap]; exact_mod_cast hbound
  · intro h2 _
    rw [h2] at hcap
    have : s0.capacity = 2 := by exact_mod_cast hcap
    omega

/-- Witness for C8: with two slots and five files, a schedule that tries to
start three conversions gets exactly two running; the third send blocks. -/
theorem pool_never_exceeds_capacity_witness :
    ProcessFiles_init sampleTwoSlots "/out" "20240102" none sampleFiles = .ok samplePool ∧
    running (poolRun samplePool sampleSchedule) = 2 ∧
    (poolRun samplePool sampleSchedule).pending = ["c.mov", "d.mov", "e.mov"] ∧
    (running (poolRun samplePool sampleSchedule) : Int) ≤ sampleTwoSlots.Concurrent :=
  ⟨rfl, by decide, by decide,
    (pool_never_exceeds_capacity sampleTwoSlots "/out" "20240102" none sampleFiles samplePool
      sampleSchedule rfl).1⟩

end PoolClaims

/-! ## Split mode: chunk errors and merge order (C9, C10) -/

section SplitClaims
open convert filepath

theorem fill_foldl_length (c : Config) (env : SplitEnv) (tmpDir : String) (chunks : List String)
    (order : List Nat) (acc : List result) :
    (order.foldl
      (fun results i =>
        match chunks.get? i with
        | some chunkPath => results.set i (chunkResult c env tmpDir i chunkPath)
        | none => results) acc).length = acc.length := by
  induction order generalizing acc with
  | nil => rfl
  | cons i rest ih =>
    rw [List.foldl_cons, ih]
    split <;> simp

theorem fill_foldl_get? (c : Config) (env : SplitEnv) (tmpDir : String) (chunks : List String)
    (order : List Nat) (acc : List result) (j : Nat) (hj : j < acc.length) :
    (order.foldl
      (fun results i =>
        match chunks.get? i with
        | some chunkPath => results.set i (chunkResult c env tmpDir i chunkPath)
        | none => results) acc).get? j =
      if j ∈ order ∧ j < chunks.length then (chunks.get? j).map (chunkResult c env tmpDir j)
      else acc.get? j := by
  induction order generalizing acc with
  | nil => simp
  | cons i rest ih =>
    rw [List.foldl_cons]
    have hlen : ∀ acc' : List result,
        acc' = (match chunks.get? i with
          | some chunkPath => acc.set i (chunkResult c env tmpDir i chunkPath)
          | none => acc) → acc'.length = acc.length := by
      intro acc' h; rw [h]; split <;> simp
    rw [ih _ (by rw [hlen _ rfl]; exact hj)]
    by_cases hjr : j ∈ rest ∧ j < chunks.length
    · rw [if_pos hjr, if_pos ⟨List.mem_cons_of_mem _ hjr.1, hjr.2⟩]
    · rw [if_neg hjr]
      by_cases hij : i = j
      · subst hij
        by_cases hlt : i < chunks.length
        · rw [if_pos ⟨List.mem_cons_self _ _, hlt⟩]
          have hg : chunks.get? i = some (chunks.get ⟨i, hlt⟩) := List.get?_eq_get hlt
          rw [hg]
          simp [List.getElem?_set, hj]
        · rw [if_neg (fun h => hlt h.2)]
          have hg : chunks.get? i = none := List.get?_eq_none.2 (not_lt.1 hlt)
          rw [hg]
      · have hne : ¬ (j ∈ i :: rest ∧ j < chunks.length) := by
          rintro ⟨hm, hl⟩
          rcases List.mem_cons.1 hm with h | h
          · exact hij h.symm
          · exact hjr ⟨h, hl⟩
        rw [if_neg hne]
        split
        · simp [List.getElem?_set, hij]
        · rfl

theorem fillResults_spec (c : Config) (env : SplitEnv) (tmpDir : String) (chunks : List String)
    (order : List Nat) (hperm : order.Perm (List.range chunks.length)) :
    (fillResults c env tmpDir chunks order).length = chunks.length ∧
    ∀ j, (fillResults c env tmpDir chunks order).get? j =
      (chunks.get? j).map (chunkResult c env tmpDir j) := by
  unfold fillResults
  refine ⟨by rw [fill_foldl_length]; simp, ?_⟩
  intro j
  by_cases hj : j < chunks.length
  · rw [fill_foldl_get? _ _ _ _ _ _ _ (by simpa using hj)]
    have hmem : j ∈ order := hperm.mem_iff.2 (List.mem_range.2 hj)
    rw [if_pos ⟨hmem, hj⟩]
  · have h1 : chunks.get? j = none := List.get?_eq_none.2 (not_lt.1 hj)
    rw [h1]
    apply List.get?_eq_none.2
    rw [fill_foldl_length]
    simpa using not_lt.1 hj

theorem checkErrors_first (results : List result) (acc : List String) (i : Nat) (r : result)
    (e : String) (hr : results.get? i = some r) (he : r.err = some e)
    (hfirst : ∀ j r', j < i → results.get? j = some r' → r'.err = none) :
    checkErrors results acc = .error ("chunk " ++ fmtInt r.index ++ " failed: " ++ e) := by
  induction results generalizing i acc with
  | nil => simp at hr
  | cons a rest ih =>
    cases i with
    | zero =>
      simp only [List.get?_cons_zero, Option.some.injEq] at hr
      subst hr
      simp [checkErrors, he]
    | succ k =>
      have ha : a.err = none := hfirst 0 a (Nat.succ_pos _) rfl
      simp only [checkErrors, ha]
      exact ih _ k hr (fun j r' hj hg => hfirst (j + 1) r' (Nat.succ_lt_succ hj) hg)

theorem checkErrors_ok (results : List result) (acc : List String)
    (h : ∀ r ∈ results, r.err = none) :
    checkErrors results acc = .ok (acc ++ results.map (fun r => r.path)) := by
  induction results generalizing acc with
  | nil => simp [checkErrors]
  | cons a rest ih =>
    have ha : a.err = none := h a (List.mem_cons_self _ _)
    simp only [checkErrors, ha]
    rw [ih _ (fun r hr => h r (List.mem_cons_of_mem _ hr))]
    simp

theorem chunkEffects_noMerge (c : Config) (env : SplitEnv) (tmpDir : String)
    (chunks : List String) : ∀ eff ∈ chunkEffects c env tmpDir chunks, eff.isMergeWork = false := by
  intro eff h
  unfold chunkEffects at h
  rw [List.mem_flatMap] at h
  obtain ⟨i, _, hi⟩ := h
  split at hi
  · simp only [List.mem_cons, List.mem_singleton, List.not_mem_nil, or_false] at hi
    rcases hi with h | h <;> rw [h] <;> rfl
  · cases hi

theorem splitChunks_noMerge (c : Config) (env : SplitEnv) (inPath tmpDir : String) :
    ∀ eff ∈ (splitChunks c env inPath tmpDir).2, eff.isMergeWork = false := by
  intro eff h
  unfold splitChunks at h
  split at h
  · cases h
  · simp only [List.mem_singleton] at h
    rw [h]; rfl

theorem ConvertSplit_eq (c : Config) (env : SplitEnv) (inPath outDir tmpDir : String)
    (chunks : List String) (hmk : env.mkdirTemp = .ok tmpDir)
    (hch : (splitChunks c env inPath tmpDir).1 = .ok chunks) (hcon : 0 ≤ c.Concurrent) :
    ConvertSplit c env inPath outDir =
      (.mkdirTemp :: (splitChunks c env inPath tmpDir).2 ++ chunkEffects c env tmpDir chunks ++
        (ConvertSplit_afterWait c env inPath outDir tmpDir
          (fillResults c env tmpDir chunks env.order)).1 ++ [.removeAll tmpDir],
       (ConvertSplit_afterWait c env inPath outDir tmpDir
          (fillResults c env tmpDir chunks env.order)).2) := by
  unfold ConvertSplit
  rw [hmk]
  cases hsc : splitChunks c env inPath tmpDir with
  | mk r effs =>
    rw [hsc] at hch
    simp only at hch
    subst hch
    simp only [if_neg (not_lt.2 hcon)]
    rw [hsc]

/-- C9. When some chunk sub-encode has failed, `ConvertSplit` returns an empty
output path and the error `chunk <i> failed: <err>` of the failing chunk with
the lowest index, and nothing it did wrote the concatenation list or ran the
merge; this holds for every completion order of the chunks. -/
theorem split_fails_on_chunk_error (c : Config) (env : SplitEnv)
    (inPath outDir tmpDir : String) (chunks : List String) (i : Nat) (ch e : String)
    (hmk : env.mkdirTemp = .ok tmpDir)
    (hch : (splitChunks c env inPath tmpDir).1 = .ok chunks)
    (hcon : 0 ≤ c.Concurrent)
    (hperm : env.order.Perm (List.range chunks.length))
    (hi : chunks.get? i = some ch)
    (hfail : (chunkResult c env tmpDir i ch).err = some e)
    (hfirst : ∀ j ch', j < i → chunks.get? j = some ch' →
      (chunkResult c env tmpDir j ch').err = none) :
    (ConvertSplit c env inPath outDir).2 =
      .returned "" (some ("chunk " ++ fmtInt i ++ " failed: " ++ e)) ∧
    ∀ eff ∈ (ConvertSplit c env inPath outDir).1, eff.isMergeWork = false := by
  obtain ⟨_, hget⟩ := fillResults_spec c env tmpDir chunks env.order hperm
  have hcheck : checkErrors (fillResults c env tmpDir chunks env.order) [] =
      .error ("chunk " ++ fmtInt i ++ " failed: " ++ e) := by
    apply checkErrors_first _ _ i (chunkResult c env tmpDir i ch) e
    · rw [hget, hi]; rfl
    · exact hfail
    · intro j r' hj hr
      rw [hget] at hr
      cases hc : chunks.get? j with
      | none => rw [hc] at hr; cases hr
      | some ch' =>
        rw [hc] at hr
        simp only [Option.map_some', Option.some.injEq] at hr
        rw [← hr]
        exact hfirst j ch' hj hc
  have htail : ConvertSplit_afterWait c env inPath outDir tmpDir
      (fillResults c env tmpDir chunks env.order) =
      ([], .returned "" (some ("chunk " ++ fmtInt i ++ " failed: " ++ e))) := by
    unfold ConvertSplit_afterWait
    rw [hcheck]
  rw [ConvertSplit_eq c env inPath outDir tmpDir chunks hmk hch hcon, htail]
  refine ⟨rfl, ?_⟩
  intro eff heff
  simp only [List.append_nil, List.mem_cons, List.mem_append, List.mem_singleton,
    List.cons_append, List.not_mem_nil, or_false] at heff
  rcases heff with h | (h | h) | h
  · rw [h]; rfl
  · exact splitChunks_noMerge c env inPath tmpDir eff h
  · exact chunkEffects_noMerge c env tmpDir chunks eff h
  · rw [h]; rfl

/-- Witness for C9: three chunks completing in the order 2, 0, 1, of which
chunk 1 fails; the conversion returns chunk 1's error and does no merge work. -/
theorem split_fails_on_chunk_error_witness :
    (ConvertSplit sampleSoftware sampleSplitEnv "/in/x.mov" "/out").2 =
      .returned "" (some "chunk 1 failed: ffmpeg error: exit status 1\nboom") ∧
    ∀ eff ∈ (ConvertSplit sampleSoftware sampleSplitEnv "/in/x.mov" "/out").1,
      eff.isMergeWork = false :=
  split_fails_on_chunk_error sampleSoftware sampleSplitEnv "/in/x.mov" "/out"
    "/tmp/rec-watch-split-1"
    ["/tmp/rec-watch-split-1/chunk_000.mp4", "/tmp/rec-watch-split-1/chunk_001.mp4",
      "/tmp/rec-watch-split-1/chunk_002.mp4"]
    1 "/tmp/rec-watch-split-1/chunk_001.mp4" "ffmpeg error: exit status 1\nboom"
    rfl rfl (by decide) (by decide) rfl rfl
    (by
      intro j ch' hj _
      have hj0 : j = 0 := by omega
      subst hj0
      rfl)

theorem writtenLines_append (a b : List Effect) :
    writtenLines (a ++ b) = writtenLines a ++ writtenLines b := by
  unfold writtenLines
  rw [List.filterMap_append]

theorem writtenLines_of_noMerge (effs : List Effect)
    (h : ∀ eff ∈ effs, eff.isMergeWork = false) : writtenLines effs = [] := by
  unfold writtenLines
  rw [List.filterMap_eq_nil_iff]
  intro eff heff
  have := h eff heff
  cases eff <;> first | rfl | cases this

theorem writtenLines_map_writeLine (ls : List String) :
    writtenLines (ls.map Effect.writeLine) = ls := by
  unfold writtenLines
  induction ls with
  | nil => rfl
  | cons a as ih => simp [List.filterMap_cons, ih]

theorem afterWait_writtenLines (c : Config) (env : SplitEnv) (inPath outDir tmpDir : String)
    (results : List result) (hok : ∀ r ∈ results, r.err = none) (hcreate : env.createErr = none) :
    writtenLines (ConvertSplit_afterWait c env inPath outDir tmpDir results).1 =
      concatLines env (results.map (fun r => r.path)) := by
  unfold ConvertSplit_afterWait
  rw [checkErrors_ok results [] hok]
  simp only [hcreate, List.nil_append]
  have hw : writtenLines (Effect.createList (Join tmpDir "concat.txt") ::
      (concatLines env (results.map (fun r => r.path))).map Effect.writeLine) =
      concatLines env (results.map (fun r => r.path)) := by
    rw [← List.singleton_append, writtenLines_append, writtenLines_map_writeLine]
    rfl
  cases env.stat with
  | none => exact hw
  | some info =>
    simp only
    cases env.mergeExec with
    | some p =>
      simp only [writtenLines_append, hw]
      exact List.append_nil _
    | none =>
      simp only
      split_ifs <;> simp only [writtenLines_append, hw] <;> simp [writtenLines]

theorem writtenLines_frame (a b t : List Effect) (d : String) :
    writtenLines (Effect.mkdirTemp :: a ++ b ++ t ++ [Effect.removeAll d]) =
      writtenLines a ++ writtenLines b ++ writtenLines t := by
  simp only [writtenLines_append]
  simp [writtenLines]

theorem fillResults_paths (c : Config) (env : SplitEnv) (tmpDir : String)
    (chunks : List String) (order : List Nat)
    (hperm : order.Perm (List.range chunks.length)) :
    (fillResults c env tmpDir chunks order).map (fun r => r.path) =
      chunks.map (chunkOutFile tmpDir) := by
  obtain ⟨_, hget⟩ := fillResults_spec c env tmpDir chunks order hperm
  apply List.ext_get?
  intro j
  rw [List.get?_eq_getElem?, List.get?_eq_getElem?, List.getElem?_map, List.getElem?_map,
    ← List.get?_eq_getElem?, ← List.get?_eq_getElem?, hget]
  cases chunks.get? j with
  | none => rfl
  | some ch => rfl

theorem fillResults_ok (c : Config) (env : SplitEnv) (tmpDir : String)
    (chunks : List String) (order : List Nat)
    (hperm : order.Perm (List.range chunks.length))
    (hok : ∀ j ch, chunks.get? j = some ch → (chunkResult c env tmpDir j ch).err = none) :
    ∀ r ∈ fillResults c env tmpDir chunks order, r.err = none := by
  obtain ⟨_, hget⟩ := fillResults_spec c env tmpDir chunks order hperm
  intro r hr
  obtain ⟨j, hj⟩ := List.get?_of_mem hr
  rw [hget] at hj
  cases hc : chunks.get? j with
  | none => rw [hc] at hj; cases hj
  | some ch =>
    rw [hc] at hj
    simp only [Option.map_some', Option.some.injEq] at hj
    rw [← hj]
    exact hok j ch hc

theorem chunkOutFile_base (tmpDir ch : String) (h : isFileName (Base ch).data) :
    EndsWithElem (chunkOutFile tmpDir ch).data (Base ch).data :=
  Join_endsWithElem _ _ _ h (Or.inl rfl)

/-- C10. When every chunk sub-encode succeeded and the list file could be
created, the concatenation list written by `ConvertSplit` has one line per
chunk, in chunk order whatever the completion order was: line `i` is
`file '<abs>'` for the absolute form of the output file of chunk `i`, and that
file (and its absolute form) has the base name of source chunk `i`, for every
chunk whose base name is a file name, as every path returned by the split step
is. -/
theorem concat_list_in_chunk_order (c : Config) (env : SplitEnv)
    (inPath outDir tmpDir : String) (chunks : List String)
    (hmk : env.mkdirTemp = .ok tmpDir)
    (hch : (splitChunks c env inPath tmpDir).1 = .ok chunks)
    (hcon : 0 ≤ c.Concurrent)
    (hperm : env.order.Perm (List.range chunks.length))
    (hok : ∀ j ch, chunks.get? j = some ch → (chunkResult c env tmpDir j ch).err = none)
    (hcreate : env.createErr = none) :
    writtenLines (ConvertSplit c env inPath outDir).1 =
      chunks.map (fun ch => "file '" ++ (Abs env.wd (chunkOutFile tmpDir ch)).1 ++ "'\n") ∧
    (writtenLines (ConvertSplit c env inPath outDir).1).length = chunks.length ∧
    ∀ i ch, chunks.get? i = some ch → isFileName (Base ch).data →
      Base (chunkOutFile tmpDir ch) = Base ch ∧
      ∀ a, Abs env.wd (chunkOutFile tmpDir ch) = (a, none) → Base a = Base ch := by
  have hlines : writtenLines (ConvertSplit c env inPath outDir).1 =
      chunks.map (fun ch => "file '" ++ (Abs env.wd (chunkOutFile tmpDir ch)).1 ++ "'\n") := by
    rw [ConvertSplit_eq c env inPath outDir tmpDir chunks hmk hch hcon]
    simp only
    rw [writtenLines_frame,
      writtenLines_of_noMerge _ (splitChunks_noMerge c env inPath tmpDir),
      writtenLines_of_noMerge _ (chunkEffects_noMerge c env tmpDir chunks),
      afterWait_writtenLines c env inPath outDir tmpDir _
        (fillResults_ok c env tmpDir chunks env.order hperm hok) hcreate,
      fillResults_paths c env tmpDir chunks env.order hperm]
    simp [writtenLines, concatLines, List.map_map]
  refine ⟨hlines, by rw [hlines, List.length_map], ?_⟩
  intro i ch _ hname
  have hends := chunkOutFile_base tmpDir ch hname
  refine ⟨Base_of_endsWithElem _ _ hname hends, ?_⟩
  intro a ha
  exact Base_of_endsWithElem _ _ hname (Abs_endsWithElem env.wd _ a _ hname hends ha)

/-- Witness for C10: three chunks completing in the order 2, 0, 1, all
succeeding; the list names `chunk_000`, `chunk_001`, `chunk_002` in that
order. -/
theorem concat_list_in_chunk_order_witness :
    writtenLines (ConvertSplit sampleSoftware sampleSplitEnvOk "/in/x.mov" "/out").1 =
      ["file '/tmp/rec-watch-split-1/converted/chunk_000.mp4'\n",
       "file '/tmp/rec-watch-split-1/converted/chunk_001.mp4'\n",
       "file '/tmp/rec-watch-split-1/converted/chunk_002.mp4'\n"] ∧
    Base (chunkOutFile "/tmp/rec-watch-split-1" "/tmp/rec-watch-split-1/chunk_001.mp4") =
      Base "/tmp/rec-watch-split-1/chunk_001.mp4" :=
  ⟨(concat_list_in_chunk_order sampleSoftware sampleSplitEnvOk "/in/x.mov" "/out"
      "/tmp/rec-watch-split-1"
      ["/tmp/rec-watch-split-1/chunk_000.mp4", "/tmp/rec-watch-split-1/chunk_001.mp4",
        "/tmp/rec-watch-split-1/chunk_002.mp4"]
      rfl rfl (by decide) (by decide) (fun _ _ _ => rfl) rfl).1,
   ((concat_list_in_chunk_order sampleSoftware sampleSplitEnvOk "/in/x.mov" "/out"
      "/tmp/rec-watch-split-1"
      ["/tmp/rec-watch-split-1/chunk_000.mp4", "/tmp/rec-watch-split-1/chunk_001.mp4",
        "/tmp/rec-watch-split-1/chunk_002.mp4"]
      rfl rfl (by decide) (by decide) (fun _ _ _ => rfl) rfl).2.2 1
      "/tmp/rec-watch-split-1/chunk_001.mp4" rfl (by unfold isFileName; decide)).1⟩

end SplitClaims

/-! ## The worker pool: every file is converted once (C11) -/

section PoolRunClaims
open convert

theorem advance_spec (ws ws' : List Worker) (i : Nat) (src dst : Phase)
    (err : Option (Option String)) (h : advance ws i src dst err = some ws') :
    ∃ w, ws.get? i = some w ∧ w.phase = src ∧
      ws' = ws.set i { w with phase := dst, err := err.getD w.err } := by
  unfold advance at h
  cases hg : ws.get? i with
  | none => rw [hg] at h; cases h
  | some w =>
    rw [hg] at h
    simp only at h
    split_ifs at h with hp
    cases h
    exact ⟨w, rfl, hp, rfl⟩

theorem advance_of_phase (ws : List Worker) (i : Nat) (w : Worker) (src dst : Phase)
    (err : Option (Option String)) (hg : ws.get? i = some w) (hp : w.phase = src) :
    advance ws i src dst err = some (ws.set i { w with phase := dst, err := err.getD w.err }) := by
  unfold advance
  rw [hg]
  simp only [hp, if_true]

theorem map_set_same {β : Type} (f : Worker → β) (l : List Worker) (i : Nat) (w w' : Worker)
    (h : l.get? i = some w) (hf : f w' = f w) : (l.set i w').map f = l.map f := by
  induction l generalizing i with
  | nil => rfl
  | cons a as ih =>
    cases i with
    | zero =>
      simp only [List.get?_cons_zero, Option.some.injEq] at h
      subst h
      simp [hf]
    | succ j =>
      simp only [List.get?_cons_succ] at h
      simp [ih j h]

theorem sum_map_set (f : Worker → Nat) (l : List Worker) (i : Nat) (w w' : Worker)
    (h : l.get? i = some w) :
    ((l.set i w').map f).sum + f w = (l.map f).sum + f w' := by
  induction l generalizing i with
  | nil => simp at h
  | cons a as ih =>
    cases i with
    | zero =>
      simp only [List.get?_cons_zero, Option.some.injEq] at h
      subst h
      simp only [List.set_cons_zero, List.map_cons, List.sum_cons]
      omega
    | succ j =>
      simp only [List.get?_cons_succ] at h
      have := ih j h
      simp only [List.set_cons_succ, List.map_cons, List.sum_cons]
      omega

theorem get?_set_worker (l : List Worker) (i j : Nat) (w w' : Worker)
    (h : l.get? i = some w) :
    (l.set i w').get? j = if j = i then some w' else l.get? j := by
  have hi : i < l.length := by
    by_contra hc
    rw [List.get?_eq_none.2 (not_lt.1 hc)] at h
    cases h
  by_cases hji : j = i
  · subst hji
    rw [if_pos rfl]
    simp [List.getElem?_set, hi]
  · rw [if_neg hji]
    simp [List.getElem?_set, Ne.symm hji]

theorem wf_advance (files : List String) (calls calls' : List Nat) (s : PoolState)
    (i sem' wg' : Nat) (w w' : Worker) (h : PoolWf files calls s)
    (hg : s.workers.get? i = some w)
    (hin : w'.inPath = w.inPath)
    (hsem : sem' + (if holdsSlot w = true then 1 else 0) =
      s.semaphore + (if holdsSlot w' = true then 1 else 0))
    (hmono : holdsSlot w' = true → holdsSlot w = true)
    (hwg : wg' + (if unfinished w = true then 1 else 0) =
      s.wg + (if unfinished w' = true then 1 else 0))
    (hfin : unfinished w = true)
    (hnd : calls'.Nodup)
    (hcalls : ∀ j, j ∈ calls' ↔ (j ≠ i ∧ j ∈ calls) ∨ (j = i ∧ w'.phase ≠ .spawned)) :
    PoolWf files calls'
      { s with workers := s.workers.set i w', semaphore := sem', wg := wg' } := by
  have hcnt := countP_set holdsSlot s.workers i w w' hg
  have hcnt2 := countP_set unfinished s.workers i w w' hg
  have hwpos : 0 < s.workers.countP unfinished := by
    rw [List.countP_pos_iff]
    exact ⟨w, List.get?_mem hg, hfin⟩
  have hcomp : s.completed = false := by
    cases hc : s.completed with
    | false => rfl
    | true =>
      have := (h.atEnd hc).2.2
      have := h.counter
      omega
  have h1 := h.slots.1
  have h2 := h.slots.2
  have h3 := h.counter
  refine ⟨?_, hnd, ?_, ?_, ⟨?_, ?_⟩, h.addedPending, ?_⟩
  · simp only
    rw [map_set_same _ _ _ _ _ hg hin]
    exact h.dispatched
  · intro j
    simp only
    rw [hcalls j, get?_set_worker _ _ _ _ _ hg]
    by_cases hji : j = i
    · subst hji
      simp
    · simp only [hji, if_false, false_and, or_false, ne_eq, not_false_eq_true, true_and]
      exact h.callsIff j
  · simp only
    rw [if_pos hfin] at hcnt2 hwg
    split_ifs at hcnt2 hwg h3 ⊢ <;> omega
  · simp only
    split_ifs at hcnt hsem <;> omega
  · show sem' ≤ s.capacity
    by_cases hh : holdsSlot w' = true
    · rw [if_pos hh, if_pos (hmono hh)] at hsem
      omega
    · rw [if_neg hh] at hsem
      omega
  · intro hc
    simp only at hc
    rw [hcomp] at hc
    cases hc

theorem completed_false_of_pending (files : List String) (calls : List Nat) (s : PoolState)
    (h : PoolWf files calls s) (hp : s.pending ≠ []) : s.completed = false := by
  cases hc : s.completed with
  | false => rfl
  | true => exact absurd (h.atEnd hc).1 hp

theorem wf_add (files : List String) (calls : List Nat) (s : PoolState)
    (h : PoolWf files calls s) : PoolWf files calls (poolStep s .add) := by
  simp only [poolStep]
  split_ifs with hc
  · have h3 := h.counter
    have hcomp := completed_false_of_pending files calls s h hc.1
    refine ⟨h.dispatched, h.callsNodup, h.callsIff, ?_, h.slots, fun _ => hc.1, ?_⟩
    · simp only [hc.2, if_true] at h3 ⊢
      simp only [Bool.false_eq_true, if_false] at h3
      omega
    · intro hcc
      simp only at hcc
      rw [hcomp] at hcc
      cases hcc
  · exact h

theorem wf_acquire (files : List String) (calls : List Nat) (s : PoolState)
    (h : PoolWf files calls s) : PoolWf files calls (poolStep s .acquire) := by
  simp only [poolStep]
  split
  · rename_i inPath rest hp
    split_ifs with hc
    · have h3 := h.counter
      have h1 := h.slots.1
      have hd := h.dispatched
      have hcomp := completed_false_of_pending files calls s h (by rw [hp]; simp)
      refine ⟨?_, h.callsNodup, ?_, ?_, ⟨?_, ?_⟩, ?_, ?_⟩
      · simp only [List.map_append, List.map_cons, List.map_nil, List.append_assoc,
          List.singleton_append]
        rw [← hp]; exact hd
      · intro j
        rw [h.callsIff j]
        simp only
        constructor
        · rintro ⟨w, hw, hph⟩
          have hj : j < s.workers.length := by
            by_contra hcon
            rw [List.get?_eq_none.2 (not_lt.1 hcon)] at hw
            cases hw
          refine ⟨w, ?_, hph⟩
          rw [List.get?_eq_getElem?, List.getElem?_append_left hj, ← List.get?_eq_getElem?]
          exact hw
        · rintro ⟨w, hw, hph⟩
          by_cases hj : j < s.workers.length
          · rw [List.get?_eq_getElem?, List.getElem?_append_left hj,
              ← List.get?_eq_getElem?] at hw
            exact ⟨w, hw, hph⟩
          · exfalso
            rw [List.get?_eq_getElem?, List.getElem?_append_right (not_lt.1 hj)] at hw
            cases hk : j - s.workers.length with
            | zero =>
              rw [hk] at hw
              simp only [List.getElem?_cons_zero, Option.some.injEq] at hw
              rw [← hw] at hph
              exact hph rfl
            | succ k =>
              rw [hk] at hw
              simp at hw
      · simp only [List.countP_append, List.countP_cons, List.countP_nil, unfinished]
        simp only [hc.1, if_true] at h3
        simp [h3]
      · simp only [List.countP_append, List.countP_cons, List.countP_nil, holdsSlot]
        simp [h1]
      · simp only
        omega
      · intro hcc
        simp at hcc
      · intro hcc
        simp only at hcc
        rw [hcomp] at hcc
        cases hcc
    · exact h
  · exact h

theorem wf_wait (files : List String) (calls : List Nat) (s : PoolState)
    (h : PoolWf files calls s) : PoolWf files calls (poolStep s .wait) := by
  simp only [poolStep]
  split_ifs with hc
  · exact ⟨h.dispatched, h.callsNodup, h.callsIff, h.counter, h.slots, h.addedPending,
      fun _ => hc⟩
  · exact h

theorem canStart_iff (s : PoolState) (i : Nat) :
    canStart s i = true ↔ ∃ w, s.workers.get? i = some w ∧ w.phase = .spawned := by
  unfold canStart
  constructor
  · intro h
    cases ha : advance s.workers i .spawned .converting none with
    | none => rw [ha] at h; cases h
    | some ws =>
      obtain ⟨w, hg, hp, _⟩ := advance_spec _ _ _ _ _ _ ha
      exact ⟨w, hg, hp⟩
  · rintro ⟨w, hg, hp⟩
    rw [advance_of_phase _ _ w _ _ _ hg hp]
    rfl

theorem wf_start (files : List String) (calls : List Nat) (s : PoolState) (i : Nat)
    (h : PoolWf files calls s) :
    PoolWf files (calls ++ (if canStart s i = true then [i] else [])) (poolStep s (.start i)) := by
  simp only [poolStep]
  cases ha : advance s.workers i .spawned .converting none with
  | none =>
    have hc : canStart s i = false := by unfold canStart; rw [ha]; rfl
    simp only [hc, Bool.false_eq_true, if_false, List.append_nil]
    exact h
  | some ws =>
    have hc : canStart s i = true := by unfold canStart; rw [ha]; rfl
    obtain ⟨w, hg, hp, hws⟩ := advance_spec _ _ _ _ _ _ ha
    have hni : i ∉ calls := by
      intro hin
      obtain ⟨w2, hg2, hp2⟩ := (h.callsIff i).1 hin
      rw [hg] at hg2
      cases hg2
      exact hp2 hp
    simp only [hc, if_true]
    rw [hws]
    apply wf_advance files calls _ s i s.semaphore s.wg w
      { w with phase := .converting, err := (none : Option (Option String)).getD w.err } h hg rfl
    · simp [holdsSlot, hp]
    · intro _; simp [holdsSlot, hp]
    · simp [unfinished, hp]
    · simp [unfinished, hp]
    · exact List.Nodup.append h.callsNodup (List.nodup_singleton i)
        (by simpa [List.disjoint_singleton] using hni)
    · intro j
      simp only [List.mem_append, List.mem_singleton, ne_eq]
      constructor
      · rintro (hj | hj)
        · left
          exact ⟨fun hji => hni (hji ▸ hj), hj⟩
        · right
          exact ⟨hj, by simp⟩
      · rintro (⟨_, hj⟩ | ⟨hj, _⟩)
        · exact Or.inl hj
        · exact Or.inr hj

theorem wf_later (files : List String) (calls : List Nat) (s : PoolState)
    (i sem' wg' : Nat) (src dst : Phase) (err : Option (Option String)) (ws : List Worker)
    (h : PoolWf files calls s) (ha : advance s.workers i src dst err = some ws)
    (hsrc : src ≠ .spawned) (hsrc2 : src ≠ .finished) (hdst : dst ≠ .spawned)
    (hsem : ∀ w w' : Worker, w.phase = src → w'.phase = dst →
      sem' + (if holdsSlot w = true then 1 else 0) =
        s.semaphore + (if holdsSlot w' = true then 1 else 0) ∧
      (holdsSlot w' = true → holdsSlot w = true) ∧
      wg' + (if unfinished w = true then 1 else 0) =
        s.wg + (if unfinished w' = true then 1 else 0)) :
    PoolWf files calls { s with workers := ws, semaphore := sem', wg := wg' } := by
  obtain ⟨w, hg, hp, hws⟩ := advance_spec _ _ _ _ _ _ ha
  have hi : i ∈ calls := (h.callsIff i).2 ⟨w, hg, by rw [hp]; exact hsrc⟩
  obtain ⟨h1, h2, h3⟩ := hsem w { w with phase := dst, err := err.getD w.err } hp rfl
  rw [hws]
  apply wf_advance files calls _ s i sem' wg' w
    { w with phase := dst, err := err.getD w.err } h hg rfl h1 h2 h3
  · simp [unfinished, hp, hsrc2]
  · exact h.callsNodup
  · intro j
    constructor
    · intro hj
      by_cases hji : j = i
      · exact Or.inr ⟨hji, hdst⟩
      · exact Or.inl ⟨hji, hj⟩
    · rintro (⟨_, hj⟩ | ⟨hj, _⟩)
      · exact hj
      · rw [hj]; exact hi

theorem wf_step (files : List String) (calls : List Nat) (s : PoolState) (a : PoolStep)
    (h : PoolWf files calls s) :
    PoolWf files (calls ++ convertCalls s [a]) (poolStep s a) := by
  cases a with
  | add => simpa [convertCalls] using wf_add files calls s h
  | acquire => simpa [convertCalls] using wf_acquire files calls s h
  | wait => simpa [convertCalls] using wf_wait files calls s h
  | start i => simpa [convertCalls] using wf_start files calls s i h
  | ret i err =>
    simp only [convertCalls, List.append_nil, poolStep]
    cases ha : advance s.workers i .converting .returned (some err) with
    | none => exact h
    | some ws =>
      exact wf_later files calls s i s.semaphore s.wg _ _ _ ws h ha (by decide) (by decide)
        (by decide) (fun w w' hw hw' => by simp [holdsSlot, unfinished, hw, hw'])
  | release i =>
    simp only [convertCalls, List.append_nil, poolStep]
    cases ha : advance s.workers i .returned .released none with
    | none => exact h
    | some ws =>
      have hpos : 0 < s.semaphore := by
        obtain ⟨w, hg, hp, _⟩ := advance_spec _ _ _ _ _ _ ha
        rw [← h.slots.1, List.countP_pos_iff]
        exact ⟨w, List.get?_mem hg, by simp [holdsSlot, hp]⟩
      exact wf_later files calls s i (s.semaphore - 1) s.wg _ _ _ ws h ha (by decide)
        (by decide) (by decide)
        (fun w w' hw hw' => by simp [holdsSlot, unfinished, hw, hw']; omega)
  | done i =>
    simp only [convertCalls, List.append_nil, poolStep]
    cases ha : advance s.workers i .released .finished none with
    | none => exact h
    | some ws =>
      have hpos : 0 < s.wg := by
        obtain ⟨w, hg, hp, _⟩ := advance_spec _ _ _ _ _ _ ha
        have : 0 < s.workers.countP unfinished := by
          rw [List.countP_pos_iff]
          exact ⟨w, List.get?_mem hg, by simp [unfinished, hp]⟩
        have := h.counter
        omega
      exact wf_later files calls s i s.semaphore (s.wg - 1) _ _ _ ws h ha (by decide)
        (by decide) (by decide)
        (fun w w' hw hw' => by simp [holdsSlot, unfinished, hw, hw']; omega)

theorem convertCalls_cons (s : PoolState) (a : PoolStep) (rest : List PoolStep) :
    convertCalls s (a :: rest) = convertCalls s [a] ++ convertCalls (poolStep s a) rest := by
  cases a <;> simp [convertCalls]

theorem wf_run (files : List String) (calls : List Nat) (s : PoolState) (steps : List PoolStep)
    (h : PoolWf files calls s) :
    PoolWf files (calls ++ convertCalls s steps) (poolRun s steps) := by
  induction steps generalizing s calls with
  | nil => simpa [convertCalls, poolRun] using h
  | cons a rest ih =>
    rw [convertCalls_cons, ← List.append_assoc]
    exact ih _ _ (wf_step files calls s a h)

theorem wf_init (c : Config) (absDest stamp : String) (mkdirErr : Option String)
    (files : List String) (s0 : PoolState)
    (hinit : ProcessFiles_init c absDest stamp mkdirErr files = .ok s0) :
    PoolWf files [] s0 := by
  obtain ⟨hinv, _, hp, hw⟩ := ProcessFiles_init_inv c absDest stamp mkdirErr files s0 hinit
  have hs : s0.added = false ∧ s0.wg = 0 ∧ s0.completed = false := by
    unfold ProcessFiles_init at hinit
    cases mkdirErr with
    | some e => cases hinit
    | none =>
      simp only at hinit
      by_cases hneg : c.Concurrent < 0
      · rw [if_pos hneg] at hinit; cases hinit
      · rw [if_neg hneg] at hinit
        cases hinit
        exact ⟨rfl, rfl, rfl⟩
  refine ⟨by rw [hw, hp]; rfl, List.nodup_nil, ?_, ?_, hinv, ?_, ?_⟩
  · intro i
    rw [hw]
    simp
  · rw [hw, hs.1, hs.2.1]; rfl
  · intro h; rw [hs.1] at h; cases h
  · intro h; rw [hs.2.2] at h; cases h

theorem all_finished_of_wg_zero (files : List String) (calls : List Nat) (s : PoolState)
    (h : PoolWf files calls s) (hwg : s.wg = 0) :
    ∀ w ∈ s.workers, w.phase = .finished := by
  have h3 := h.counter
  have h0 : s.workers.countP unfinished = 0 := by omega
  rw [List.countP_eq_zero] at h0
  intro w hw
  have := h0 w hw
  simpa [unfinished] using this

theorem wf_completed (files : List String) (calls : List Nat) (s : PoolState)
    (h : PoolWf files calls s) (hc : s.completed = true) :
    s.workers.map (fun w => w.inPath) = files ∧
    (∀ w ∈ s.workers, w.phase = .finished) ∧
    calls.Perm (List.range files.length) ∧
    s.semaphore = 0 := by
  obtain ⟨hp, _, hwg⟩ := h.atEnd hc
  have hfin := all_finished_of_wg_zero files calls s h hwg
  have hmap : s.workers.map (fun w => w.inPath) = files := by
    have := h.dispatched
    rw [hp, List.append_nil] at this
    exact this
  refine ⟨hmap, hfin, ?_, ?_⟩
  · rw [List.perm_ext_iff_of_nodup h.callsNodup (List.nodup_range _)]
    intro i
    rw [h.callsIff i, List.mem_range, ← hmap, List.length_map]
    constructor
    · rintro ⟨w, hw, _⟩
      by_contra hcon
      rw [List.get?_eq_none.2 (not_lt.1 hcon)] at hw
      cases hw
    · intro hi
      refine ⟨s.workers.get ⟨i, hi⟩, List.get?_eq_get hi, ?_⟩
      rw [hfin _ (List.get_mem _ _ _)]
      decide
  · rw [← h.slots.1, List.countP_eq_zero]
    intro w hw
    simp [holdsSlot, hfin w hw]

theorem poolStep_measure (s : PoolState) (a : PoolStep) (h : poolStep s a ≠ s) :
    poolMeasure (poolStep s a) < poolMeasure s := by
  have key : ∀ (i : Nat) (src dst : Phase) (err : Option (Option String)) (ws : List Worker)
      (sem' wg' : Nat), advance s.workers i src dst err = some ws → src.rank = dst.rank + 1 →
      poolMeasure { s with workers := ws, semaphore := sem', wg := wg' } < poolMeasure s := by
    intro i src dst err ws sem' wg' ha hr
    obtain ⟨w, hg, hp, hws⟩ := advance_spec _ _ _ _ _ _ ha
    have hsum := sum_map_set (fun w => w.phase.rank) s.workers i w
      { w with phase := dst, err := err.getD w.err } hg
    simp only [hp] at hsum
    unfold poolMeasure
    simp only [hws]
    omega
  cases a with
  | add =>
    simp only [poolStep] at h ⊢
    split_ifs at h ⊢ with hc
    · unfold poolMeasure
      simp only [hc.2, Bool.false_eq_true, if_false, if_true]
      omega
    · exact absurd rfl h
  | acquire =>
    cases hp : s.pending with
    | nil =>
      simp only [poolStep, hp] at h
      exact absurd rfl h
    | cons inPath rest =>
      simp only [poolStep, hp] at h ⊢
      split_ifs at h ⊢ with hc
      · unfold poolMeasure
        simp only [hp, hc.1, List.length_cons, List.map_append, List.sum_append, List.map_cons,
          List.map_nil, List.sum_cons, List.sum_nil, Phase.rank, if_true, Bool.false_eq_true,
          if_false]
        omega
      · exact absurd rfl h
  | start i =>
    simp only [poolStep] at h ⊢
    cases ha : advance s.workers i .spawned .converting none with
    | none => rw [ha] at h; exact absurd rfl h
    | some ws => exact key i _ _ _ ws s.semaphore s.wg ha rfl
  | ret i err =>
    simp only [poolStep] at h ⊢
    cases ha : advance s.workers i .converting .returned (some err) with
    | none => rw [ha] at h; exact absurd rfl h
    | some ws => exact key i _ _ _ ws s.semaphore s.wg ha rfl
  | release i =>
    simp only [poolStep] at h ⊢
    cases ha : advance s.workers i .returned .released none with
    | none => rw [ha] at h; exact absurd rfl h
    | some ws => exact key i _ _ _ ws (s.semaphore - 1) s.wg ha rfl
  | done i =>
    simp only [poolStep] at h ⊢
    cases ha : advance s.workers i .released .finished none with
    | none => rw [ha] at h; exact absurd rfl h
    | some ws => exact key i _ _ _ ws s.semaphore (s.wg - 1) ha rfl
  | wait =>
    simp only [poolStep] at h ⊢
    split_ifs at h ⊢ with hc
    · cases hcomp : s.completed with
      | true =>
        exfalso
        apply h
        cases s
        simp only at hcomp
        simp [hcomp]
      | false =>
        unfold poolMeasure
        simp only [hcomp, Bool.false_eq_true, if_false, if_true]
        omega
    · exact absurd rfl h

theorem advance_changes (s : PoolState) (i sem' wg' : Nat) (w : Worker) (src dst : Phase)
    (err : Option (Option String)) (hg : s.workers.get? i = some w) (hp : w.phase = src)
    (hne : src ≠ dst) :
    ({ s with workers := s.workers.set i { w with phase := dst, err := err.getD w.err },
              semaphore := sem', wg := wg' } : PoolState) ≠ s := by
  intro heq
  have h1 := congrArg (fun t : PoolState => t.workers.get? i) heq
  simp only at h1
  rw [get?_set_worker _ _ _ _ _ hg, if_pos rfl, hg] at h1
  have h2 := congrArg (fun o : Option Worker => o.map (fun w => w.phase)) h1
  simp only [Option.map_some', Option.some.injEq] at h2
  exact hne (hp ▸ h2.symm)

theorem pool_progress (files : List String) (calls : List Nat) (s : PoolState)
    (errs : Nat → Option String) (h : PoolWf files calls s) (hcap : 1 ≤ s.capacity)
    (hc : s.completed = false) :
    ∃ a, followsOutcomes errs [a] ∧ poolStep s a ≠ s := by
  have hno : ∀ a : PoolStep, (∀ i e, a ≠ .ret i e) → followsOutcomes errs [a] := by
    intro a ha i e hm
    simp only [List.mem_singleton] at hm
    exact absurd hm.symm (ha i e)
  by_cases hex : ∃ i w, s.workers.get? i = some w ∧ w.phase ≠ .finished
  · obtain ⟨i, w, hg, hph⟩ := hex
    cases hp : w.phase with
    | finished => exact absurd hp hph
    | spawned =>
      refine ⟨.start i, hno _ (by intro _ _ hh; cases hh), ?_⟩
      simp only [poolStep, advance_of_phase _ _ w _ .converting none hg hp]
      exact advance_changes s i s.semaphore s.wg w _ _ _ hg hp (by decide)
    | converting =>
      refine ⟨.ret i (errs i), ?_, ?_⟩
      · intro j e hm
        simp only [List.mem_singleton, PoolStep.ret.injEq] at hm
        rw [hm.2, hm.1]
      · simp only [poolStep, advance_of_phase _ _ w _ .returned (some (errs i)) hg hp]
        exact advance_changes s i s.semaphore s.wg w _ _ _ hg hp (by decide)
    | returned =>
      refine ⟨.release i, hno _ (by intro _ _ hh; cases hh), ?_⟩
      simp only [poolStep, advance_of_phase _ _ w _ .released none hg hp]
      exact advance_changes s i (s.semaphore - 1) s.wg w _ _ _ hg hp (by decide)
    | released =>
      refine ⟨.done i, hno _ (by intro _ _ hh; cases hh), ?_⟩
      simp only [poolStep, advance_of_phase _ _ w _ .finished none hg hp]
      exact advance_changes s i s.semaphore (s.wg - 1) w _ _ _ hg hp (by decide)
  · have hfin : ∀ w ∈ s.workers, w.phase = .finished := by
      intro w hw
      by_contra hcon
      obtain ⟨i, hi⟩ := List.get?_of_mem hw
      exact hex ⟨i, w, hi, hcon⟩
    have hsem : s.semaphore = 0 := by
      rw [← h.slots.1, List.countP_eq_zero]
      intro w hw
      simp [holdsSlot, hfin w hw]
    have hun : s.workers.countP unfinished = 0 := by
      rw [List.countP_eq_zero]
      intro w hw
      simp [unfinished, hfin w hw]
    have h3 := h.counter
    cases hp : s.pending with
    | nil =>
      have hadd : s.added = false := by
        cases ha : s.added with
        | false => rfl
        | true => exact absurd hp (h.addedPending ha)
      refine ⟨.wait, hno _ (by intro _ _ hh; cases hh), ?_⟩
      have hwg : s.wg = 0 := by
        rw [hadd] at h3
        simp only [Bool.false_eq_true, if_false] at h3
        omega
      simp only [poolStep, hp, hadd, hwg, and_self, if_true]
      intro heq
      have := congrArg PoolState.completed heq
      simp only at this
      rw [hc] at this
      cases this
    | cons inPath rest =>
      cases ha : s.added with
      | false =>
        refine ⟨.add, hno _ (by intro _ _ hh; cases hh), ?_⟩
        simp only [poolStep, hp, ha, ne_eq, reduceCtorEq, not_false_eq_true, and_self, if_true]
        intro heq
        have := congrArg PoolState.added heq
        simp only at this
        rw [ha] at this
        cases this
      | true =>
        refine ⟨.acquire, hno _ (by intro _ _ hh; cases hh), ?_⟩
        have hlt : s.semaphore < s.capacity := by omega
        simp only [poolStep, hp, ha, hlt, and_self, if_true]
        intro heq
        have := congrArg (fun t : PoolState => t.pending.length) heq
        simp only [hp, List.length_cons] at this
        omega

theorem followsOutcomes_cons (errs : Nat → Option String) (a : PoolStep)
    (rest : List PoolStep) (ha : followsOutcomes errs [a]) (hr : followsOutcomes errs rest) :
    followsOutcomes errs (a :: rest) := by
  intro i e hm
  rcases List.mem_cons.1 hm with h | h
  · exact ha i e (by rw [h]; exact List.mem_singleton_self _)
  · exact hr i e h

theorem followsOutcomes_nil (errs : Nat → Option String) : followsOutcomes errs [] := by
  intro _ _ hh
  cases hh

theorem pool_completes (files : List String) (errs : Nat → Option String) (n : Nat) :
    ∀ (calls : List Nat) (s : PoolState), PoolWf files calls s → 1 ≤ s.capacity →
      poolMeasure s ≤ n →
      ∃ steps, followsOutcomes errs steps ∧ (poolRun s steps).completed = true := by
  induction n with
  | zero =>
    intro calls s _ _ hm
    refine ⟨[], followsOutcomes_nil errs, ?_⟩
    cases hc : s.completed with
    | true => exact hc
    | false =>
      unfold poolMeasure at hm
      simp only [hc, Bool.false_eq_true, if_false] at hm
      omega
  | succ n ih =>
    intro calls s h hcap hm
    cases hc : s.completed with
    | true => exact ⟨[], followsOutcomes_nil errs, hc⟩
    | false =>
      obtain ⟨a, hfa, hne⟩ := pool_progress files calls s errs h hcap hc
      have hlt := poolStep_measure s a hne
      obtain ⟨steps, hf, hdone⟩ := ih _ (poolStep s a) (wf_step files calls s a h)
        (by rw [poolStep_capacity]; exact hcap) (by omega)
      exact ⟨a :: steps, followsOutcomes_cons errs a steps hfa hf, hdone⟩

theorem pool_run_returns (c : Config) (absDest stamp : String)
    (mkdirErr : Option String) (files : List String) (s0 : PoolState)
    (hn : 1 ≤ c.Concurrent)
    (hinit : ProcessFiles_init c absDest stamp mkdirErr files = .ok s0) :
    (∀ steps,
      (poolRun s0 steps).workers.map (fun w => w.inPath) ++ (poolRun s0 steps).pending = files ∧
      (convertCalls s0 steps).Nodup ∧
      (poolRun s0 steps).workers.countP holdsSlot = (poolRun s0 steps).semaphore ∧
      ((poolRun s0 steps).completed = true →
        (poolRun s0 steps).workers.map (fun w => w.inPath) = files ∧
        (∀ w ∈ (poolRun s0 steps).workers, w.phase = .finished) ∧
        (convertCalls s0 steps).Perm (List.range files.length) ∧
        (poolRun s0 steps).semaphore = 0)) ∧
    (∀ steps errs, (poolRun s0 steps).completed = false →
      ∃ a, followsOutcomes errs [a] ∧ poolStep (poolRun s0 steps) a ≠ poolRun s0 steps) ∧
    (∀ s a, poolStep s a ≠ s → poolMeasure (poolStep s a) < poolMeasure s) ∧
    (∀ errs, ∃ steps, followsOutcomes errs steps ∧ (poolRun s0 steps).completed = true) := by
  have hwf0 := wf_init c absDest stamp mkdirErr files s0 hinit
  obtain ⟨_, hcap, _, _⟩ := ProcessFiles_init_inv c absDest stamp mkdirErr files s0 hinit
  have hcap1 : 1 ≤ s0.capacity := by
    have : (1 : Int) ≤ (s0.capacity : Int) := by rw [hcap]; exact hn
    exact_mod_cast this
  have hwf : ∀ steps, PoolWf files (convertCalls s0 steps) (poolRun s0 steps) := by
    intro steps
    have := wf_run files [] s0 steps hwf0
    simpa using this
  refine ⟨?_, ?_, poolStep_measure, ?_⟩
  · intro steps
    have h := hwf steps
    exact ⟨h.dispatched, h.callsNodup, h.slots.1, wf_completed files _ _ h⟩
  · intro steps errs hc
    have hcapr : 1 ≤ (poolRun s0 steps).capacity := by
      rw [(poolRun_inv s0 steps hwf0.slots).2]; exact hcap1
    exact pool_progress files _ _ errs (hwf steps) hcapr hc
  · intro errs
    exact pool_completes files errs (poolMeasure s0) [] s0 hwf0 hcap1 (le_refl _)

end PoolRunClaims

/-! ## The layout of the encoder command line (C12, C13, C14) -/

section LayoutClaims
open convert

theorem ConvertOne_args_layout (c : Config) (inPath outPath : String) :
    ConvertOne_ffmpegArgs c inPath outPath =
      ["-i", inPath] ++ codecArgs c ++ ["-vf", videoFilter c, "-movflags", "+faststart"] ++
        fpsArgs c ++ audioArgs c ++ [outPath] := by
  unfold ConvertOne_ffmpegArgs codecArgs fpsArgs audioArgs hardwareQuality
  simp only
  split_ifs <;> rfl

theorem convertFile_args_layout (c : Config) (inPath outPath : String) :
    convertFile_ffmpegArgs c inPath outPath =
      ["-i", inPath] ++ codecArgs c ++ ["-vf", videoFilter c, "-movflags", "+faststart"] ++
        audioArgs c ++ [outPath] := by
  unfold convertFile_ffmpegArgs codecArgs audioArgs hardwareQuality
  simp only
  split_ifs <;> rfl

/-- C12. The argument list built by `ConvertOne` is, in this order: `-i` and
the input path; the codec arguments; `-vf` with the scale filter, followed by
the pad filter unless `NoPad` is set; `-movflags +faststart`; the frame-rate
override, if any; `-an` when `Mute` is set and `-acodec aac -b:a 128k -ac 2`
otherwise; the output path. Two configurations that agree on `GPU`, `CRF`,
`Preset`, `NoPad`, `FPS` and `Mute` give the same list for the same paths. -/
theorem ConvertOne_args_in_order (c : Config) (inPath outPath : String) :
    ConvertOne_ffmpegArgs c inPath outPath =
      ["-i", inPath] ++
      (if c.GPU then ["-c:v", "h264_videotoolbox", "-q:v", fmtInt (hardwareQuality c.CRF)]
        else ["-vcodec", "libx264", "-preset", c.Preset, "-crf", fmtInt c.CRF]) ++
      ["-vf", "scale=1920:1080:force_original_aspect_ratio=decrease" ++
        (if c.NoPad then "" else ",pad=1920:1080:(ow-iw)/2:(oh-ih)/2")] ++
      ["-movflags", "+faststart"] ++
      (if c.FPS > 0 then ["-r", fmtInt c.FPS] else []) ++
      (if c.Mute then ["-an"] else ["-acodec", "aac", "-b:a", "128k", "-ac", "2"]) ++
      [outPath] ∧
    ∀ c' : Config, c'.GPU = c.GPU → c'.CRF = c.CRF → c'.Preset = c.Preset →
      c'.NoPad = c.NoPad → c'.FPS = c.FPS → c'.Mute = c.Mute →
      ConvertOne_ffmpegArgs c' inPath outPath = ConvertOne_ffmpegArgs c inPath outPath := by
  constructor
  · rw [ConvertOne_args_layout]
    have hvf : videoFilter c = "scale=1920:1080:force_original_aspect_ratio=decrease" ++
        (if c.NoPad then "" else ",pad=1920:1080:(ow-iw)/2:(oh-ih)/2") := by
      unfold videoFilter
      cases c.NoPad <;> rfl
    rw [hvf]
    simp [codecArgs, fpsArgs, audioArgs]
  · intro c' h1 h2 h3 h4 h5 h6
    rw [ConvertOne_args_layout, ConvertOne_args_layout]
    simp only [codecArgs, fpsArgs, audioArgs, videoFilter, h1, h2, h3, h4, h5, h6]

theorem fmtInt_ne_of_letter (x : Int) (s : String) (ch : Char) (hch : ch ∈ s.data)
    (h1 : ch ≠ '-') (h2 : ¬ isDigit ch) : s ≠ fmtInt x :=
  (fmtInt_ne x s ch hch h1 h2).symm

theorem mem_ConvertOne_args_r (c : Config) (inPath outPath : String) (ho : outPath ≠ "-r") :
    "-r" ∈ ConvertOne_ffmpegArgs c inPath outPath ↔
      0 < c.FPS ∨ inPath = "-r" ∨ (c.GPU = false ∧ c.Preset = "-r") := by
  have h1 : ∀ x, "-r" ≠ fmtInt x := fun x =>
    fmtInt_ne_of_letter x _ 'r' (by decide) (by decide) (by unfold isDigit; decide)
  have h3 : "-r" ≠ videoFilter c := by
    unfold videoFilter
    cases c.NoPad <;> decide
  have h4 := ho.symm
  rw [ConvertOne_args_layout]
  unfold codecArgs fpsArgs audioArgs
  cases hg : c.GPU <;> by_cases hf : c.FPS > 0 <;> cases hm : c.Mute <;>
    simp [h1, h3, h4, hf, eq_comm]

theorem pair_infix_cons (a b x y : String) (l : List String) :
    [a, b] <:+: x :: y :: l ↔ (a = x ∧ b = y) ∨ [a, b] <:+: y :: l := by
  rw [List.infix_cons_iff, List.cons_prefix_cons, List.cons_prefix_cons]
  simp

theorem pair_infix_singleton (a b x : String) : ¬ [a, b] <:+: [x] := by
  intro h
  have := h.length_le
  simp at this

theorem infix_ConvertOne_args_r (c : Config) (inPath outPath : String) :
    ["-r", fmtInt c.FPS] <:+: ConvertOne_ffmpegArgs c inPath outPath ↔ 0 < c.FPS := by
  have h1 : ∀ x, "-r" ≠ fmtInt x := fun x =>
    fmtInt_ne_of_letter x _ 'r' (by decide) (by decide) (by unfold isDigit; decide)
  have h2 : ∀ x, fmtInt x ≠ "-vcodec" := fun x =>
    fmtInt_ne x _ 'v' (by decide) (by decide) (by unfold isDigit; decide)
  have h2' : ∀ x, fmtInt x ≠ "-c:v" := fun x =>
    fmtInt_ne x _ 'c' (by decide) (by decide) (by unfold isDigit; decide)
  have h2'' : ∀ x, fmtInt x ≠ "-crf" := fun x =>
    fmtInt_ne x _ 'c' (by decide) (by decide) (by unfold isDigit; decide)
  have h3 : "-r" ≠ videoFilter c := by
    unfold videoFilter
    cases c.NoPad <;> decide
  constructor
  · intro h
    by_contra hf
    rw [ConvertOne_args_layout] at h
    unfold codecArgs fpsArgs audioArgs at h
    rw [if_neg hf] at h
    revert h
    cases hg : c.GPU <;> cases hm : c.Mute <;>
      simp only [if_true, if_false, Bool.false_eq_true, List.cons_append, List.nil_append,
        List.append_nil, pair_infix_cons, pair_infix_singleton, h1, h2, h2', h2'', h3,
        or_false, and_false, false_and, false_or, not_false_eq_true, imp_self,
        String.reduceEq]
  · intro hf
    rw [ConvertOne_args_layout]
    unfold fpsArgs
    rw [if_pos hf]
    exact ⟨["-i", inPath] ++ codecArgs c ++ ["-vf", videoFilter c, "-movflags", "+faststart"],
      audioArgs c ++ [outPath], by simp⟩

/-- C13 fails as stated: with FPS = 0 and the preset `-r` (passed verbatim in
software mode) the argument list has a `-r` element. -/
theorem fps_override_counterexample :
    samplePresetR.FPS = 0 ∧
    "-r" ∈ ConvertOne_ffmpegArgs samplePresetR "in.mov"
      (ConvertOne_outPath none sampleTime "out") := by
  decide

/-- C13 (amended). The argument list built by `ConvertOne` contains the
frame-rate override `-r <FPS>` only when the configured FPS is nonzero (exactly
when it is positive), and when FPS is 0 it has a `-r` element only if the input
path, or in software mode the preset, is itself the string `-r`. -/
theorem fps_override_only_when_set (c : Config) (inPath outDir : String)
    (stat : Option FileInfo) (now : time.Time) :
    (["-r", fmtInt c.FPS] <:+:
        ConvertOne_ffmpegArgs c inPath (ConvertOne_outPath stat now outDir) → c.FPS ≠ 0) ∧
    (["-r", fmtInt c.FPS] <:+:
        ConvertOne_ffmpegArgs c inPath (ConvertOne_outPath stat now outDir) ↔ 0 < c.FPS) ∧
    (c.FPS = 0 →
      ("-r" ∈ ConvertOne_ffmpegArgs c inPath (ConvertOne_outPath stat now outDir) ↔
        inPath = "-r" ∨ (c.GPU = false ∧ c.Preset = "-r"))) := by
  refine ⟨?_, infix_ConvertOne_args_r c inPath _, ?_⟩
  · intro h h0
    have := (infix_ConvertOne_args_r c inPath _).1 h
    omega
  · intro h0
    rw [mem_ConvertOne_args_r c inPath _ (ConvertOne_outPath_ne stat now outDir _ (by decide))]
    constructor
    · rintro (h | h)
      · omega
      · exact h
    · intro h
      exact Or.inr h

/-- Witness for C13: the default configuration with FPS 0 has no `-r` element,
and with the default FPS 30 it contains `-r 30`. -/
theorem fps_override_only_when_set_witness :
    "-r" ∉ ConvertOne_ffmpegArgs sampleNoFps "in.mov"
      (ConvertOne_outPath none sampleTime "out") ∧
    ["-r", "30"] <:+: ConvertOne_ffmpegArgs sampleSoftware "in.mov"
      (ConvertOne_outPath none sampleTime "out") :=
  ⟨fun h => absurd
      (((fps_override_only_when_set sampleNoFps "in.mov" "out" none sampleTime).2.2 rfl).1 h)
      (by decide),
   ((fps_override_only_when_set sampleSoftware "in.mov" "out" none sampleTime).2.1).2
      (by decide)⟩

/-- C14 does not hold of the code: `convertFile` builds the same list as
`ConvertOne` except that it leaves out the frame-rate override, so the two
lists are equal exactly when the configured FPS is not positive. With the
default configuration (FPS 30) `ConvertOne` passes `-r 30` and the chunk encode
passes no `-r` at all. -/
theorem chunk_args_omit_fps :
    (∀ (c : Config) (inPath outPath : String),
      ConvertOne_ffmpegArgs c inPath outPath =
        ["-i", inPath] ++ codecArgs c ++ ["-vf", videoFilter c, "-movflags", "+faststart"] ++
          fpsArgs c ++ audioArgs c ++ [outPath] ∧
      convertFile_ffmpegArgs c inPath outPath =
        ["-i", inPath] ++ codecArgs c ++ ["-vf", videoFilter c, "-movflags", "+faststart"] ++
          audioArgs c ++ [outPath] ∧
      (convertFile_ffmpegArgs c inPath outPath = ConvertOne_ffmpegArgs c inPath outPath ↔
        ¬ 0 < c.FPS)) ∧
    sampleSoftware.FPS = 30 ∧
    ["-r", "30"] <:+: ConvertOne_ffmpegArgs sampleSoftware "chunk_000.mp4" "out.mp4" ∧
    "-r" ∉ convertFile_ffmpegArgs sampleSoftware "chunk_000.mp4" "out.mp4" ∧
    convertFile_ffmpegArgs sampleSoftware "chunk_000.mp4" "out.mp4" ≠
      ConvertOne_ffmpegArgs sampleSoftware "chunk_000.mp4" "out.mp4" := by
  refine ⟨?_, by decide, by decide, by decide, by decide⟩
  intro c inPath outPath
  refine ⟨ConvertOne_args_layout c inPath outPath, convertFile_args_layout c inPath outPath, ?_⟩
  rw [ConvertOne_args_layout, convertFile_args_layout]
  unfold fpsArgs
  by_cases hf : c.FPS > 0
  · simp only [hf, if_true, gt_iff_lt, not_true_eq_false, iff_false]
    intro h
    have := congrArg List.length h
    simp at this
  · simp only [hf, if_false, List.append_nil, gt_iff_lt, not_false_eq_true]

end LayoutClaims

/-! ## `ConvertOne`: trash, errors and the result record (C15, C17, C18) -/

section OneClaims
open convert

theorem ConvertOne_cases (c : Config) (env : OneEnv) (inPath outDir : String) :
    (c.DryRun = true ∧ ConvertOne c env inPath outDir =
      ([], .returned (ConvertOne_outPath env.stat env.now outDir) none)) ∨
    (c.DryRun = false ∧ ∃ err out, env.exec = some (err, out) ∧
      ConvertOne c env inPath outDir =
        ([.run (ffmpegPath c)
            (ConvertOne_ffmpegArgs c inPath (ConvertOne_outPath env.stat env.now outDir))],
          .returned "" (some ("ffmpeg実行エラー: " ++ err ++ "\n" ++ out)))) ∨
    (c.DryRun = false ∧ env.exec = none ∧ (env.statOut = none ∨ env.stat = none) ∧
      ConvertOne c env inPath outDir =
        ([.run (ffmpegPath c)
            (ConvertOne_ffmpegArgs c inPath (ConvertOne_outPath env.stat env.now outDir))],
          .panicked "nil pointer dereference")) ∨
    (c.DryRun = false ∧ env.exec = none ∧ ∃ info infoOut, env.stat = some info ∧
      env.statOut = some infoOut ∧
      ConvertOne c env inPath outDir =
        ([.run (ffmpegPath c)
            (ConvertOne_ffmpegArgs c inPath (ConvertOne_outPath env.stat env.now outDir)),
          .logRecord
            { Type_ := "conversion_result"
              Input := inPath
              Output := ConvertOne_outPath env.stat env.now outDir
              DurationSec := env.elapsed
              OriginalSize := info.Size
              ConvertedSize := infoOut.Size
              SizeDiff := wrapInt (info.Size - infoOut.Size)
              Timestamp := env.timestamp }] ++
          (if c.NoTrash = false then [.trash inPath] else []),
          .returned (ConvertOne_outPath env.stat env.now outDir) none)) := by
  unfold ConvertOne
  cases hd : c.DryRun with
  | true => left; exact ⟨rfl, by simp⟩
  | false =>
    right
    cases he : env.exec with
    | some p =>
      left
      obtain ⟨err, out⟩ := p
      exact ⟨rfl, err, out, rfl, by simp⟩
    | none =>
      right
      cases ho : env.statOut with
      | none => left; exact ⟨rfl, rfl, Or.inl rfl, by simp⟩
      | some infoOut =>
        cases hs : env.stat with
        | none => left; exact ⟨rfl, rfl, Or.inr rfl, by simp⟩
        | some info =>
          right
          refine ⟨rfl, rfl, info, infoOut, rfl, rfl, ?_⟩
          cases hn : c.NoTrash <;> simp

theorem ConvertOne_trashErr (c : Config) (env : OneEnv) (inPath outDir : String)
    (e : Option String) :
    ConvertOne c { env with trashErr := e } inPath outDir = ConvertOne c env inPath outDir := by
  rfl

/-- C17. In `ConvertOne` the source is moved to the trash only after the
encoder ran and succeeded and the record was logged, and only when `NoTrash`
and `DryRun` are both false; the result does not depend on how the trash move
ends, and whenever the move is attempted the call returns the output path with
no error. When the encoder fails, the call returns an empty path and an error
whose text ends in the captured encoder output, having logged no record and
not moved the source. -/
theorem trash_only_after_success (c : Config) (env : OneEnv) (inPath outDir : String) :
    (∀ p, Effect.trash p ∈ (ConvertOne c env inPath outDir).1 →
      p = inPath ∧ env.exec = none ∧ c.NoTrash = false ∧ c.DryRun = false ∧
      (∃ r, (ConvertOne c env inPath outDir).1 =
        [.run (ffmpegPath c)
            (ConvertOne_ffmpegArgs c inPath (ConvertOne_outPath env.stat env.now outDir)),
          .logRecord r, .trash inPath]) ∧
      (ConvertOne c env inPath outDir).2 =
        .returned (ConvertOne_outPath env.stat env.now outDir) none) ∧
    (∀ e, ConvertOne c { env with trashErr := e } inPath outDir =
      ConvertOne c env inPath outDir) ∧
    (∀ err out, c.DryRun = false → env.exec = some (err, out) →
      (ConvertOne c env inPath outDir).2 =
        .returned "" (some ("ffmpeg実行エラー: " ++ err ++ "\n" ++ out)) ∧
      out.data <:+ ("ffmpeg実行エラー: " ++ err ++ "\n" ++ out).data ∧
      records (ConvertOne c env inPath outDir).1 = [] ∧
      ∀ p, Effect.trash p ∉ (ConvertOne c env inPath outDir).1) := by
  refine ⟨?_, ConvertOne_trashErr c env inPath outDir, ?_⟩
  · intro p hp
    rcases ConvertOne_cases c env inPath outDir with
      ⟨_, h⟩ | ⟨_, _, _, _, h⟩ | ⟨_, _, _, h⟩ | ⟨hd, he, info, infoOut, _, _, h⟩
    · rw [h] at hp; simp at hp
    · rw [h] at hp; simp at hp
    · rw [h] at hp; simp at hp
    · rw [h] at hp ⊢
      cases hn : c.NoTrash with
      | true => simp [hn] at hp
      | false =>
        simp only [hn, if_true, List.cons_append, List.nil_append, List.mem_cons,
          List.mem_singleton, reduceCtorEq, false_or, Effect.trash.injEq, List.not_mem_nil,
          or_false] at hp
        exact ⟨hp, he, rfl, hd, ⟨_, rfl⟩, rfl⟩
  · intro err out hd he
    rcases ConvertOne_cases c env inPath outDir with
      ⟨hd', _⟩ | ⟨_, err', out', he', h⟩ | ⟨_, he', _⟩ | ⟨_, he', _⟩
    · rw [hd] at hd'; cases hd'
    · rw [he] at he'
      cases he'
      rw [h]
      refine ⟨rfl, ?_, rfl, ?_⟩
      · exact ⟨("ffmpeg実行エラー: " ++ err ++ "\n").data, by simp [String.data_append]⟩
      · intro p hp
        simp at hp
    · rw [he] at he'; cases he'
    · rw [he] at he'; cases he'

/-- Witness for C17: with the default configuration a successful conversion
trashes the source after logging, a failing trash move gives the same result,
and a failing encoder gives the error with the captured output and no trash
move. -/
theorem trash_only_after_success_witness :
    Effect.trash "in.mov" ∈ (ConvertOne sampleSoftware sampleOneEnv "in.mov" "/out").1 ∧
    (ConvertOne sampleSoftware sampleOneEnv "in.mov" "/out").2 =
      .returned "/out/2024-01-02_03-04-05.mp4" none ∧
    ConvertOne sampleSoftware sampleOneEnvTrashFail "in.mov" "/out" =
      ConvertOne sampleSoftware sampleOneEnv "in.mov" "/out" ∧
    (ConvertOne sampleSoftware sampleOneEnvFail "in.mov" "/out").2 =
      .returned "" (some "ffmpeg実行エラー: exit status 1\nInvalid data found") :=
  ⟨by decide,
   ((trash_only_after_success sampleSoftware sampleOneEnv "in.mov" "/out").1 "in.mov"
      (by decide)).2.2.2.2.2,
   (trash_only_after_success sampleSoftware sampleOneEnv "in.mov" "/out").2.1
      (some "gio command not found"),
   ((trash_only_after_success sampleSoftware sampleOneEnvFail "in.mov" "/out").2.2
      "exit status 1" "Invalid data found" rfl rfl).1⟩

theorem unmarshal_marshal (r : ResultRecord) :
    cmd.unmarshal (marshal r) =
      some
        { Type_ := r.Type_
          Input := r.Input
          Output := r.Output
          DurationSec := r.DurationSec
          OriginalSize := r.OriginalSize
          ConvertedSize := r.ConvertedSize
          SizeDiff := r.SizeDiff
          Timestamp := r.Timestamp } := by
  rfl

theorem wrapInt_sub_sizes (a b : Int) (ha : 0 ≤ a) (ha' : a < 9223372036854775808)
    (hb : 0 ≤ b) (hb' : b < 9223372036854775808) : wrapInt (a - b) = a - b := by
  unfold wrapInt
  omega

/-- C18. A `ConvertOne` call that is not a dry run and returns an output path
with no error has logged exactly one result record: its type is
`conversion_result`, its input is the input path, its output is the returned
path, its sizes are those of the two stats, and its `size_diff` is the original
size minus the converted size (computed in 64 bits, so exact for file sizes);
the keys of the logged JSON object are the `json` tags of the `stats`
`LogEntry`, which therefore decodes the record field by field. -/
theorem one_record_per_success (c : Config) (env : OneEnv) (inPath outDir outPath : String)
    (hd : c.DryRun = false)
    (hret : (ConvertOne c env inPath outDir).2 = .returned outPath none) :
    ∃ r, records (ConvertOne c env inPath outDir).1 = [r] ∧
      r.Type_ = "conversion_result" ∧ r.Input = inPath ∧ r.Output = outPath ∧
      env.stat.map (fun i => i.Size) = some r.OriginalSize ∧
      env.statOut.map (fun i => i.Size) = some r.ConvertedSize ∧
      r.SizeDiff = wrapInt (r.OriginalSize - r.ConvertedSize) ∧
      (0 ≤ r.OriginalSize → r.OriginalSize < 9223372036854775808 →
        0 ≤ r.ConvertedSize → r.ConvertedSize < 9223372036854775808 →
        r.SizeDiff = r.OriginalSize - r.ConvertedSize) ∧
      (marshal r).map Prod.fst =
        ["type", "input", "output", "duration_sec", "original_size", "converted_size",
          "size_diff", "timestamp"] ∧
      cmd.unmarshal (marshal r) =
        some
          { Type_ := "conversion_result"
            Input := inPath
            Output := outPath
            DurationSec := r.DurationSec
            OriginalSize := r.OriginalSize
            ConvertedSize := r.ConvertedSize
            SizeDiff := r.SizeDiff
            Timestamp := r.Timestamp } := by
  rcases ConvertOne_cases c env inPath outDir with
    ⟨hd', _⟩ | ⟨_, _, _, _, h⟩ | ⟨_, _, _, h⟩ | ⟨_, _, info, infoOut, hs, ho, h⟩
  · rw [hd] at hd'; cases hd'
  · rw [h] at hret; cases hret
  · rw [h] at hret; cases hret
  · rw [h] at hret ⊢
    simp only [Outcome.returned.injEq, and_true] at hret
    subst hret
    refine ⟨{ Type_ := "conversion_result"
              Input := inPath
              Output := ConvertOne_outPath env.stat env.now outDir
              DurationSec := env.elapsed
              OriginalSize := info.Size
              ConvertedSize := infoOut.Size
              SizeDiff := wrapInt (info.Size - infoOut.Size)
              Timestamp := env.timestamp },
      ?_, rfl, rfl, rfl, by rw [hs]; rfl, by rw [ho]; rfl, rfl, ?_, rfl, rfl⟩
    · cases c.NoTrash <;> rfl
    · intro h1 h2 h3 h4
      exact wrapInt_sub_sizes _ _ h1 h2 h3 h4

/-- Witness for C18: the sample conversion of a 5000-byte source into a
1200-byte file logs one record with `size_diff` 3800. -/
theorem one_record_per_success_witness :
    ∃ r, records (ConvertOne sampleSoftware sampleOneEnv "in.mov" "/out").1 = [r] ∧
      r.Type_ = "conversion_result" ∧ r.Input = "in.mov" ∧
      r.Output = "/out/2024-01-02_03-04-05.mp4" ∧ r.SizeDiff = 3800 := by
  obtain ⟨r, h1, h2, h3, h4, h5, h6, _, h8, _⟩ :=
    one_record_per_success sampleSoftware sampleOneEnv "in.mov" "/out"
      "/out/2024-01-02_03-04-05.mp4" rfl (by decide)
  refine ⟨r, h1, h2, h3, h4, ?_⟩
  have ho : r.OriginalSize = 5000 := by
    have : (some (5000 : Int)) = some r.OriginalSize := h5
    exact (Option.some.inj this).symm
  have hc : r.ConvertedSize = 1200 := by
    have : (some (1200 : Int)) = some r.ConvertedSize := h6
    exact (Option.some.inj this).symm
  rw [h8 (by omega) (by omega) (by omega) (by omega), ho, hc]
  rfl

theorem records_eq_nil (effs : List Effect) (h : ∀ e ∈ effs, ∀ r, e ≠ .logRecord r) :
    records effs = [] := by
  unfold records
  rw [List.filterMap_eq_nil_iff]
  intro e he
  cases e <;> first | rfl | exact absurd rfl (h _ he _)

theorem chunkEffects_plain (c : Config) (env : SplitEnv) (tmpDir : String)
    (chunks : List String) (e : Effect) (he : e ∈ chunkEffects c env tmpDir chunks) :
    (∀ r, e ≠ .logRecord r) ∧ (∀ p, e ≠ .trash p) := by
  unfold chunkEffects at he
  rw [List.mem_flatMap] at he
  obtain ⟨i, _, hi⟩ := he
  split at hi
  · simp only [List.mem_cons, List.mem_singleton, List.not_mem_nil, or_false] at hi
    rcases hi with h | h <;> rw [h] <;> exact ⟨fun _ hh => (by cases hh), fun _ hh => (by cases hh)⟩
  · cases hi

theorem splitChunks_plain (c : Config) (env : SplitEnv) (inPath tmpDir : String) (e : Effect)
    (he : e ∈ (splitChunks c env inPath tmpDir).2) :
    (∀ r, e ≠ .logRecord r) ∧ (∀ p, e ≠ .trash p) := by
  unfold splitChunks at he
  split at he
  · cases he
  · simp only [List.mem_singleton] at he
    rw [he]
    exact ⟨fun _ hh => (by cases hh), fun _ hh => (by cases hh)⟩

theorem afterWait_plain (c : Config) (env : SplitEnv) (inPath outDir tmpDir : String)
    (results : List result) (e : Effect)
    (he : e ∈ (ConvertSplit_afterWait c env inPath outDir tmpDir results).1) :
    (∀ r, e ≠ .logRecord r) ∧
    (∀ p, e = .trash p → p = inPath ∧ c.NoTrash = false ∧ c.DryRun = false ∧
      ∃ out, (ConvertSplit_afterWait c env inPath outDir tmpDir results).2 =
        .returned out none) := by
  have hw : ∀ (l : List String) (x : Effect),
      x ∈ Effect.createList (filepath.Join tmpDir "concat.txt") :: l.map Effect.writeLine →
      (∀ r, x ≠ .logRecord r) ∧ (∀ p, x ≠ .trash p) := by
    intro l x hx
    rcases List.mem_cons.1 hx with h | h
    · rw [h]; exact ⟨fun _ hh => (by cases hh), fun _ hh => (by cases hh)⟩
    · obtain ⟨ln, _, hln⟩ := List.mem_map.1 h
      rw [← hln]; exact ⟨fun _ hh => (by cases hh), fun _ hh => (by cases hh)⟩
  unfold ConvertSplit_afterWait at he ⊢
  cases hc : checkErrors results [] with
  | error msg => rw [hc] at he; cases he
  | ok cc =>
    rw [hc] at he
    simp only at he ⊢
    cases hcr : env.createErr with
    | some msg =>
      rw [hcr] at he
      simp only [List.mem_singleton] at he
      rw [he]; exact ⟨fun _ hh => (by cases hh), fun _ hh => (by cases hh)⟩
    | none =>
      rw [hcr] at he
      simp only at he ⊢
      cases hs : env.stat with
      | none =>
        rw [hs] at he
        obtain ⟨h1, h2⟩ := hw _ e he
        exact ⟨h1, fun p hp => absurd hp (h2 p)⟩
      | some info =>
        rw [hs] at he
        simp only at he ⊢
        cases hm : env.mergeExec with
        | some p =>
          rw [hm] at he
          simp only [List.mem_append, List.mem_singleton] at he
          rcases he with h | h
          · obtain ⟨h1, h2⟩ := hw _ e h
            exact ⟨h1, fun p hp => absurd hp (h2 p)⟩
          · rw [h]; exact ⟨fun _ hh => (by cases hh), fun _ hh => (by cases hh)⟩
        | none =>
          rw [hm] at he
          simp only at he ⊢
          by_cases ht : (!c.NoTrash && !c.DryRun) = true
          · rw [if_pos ht] at he ⊢
            simp only [List.mem_append, List.mem_singleton] at he
            rcases he with (h | h) | h
            · obtain ⟨h1, h2⟩ := hw _ e h
              exact ⟨h1, fun p hp => absurd hp (h2 p)⟩
            · rw [h]; exact ⟨fun _ hh => (by cases hh), fun _ hh => (by cases hh)⟩
            · rw [h]
              refine ⟨fun _ hh => (by cases hh), ?_⟩
              intro p hp
              cases hp
              simp only [Bool.and_eq_true, Bool.not_eq_true'] at ht
              exact ⟨rfl, ht.1, ht.2, _, rfl⟩
          · rw [if_neg ht] at he
            simp only [List.mem_append, List.mem_singleton] at he
            rcases he with h | h
            · obtain ⟨h1, h2⟩ := hw _ e h
              exact ⟨h1, fun p hp => absurd hp (h2 p)⟩
            · rw [h]; exact ⟨fun _ hh => (by cases hh), fun _ hh => (by cases hh)⟩

theorem ConvertSplit_plain (c : Config) (env : SplitEnv) (inPath outDir : String)
    (e : Effect) (he : e ∈ (ConvertSplit c env inPath outDir).1) :
    (∀ r, e ≠ .logRecord r) ∧
    (∀ p, e = .trash p → p = inPath ∧ c.NoTrash = false ∧ c.DryRun = false) := by
  have weaken : ∀ x : Effect, ((∀ r, x ≠ .logRecord r) ∧ (∀ p, x ≠ .trash p)) →
      (∀ r, x ≠ .logRecord r) ∧
      (∀ p, x = .trash p → p = inPath ∧ c.NoTrash = false ∧ c.DryRun = false) :=
    fun x hx => ⟨hx.1, fun p hp => absurd hp (hx.2 p)⟩
  have hmk0 : (∀ r, Effect.mkdirTemp ≠ .logRecord r) ∧ (∀ p, Effect.mkdirTemp ≠ .trash p) :=
    ⟨fun _ hh => (by cases hh), fun _ hh => (by cases hh)⟩
  have hrm : ∀ d, (∀ r, Effect.removeAll d ≠ .logRecord r) ∧
      (∀ p, Effect.removeAll d ≠ .trash p) :=
    fun _ => ⟨fun _ hh => (by cases hh), fun _ hh => (by cases hh)⟩
  unfold ConvertSplit at he
  cases hmk : env.mkdirTemp with
  | error msg =>
    rw [hmk] at he
    simp only [List.mem_singleton] at he
    rw [he]; exact weaken _ hmk0
  | ok tmpDir =>
    rw [hmk] at he
    simp only at he
    cases hsc : splitChunks c env inPath tmpDir with
    | mk r effs =>
      have heffs : ∀ x ∈ effs, (∀ r, x ≠ .logRecord r) ∧ (∀ p, x ≠ .trash p) := by
        intro x hx
        exact splitChunks_plain c env inPath tmpDir x (by rw [hsc]; exact hx)
      rw [hsc] at he
      cases r with
      | error msg =>
        simp only [List.cons_append, List.mem_cons, List.mem_append, List.mem_singleton,
          List.not_mem_nil, or_false] at he
        rcases he with h | h | h
        · rw [h]; exact weaken _ hmk0
        · exact weaken _ (heffs e h)
        · rw [h]; exact weaken _ (hrm _)
      | ok chunks =>
        simp only at he
        split_ifs at he
        · simp only [List.cons_append, List.mem_cons, List.mem_append, List.mem_singleton,
            List.not_mem_nil, or_false] at he
          rcases he with h | h | h
          · rw [h]; exact weaken _ hmk0
          · exact weaken _ (heffs e h)
          · rw [h]; exact weaken _ (hrm _)
        · simp only [List.cons_append, List.mem_cons, List.mem_append, List.mem_singleton,
            List.not_mem_nil, or_false] at he
          rcases he with h | ((h | h) | h) | h
          · rw [h]; exact weaken _ hmk0
          · exact weaken _ (heffs e h)
          · exact weaken _ (chunkEffects_plain c env tmpDir chunks e h)
          · obtain ⟨h1, h2⟩ := afterWait_plain c env inPath outDir tmpDir _ e h
            exact ⟨h1, fun p hp => ⟨(h2 p hp).1, (h2 p hp).2.1, (h2 p hp).2.2.1⟩⟩
          · rw [h]; exact weaken _ (hrm _)

theorem ConvertSplit_no_record (c : Config) (env : SplitEnv) (inPath outDir : String) :
    records (ConvertSplit c env inPath outDir).1 = [] :=
  records_eq_nil _ (fun e he => (ConvertSplit_plain c env inPath outDir e he).1)

/-- C15 does not hold of the code: `ConvertSplit` never logs a
`conversion_result` record, on any input and whatever the outcome, although it
does move the source to the trash like `ConvertOne`. On the sample input the
split conversion succeeds and trashes the source with no record logged, where
`ConvertOne` logs one. -/
theorem split_logs_no_record :
    (∀ (c : Config) (env : SplitEnv) (inPath outDir : String),
      records (ConvertSplit c env inPath outDir).1 = []) ∧
    (∀ (c : Config) (env : SplitEnv) (inPath outDir p : String),
      Effect.trash p ∈ (ConvertSplit c env inPath outDir).1 →
        p = inPath ∧ c.NoTrash = false ∧ c.DryRun = false) ∧
    (ConvertSplit sampleSoftware sampleSplitEnvOk "/in/x.mov" "/out").2 =
      .returned "/out/2024-01-02_03-04-05.mp4" none ∧
    Effect.trash "/in/x.mov" ∈
      (ConvertSplit sampleSoftware sampleSplitEnvOk "/in/x.mov" "/out").1 ∧
    records (ConvertSplit sampleSoftware sampleSplitEnvOk "/in/x.mov" "/out").1 = [] ∧
    (ConvertOne sampleSoftware sampleOneEnv "/in/x.mov" "/out").2 =
      .returned "/out/2024-01-02_03-04-05.mp4" none ∧
    (records (ConvertOne sampleSoftware sampleOneEnv "/in/x.mov" "/out").1).length = 1 := by
  refine ⟨ConvertSplit_no_record, ?_, by decide, by decide, ConvertSplit_no_record _ _ _ _,
    by decide, by decide⟩
  intro c env inPath outDir p hp
  exact (ConvertSplit_plain c env inPath outDir _ hp).2 p rfl

end OneClaims

/-! ## Acceptance by `handleEvent` (C20) -/

section AcceptClaims
open watcher

theorem handleEvent_of_accepts (tbl : Char → Char) (w : Watcher) (stat : StatResult)
    (event : Event) (m : ProcessingSet) (h : Accepts tbl w stat event m) :
    (handleEvent tbl w stat event m).spawned = some ⟨event.Name, filepath.Base event.Name⟩ ∧
    (handleEvent tbl w stat event m).processing = watcher.insert m event.Name true := by
  obtain ⟨h1, h2, h3, h4, h5, h6⟩ := h
  have h1' : ¬ (event.Op &&& Create ≠ Create ∧ event.Op &&& Rename ≠ Rename) := by
    rintro ⟨ha, hb⟩
    rcases h1 with h | h
    · exact ha h
    · exact hb h
  unfold handleEvent
  simp only [h1', if_false, h2, Bool.false_eq_true, h3, Bool.not_true, h4, h5, checkAndInsert,
    h6, if_true]
  exact ⟨trivial, trivial⟩

theorem handleEvent_of_not_accepts (tbl : Char → Char) (w : Watcher) (stat : StatResult)
    (event : Event) (m : ProcessingSet) (h : ¬ Accepts tbl w stat event m) :
    (handleEvent tbl w stat event m).spawned = none ∧
    (handleEvent tbl w stat event m).processing = m := by
  by_cases c1 : event.Op &&& Create ≠ Create ∧ event.Op &&& Rename ≠ Rename
  · unfold handleEvent
    rw [if_pos c1]
    exact ⟨rfl, rfl⟩
  · unfold handleEvent
    rw [if_neg c1]
    cases c2 : strings.HasPrefix (filepath.Base event.Name) "." with
    | true => simp only [c2, if_false, if_true, and_self]
    | false =>
      cases c3 : isTargetVideo tbl (filepath.Base event.Name) with
      | false =>
        simp only [c2, c3, if_false, if_true, and_self, Bool.false_eq_true,
          Bool.not_false]
      | true =>
        cases c4 : shouldProcess tbl w.Cfg (filepath.Base event.Name) with
        | false =>
          simp only [c2, c3, c4, if_false, if_true, and_self,
            Bool.false_eq_true, Bool.not_false, Bool.not_true]
        | true =>
          by_cases c5 : stat = StatResult.notExist
          · simp only [c2, c3, c4, c5, if_false, if_true, and_self,
              Bool.false_eq_true, Bool.not_true]
          · cases c6 : lookup m event.Name with
            | true =>
              simp only [checkAndInsert, c2, c3, c4, c5, c6, if_false, if_true,
                and_self, Bool.false_eq_true, Bool.not_true]
            | false =>
              exfalso
              apply h
              refine ⟨?_, c2, c3, c4, c5, c6⟩
              by_contra hc
              exact c1 ⟨fun hh => hc (Or.inl hh), fun hh => hc (Or.inr hh)⟩

/-- C20 fails as stated: when the stat after the debounce delay fails with an
error other than not-exist, the file has not been seen to exist, yet
`handleEvent` registers the path and starts the job. -/
theorem handleEvent_stat_error_counterexample :
    ¬ StatResult.otherError.sawFile ∧
    (handleEvent id sampleWatcher .otherError ⟨"/rec/clip.mov", 1⟩ emptySet).spawned =
      some ⟨"/rec/clip.mov", "clip.mov"⟩ ∧
    lookup (handleEvent id sampleWatcher .otherError ⟨"/rec/clip.mov", 1⟩ emptySet).processing
      "/rec/clip.mov" = true := by
  refine ⟨by unfold StatResult.sawFile; decide, by decide, by decide⟩

/-- C20 (amended). `handleEvent` registers the path and starts a job exactly
when the event is a create or a rename, the base name does not start with `.`,
the extension is a recognised video extension, the keyword filter passes, the
stat after the debounce delay does not fail with a not-exist error, and the
path is not yet in the set; the job is started for the event's path, which is
the key inserted. When any of the conditions fails, the set is left as it was
and no job is started. The stat is consulted for the not-exist error only:
after any other stat error the event is treated as if the file had been found,
and after a not-exist error no job is started. -/
theorem handleEvent_accepts_iff (tbl : Char → Char) (w : Watcher) (stat : StatResult)
    (event : Event) (m : ProcessingSet) :
    (∀ job, (handleEvent tbl w stat event m).spawned = some job →
      Accepts tbl w stat event m ∧ job = ⟨event.Name, filepath.Base event.Name⟩) ∧
    ((handleEvent tbl w stat event m).processing ≠ m → Accepts tbl w stat event m) ∧
    (Accepts tbl w stat event m →
      (handleEvent tbl w stat event m).spawned =
        some ⟨event.Name, filepath.Base event.Name⟩ ∧
      (handleEvent tbl w stat event m).processing = watcher.insert m event.Name true) ∧
    (¬ Accepts tbl w stat event m →
      (handleEvent tbl w stat event m).spawned = none ∧
      (handleEvent tbl w stat event m).processing = m) ∧
    handleEvent tbl w .otherError event m = handleEvent tbl w .found event m ∧
    (handleEvent tbl w .notExist event m).spawned = none ∧
    (handleEvent tbl w .notExist event m).processing = m := by
  refine ⟨?_, ?_, handleEvent_of_accepts tbl w stat event m,
    handleEvent_of_not_accepts tbl w stat event m, by simp [handleEvent],
    (handleEvent_of_not_accepts tbl w .notExist event m (fun h => h.2.2.2.2.1 rfl)).1,
    (handleEvent_of_not_accepts tbl w .notExist event m (fun h => h.2.2.2.2.1 rfl)).2⟩
  · intro job hj
    by_cases ha : Accepts tbl w stat event m
    · have := (handleEvent_of_accepts tbl w stat event m ha).1
      rw [hj] at this
      exact ⟨ha, Option.some.inj this⟩
    · rw [(handleEvent_of_not_accepts tbl w stat event m ha).1] at hj
      cases hj
  · intro hne
    by_contra ha
    exact hne (handleEvent_of_not_accepts tbl w stat event m ha).2

/-- Witness for C20: a create event for `/rec/clip.mov` is accepted on the
empty set, also when the stat fails with an error other than not-exist; the
same event is dropped when the stat reports the file missing, when the path is
already registered, and when the name is hidden. -/
theorem handleEvent_accepts_iff_witness :
    (handleEvent id sampleWatcher .found ⟨"/rec/clip.mov", 1⟩ emptySet).spawned =
      some ⟨"/rec/clip.mov", "clip.mov"⟩ ∧
    (handleEvent id sampleWatcher .otherError ⟨"/rec/clip.mov", 1⟩ emptySet).spawned =
      some ⟨"/rec/clip.mov", "clip.mov"⟩ ∧
    (handleEvent id sampleWatcher .notExist ⟨"/rec/clip.mov", 1⟩ emptySet).spawned = none ∧
    (handleEvent id sampleWatcher .found ⟨"/rec/clip.mov", 1⟩
      (watcher.insert emptySet "/rec/clip.mov" true)).spawned = none ∧
    (handleEvent id sampleWatcher .found ⟨"/rec/.clip.mov", 1⟩ emptySet).spawned = none :=
  ⟨((handleEvent_accepts_iff id sampleWatcher .found ⟨"/rec/clip.mov", 1⟩ emptySet).2.2.1
      (by unfold Accepts; decide)).1,
   ((handleEvent_accepts_iff id sampleWatcher .otherError ⟨"/rec/clip.mov", 1⟩ emptySet).2.2.1
      (by unfold Accepts; decide)).1,
   ((handleEvent_accepts_iff id sampleWatcher .notExist ⟨"/rec/clip.mov", 1⟩
      emptySet).2.2.2.1 (by unfold Accepts; decide)).1,
   ((handleEvent_accepts_iff id sampleWatcher .found ⟨"/rec/clip.mov", 1⟩
      (watcher.insert emptySet "/rec/clip.mov" true)).2.2.2.1 (by unfold Accepts; decide)).1,
   ((handleEvent_accepts_iff id sampleWatcher .found ⟨"/rec/.clip.mov", 1⟩
      emptySet).2.2.2.1 (by unfold Accepts; decide)).1⟩

end AcceptClaims

/-! ## Batch mode: duplicate removal (C19) -/

section UniqueClaims
open cmd

theorem uniqueLoop_cons (f : String) (fs : List String) (seen : String → Bool)
    (result : List String) :
    uniqueLoop (f :: fs) seen result =
      if !seen f then uniqueLoop fs (fun k => if k = f then true else seen k) (result ++ [f])
      else uniqueLoop fs seen result := rfl

theorem uniqueLoop_acc (files : List String) (seen : String → Bool) (result : List String) :
    uniqueLoop files seen result = result ++ uniqueLoop files seen [] := by
  induction files generalizing seen result with
  | nil => simp [uniqueLoop]
  | cons f fs ih =>
    rw [uniqueLoop_cons, uniqueLoop_cons]
    split
    · rw [ih _ (result ++ [f]), ih _ ([] ++ [f])]
      simp
    · exact ih _ _

theorem unique_cons_of (f : String) (fs : List String)
    (ih : ∀ seen : String → Bool,
      uniqueLoop fs seen [] = (unique fs).filter (fun x => !seen x)) :
    unique (f :: fs) = f :: (unique fs).filter (fun x => decide (x ≠ f)) := by
  show uniqueLoop (f :: fs) (fun _ => false) [] = _
  rw [uniqueLoop_cons]
  simp only [Bool.not_false, if_true, List.nil_append]
  rw [uniqueLoop_acc, ih]
  simp only [List.singleton_append, List.cons.injEq, true_and]
  apply List.filter_congr
  intro x _
  by_cases hx : x = f <;> simp [hx]

theorem uniqueLoop_filter (files : List String) (seen : String → Bool) :
    uniqueLoop files seen [] = (unique files).filter (fun x => !seen x) := by
  induction files generalizing seen with
  | nil => rfl
  | cons f fs ih =>
    rw [unique_cons_of f fs ih, uniqueLoop_cons]
    cases hs : seen f with
    | true =>
      simp only [Bool.not_true, Bool.false_eq_true, if_false, List.filter_cons, hs]
      rw [ih, List.filter_filter]
      apply List.filter_congr
      intro x _
      by_cases hx : x = f
      · simp [hx, hs]
      · simp [hx]
    | false =>
      simp only [Bool.not_false, if_true, List.nil_append, List.filter_cons, hs]
      rw [uniqueLoop_acc, ih, List.filter_filter]
      simp only [List.singleton_append, List.cons.injEq, true_and]
      apply List.filter_congr
      intro x _
      by_cases hx : x = f
      · simp [hx]
      · simp [hx]

theorem unique_cons (f : String) (fs : List String) :
    unique (f :: fs) = f :: (unique fs).filter (fun x => decide (x ≠ f)) :=
  unique_cons_of f fs (uniqueLoop_filter fs)

theorem unique_nil : unique [] = [] := rfl

theorem mem_unique (files : List String) (x : String) : x ∈ unique files ↔ x ∈ files := by
  induction files with
  | nil => simp [unique_nil]
  | cons f fs ih =>
    rw [unique_cons]
    by_cases hx : x = f
    · simp [hx]
    · simp [List.mem_filter, hx, ih]

theorem nodup_unique (files : List String) : (unique files).Nodup := by
  induction files with
  | nil => simp [unique_nil]
  | cons f fs ih =>
    rw [unique_cons, List.nodup_cons]
    exact ⟨by simp [List.mem_filter], ih.filter _⟩

theorem unique_of_nodup (files : List String) (h : files.Nodup) : unique files = files := by
  induction files with
  | nil => rfl
  | cons f fs ih =>
    rw [List.nodup_cons] at h
    rw [unique_cons, ih h.2]
    congr 1
    rw [List.filter_eq_self]
    intro x hx
    simp only [ne_eq, decide_not, Bool.not_eq_true', decide_eq_false_iff_not]
    intro hxf
    exact h.1 (hxf ▸ hx)

theorem unique_sublist (files : List String) : (unique files).Sublist files := by
  induction files with
  | nil => simp [unique_nil]
  | cons f fs ih =>
    rw [unique_cons]
    exact ((List.filter_sublist _).trans ih).cons₂ f

theorem indexOf_cons_str (x a : String) (l : List String) :
    List.indexOf x (a :: l) = if a = x then 0 else List.indexOf x l + 1 := by
  by_cases h : a = x
  · rw [if_pos h, List.indexOf_cons_eq l h]
  · rw [if_neg h, List.indexOf_cons_ne l h]

theorem indexOf_cons_lt (a x y : String) (l l' : List String)
    (h : a ≠ x → a ≠ y → (List.indexOf x l < List.indexOf y l ↔
      List.indexOf x l' < List.indexOf y l')) :
    List.indexOf x (a :: l) < List.indexOf y (a :: l) ↔
      List.indexOf x (a :: l') < List.indexOf y (a :: l') := by
  simp only [indexOf_cons_str]
  by_cases hax : a = x
  · subst hax
    by_cases hay : a = y
    · simp only [if_pos hay, if_true]
    · simp only [if_neg hay, if_true]
      omega
  · by_cases hay : a = y
    · simp only [if_neg hax, if_pos hay]
      omega
    · simp only [hax, hay, if_false, add_lt_add_iff_right]
      exact h hax hay

theorem indexOf_filter_lt (p : String → Bool) (l : List String) (x y : String)
    (hx : p x = true) (hy : p y = true) :
    List.indexOf x (l.filter p) < List.indexOf y (l.filter p) ↔
      List.indexOf x l < List.indexOf y l := by
  induction l with
  | nil => simp
  | cons a t ih =>
    by_cases hp : p a = true
    · rw [List.filter_cons_of_pos hp]
      exact indexOf_cons_lt a x y _ _ (fun _ _ => ih)
    · rw [List.filter_cons_of_neg hp]
      have hax : a ≠ x := fun h => hp (h ▸ hx)
      have hay : a ≠ y := fun h => hp (h ▸ hy)
      simp only [indexOf_cons_str, hax, hay, if_false, ih]
      omega

theorem unique_order (files : List String) (x y : String) :
    List.indexOf x (unique files) < List.indexOf y (unique files) ↔
      List.indexOf x files < List.indexOf y files := by
  induction files with
  | nil => simp [unique_nil]
  | cons f fs ih =>
    rw [unique_cons]
    apply indexOf_cons_lt
    intro hfx hfy
    rw [indexOf_filter_lt _ _ _ _ (by simpa using Ne.symm hfx) (by simpa using Ne.symm hfy)]
    exact ih

/-- C19. The deduplicated candidate list of batch mode has no path twice,
has exactly the paths of the globbed list, is a subsequence of it, and orders
its paths by their first occurrence in the globbed list; deduplicating a list
without duplicates, in particular an already deduplicated one, changes
nothing. -/
theorem unique_keeps_first_occurrences (files : List String) :
    (unique files).Nodup ∧
    (∀ x, x ∈ unique files ↔ x ∈ files) ∧
    (unique files).Sublist files ∧
    (∀ x y, List.indexOf x (unique files) < List.indexOf y (unique files) ↔
      List.indexOf x files < List.indexOf y files) ∧
    unique (unique files) = unique files ∧
    (files.Nodup → unique files = files) ∧
    unique ["b.mov", "a.mov", "b.mov", "c.mov", "a.mov"] = ["b.mov", "a.mov", "c.mov"] :=
  ⟨nodup_unique files, mem_unique files, unique_sublist files, unique_order files,
    unique_of_nodup _ (nodup_unique files), unique_of_nodup files, by decide⟩

end UniqueClaims

/-! ## Sortable output names (C16) -/

section NameClaims
open convert time

theorem padDigits_length (w n : Nat) : (padDigits w n).length = w := by
  induction w generalizing n with
  | zero => rfl
  | succ w ih => simp [padDigits, ih]

theorem padDigits_zero (w : Nat) : padDigits w 0 = List.replicate w '0' := by
  induction w with
  | zero => rfl
  | succ w ih =>
    simp only [padDigits, Nat.zero_div, Nat.zero_mod, ih]
    rw [List.replicate_succ']
    rfl

theorem natDigits_pad_nofuel (w n : Nat) (acc : List Char) (hf : n < 10 ^ 0) :
    List.replicate (w + 1 + acc.length - (natDigits 0 n acc).length) '0' ++
      natDigits 0 n acc = padDigits (w + 1) n ++ acc := by
  have hn0 : n = 0 := by simpa using hf
  subst hn0
  rw [padDigits_zero]
  simp only [natDigits]
  have : w + 1 + acc.length - acc.length = w + 1 := by omega
  rw [this]

theorem natDigits_pad (w : Nat) : ∀ (fuel n : Nat) (acc : List Char),
    n < 10 ^ (w + 1) → n < 10 ^ fuel →
    List.replicate (w + 1 + acc.length - (natDigits fuel n acc).length) '0' ++
      natDigits fuel n acc = padDigits (w + 1) n ++ acc := by
  induction w with
  | zero =>
    intro fuel n acc hn hf
    have hn10 : n < 10 := by simpa using hn
    cases fuel with
    | zero => exact natDigits_pad_nofuel _ n acc hf
    | succ f =>
      simp only [natDigits, hn10, if_true, List.length_cons, padDigits, List.nil_append,
        Nat.mod_eq_of_lt hn10]
      have : 0 + 1 + acc.length - (acc.length + 1) = 0 := by omega
      rw [this]
      rfl
  | succ w ih =>
    intro fuel n acc hn hf
    cases fuel with
    | zero => exact natDigits_pad_nofuel _ n acc hf
    | succ f =>
      by_cases hn10 : n < 10
      · simp only [natDigits, hn10, if_true, List.length_cons]
        have hpad : padDigits (w + 1 + 1) n = List.replicate (w + 1) '0' ++ [digitChar n] := by
          rw [padDigits, Nat.div_eq_of_lt hn10, padDigits_zero, Nat.mod_eq_of_lt hn10]
        rw [hpad]
        have : w + 1 + 1 + acc.length - (acc.length + 1) = w + 1 := by omega
        rw [this]
        simp
      · simp only [natDigits, hn10, if_false]
        have h1 : n / 10 < 10 ^ (w + 1) := by
          rw [Nat.div_lt_iff_lt_mul (by decide)]
          rw [pow_succ] at hn
          exact hn
        have h2 : n / 10 < 10 ^ f := by
          rw [Nat.div_lt_iff_lt_mul (by decide)]
          rw [pow_succ] at hf
          exact hf
        have := ih f (n / 10) (digitChar (n % 10) :: acc) h1 h2
        simp only [List.length_cons] at this
        have hlen : w + 1 + 1 + acc.length = w + 1 + (acc.length + 1) := by omega
        rw [hlen, this]
        simp [padDigits]

theorem appendInt_eq_pad (w n : Nat) (hn : n < 10 ^ (w + 1)) :
    appendInt (n : Int) (w + 1) = padDigits (w + 1) n := by
  unfold appendInt
  simp only [Int.natAbs_ofNat, Int.natCast_nonneg, not_lt.2, if_false]
  have := natDigits_pad w (n + 1) n [] hn (Nat.lt_pow_self (by decide) _ |>.trans_le
    (Nat.pow_le_pow_right (by decide) (Nat.le_succ n)))
  simpa [formatNat] using this

theorem less_append (xs ys u v : List Char) (hlen : xs.length = ys.length) :
    strings.less (xs ++ u) (ys ++ v) = true ↔
      strings.less xs ys = true ∨ (xs = ys ∧ strings.less u v = true) := by
  induction xs generalizing ys with
  | nil =>
    cases ys with
    | nil => cases u <;> cases v <;> simp [strings.less]
    | cons b bs => simp at hlen
  | cons a as ih =>
    cases ys with
    | nil => simp at hlen
    | cons b bs =>
      have hl : as.length = bs.length := by simpa using hlen
      have e1 : strings.less (a :: as ++ u) (b :: bs ++ v) =
          (decide (a.toNat < b.toNat) ||
            (decide (a = b) && strings.less (as ++ u) (bs ++ v))) := rfl
      have e2 : strings.less (a :: as) (b :: bs) =
          (decide (a.toNat < b.toNat) || (decide (a = b) && strings.less as bs)) := rfl
      rw [e1, e2]
      simp only [Bool.or_eq_true, Bool.and_eq_true, decide_eq_true_eq, ih bs hl,
        List.cons.injEq]
      constructor
      · rintro (h | ⟨h1, h2 | ⟨h2, h3⟩⟩)
        · exact Or.inl (Or.inl h)
        · exact Or.inl (Or.inr ⟨h1, h2⟩)
        · exact Or.inr ⟨⟨h1, h2⟩, h3⟩
      · rintro ((h | ⟨h1, h2⟩) | ⟨⟨h1, h2⟩, h3⟩)
        · exact Or.inl h
        · exact Or.inr ⟨h1, Or.inl h2⟩
        · exact Or.inr ⟨h1, Or.inr ⟨h2, h3⟩⟩

theorem less_cons_same (c : Char) (u v : List Char) :
    strings.less (c :: u) (c :: v) = strings.less u v := by
  simp [strings.less]

theorem less_irrefl (u : List Char) : strings.less u u = false := by
  induction u with
  | nil => rfl
  | cons a as ih => simp [strings.less, ih]

theorem digitChar_toNat (d : Nat) (h : d < 10) : (digitChar d).toNat = 48 + d := by
  interval_cases d <;> rfl

theorem digitChar_lt (x y : Nat) (hx : x < 10) (hy : y < 10) :
    strings.less [digitChar x] [digitChar y] = true ↔ x < y := by
  simp only [strings.less, Bool.and_false, Bool.or_false, decide_eq_true_eq,
    digitChar_toNat x hx, digitChar_toNat y hy]
  omega

theorem digitChar_inj (x y : Nat) (hx : x < 10) (hy : y < 10)
    (h : digitChar x = digitChar y) : x = y := by
  have := congrArg Char.toNat h
  rw [digitChar_toNat x hx, digitChar_toNat y hy] at this
  omega

theorem padDigits_order (w : Nat) : ∀ a b : Nat, a < 10 ^ w → b < 10 ^ w →
    (strings.less (padDigits w a) (padDigits w b) = true ↔ a < b) ∧
    (padDigits w a = padDigits w b ↔ a = b) := by
  induction w with
  | zero =>
    intro a b ha hb
    have ha0 : a = 0 := by simpa using ha
    have hb0 : b = 0 := by simpa using hb
    subst ha0 hb0
    simp [padDigits, strings.less]
  | succ w ih =>
    intro a b ha hb
    have ha' : a / 10 < 10 ^ w := by
      rw [Nat.div_lt_iff_lt_mul (by decide)]; rw [pow_succ] at ha; exact ha
    have hb' : b / 10 < 10 ^ w := by
      rw [Nat.div_lt_iff_lt_mul (by decide)]; rw [pow_succ] at hb; exact hb
    obtain ⟨h1, h2⟩ := ih (a / 10) (b / 10) ha' hb'
    have hma : a % 10 < 10 := Nat.mod_lt _ (by decide)
    have hmb : b % 10 < 10 := Nat.mod_lt _ (by decide)
    have hlen : (padDigits w (a / 10)).length = (padDigits w (b / 10)).length := by
      rw [padDigits_length, padDigits_length]
    constructor
    · simp only [padDigits]
      rw [less_append _ _ _ _ hlen, h1, h2, digitChar_lt _ _ hma hmb]
      omega
    · simp only [padDigits]
      constructor
      · intro h
        obtain ⟨e1, e2⟩ := List.append_inj h hlen
        have e1' := h2.1 e1
        have e2' := digitChar_inj _ _ hma hmb (by simpa using e2)
        omega
      · intro h
        rw [h]

theorem pad_block (w a b : Nat) (u v : List Char) (ha : a < 10 ^ w) (hb : b < 10 ^ w) :
    strings.less (padDigits w a ++ u) (padDigits w b ++ v) = true ↔
      a < b ∨ (a = b ∧ strings.less u v = true) := by
  rw [less_append _ _ _ _ (by rw [padDigits_length, padDigits_length]),
    (padDigits_order w a b ha hb).1, (padDigits_order w a b ha hb).2]

theorem appendInt_year (y : Int) (h0 : 0 ≤ y) (h1 : y ≤ 9999) :
    appendInt y 4 = padDigits 4 y.toNat := by
  have hy : y = ((y.toNat : Nat) : Int) := (Int.toNat_of_nonneg h0).symm
  have hlt : y.toNat < 10 ^ (3 + 1) := by
    have : (10 : Nat) ^ (3 + 1) = 10000 := by norm_num
    omega
  have h := appendInt_eq_pad 3 y.toNat hlt
  rw [← hy] at h
  exact h

theorem appendInt_two (n : Nat) (h : n ≤ 99) : appendInt (n : Int) 2 = padDigits 2 n := by
  have hlt : n < 10 ^ (1 + 1) := by
    have : (10 : Nat) ^ (1 + 1) = 100 := by norm_num
    omega
  exact appendInt_eq_pad 1 n hlt

theorem step4 (y : Nat) : (y + 1 + 3) / 4 = (y + 3) / 4 + (if y % 4 = 0 then 1 else 0) := by
  split_ifs <;> omega

theorem step100 (y : Nat) :
    (y + 1 + 99) / 100 = (y + 99) / 100 + (if y % 100 = 0 then 1 else 0) := by
  split_ifs <;> omega

theorem step400 (y : Nat) :
    (y + 1 + 399) / 400 = (y + 399) / 400 + (if y % 400 = 0 then 1 else 0) := by
  split_ifs <;> omega

theorem century_le (y : Nat) : (y + 99) / 100 ≤ (y + 3) / 4 := by omega

theorem daysBeforeYear_succ (y : Nat) :
    daysBeforeYear (y + 1) = daysBeforeYear y + 365 + (if isLeap y then 1 else 0) := by
  have e4 := step4 y
  have e100 := step100 y
  have e400 := step400 y
  have hle := century_le y
  have d1 : y % 100 = 0 → y % 4 = 0 := by omega
  have d2 : y % 400 = 0 → y % 100 = 0 := by omega
  unfold daysBeforeYear isLeap
  rw [e4, e100, e400]
  generalize (y + 3) / 4 = q4 at *
  generalize (y + 99) / 100 = q100 at *
  generalize (y + 399) / 400 = q400 at *
  by_cases h4 : y % 4 = 0 <;> by_cases h100 : y % 100 = 0 <;> by_cases h400 : y % 400 = 0 <;>
      simp only [h4, h100, h400, if_true, if_false, ne_eq, not_true_eq_false, not_false_eq_true,
      and_true, and_false, or_true, or_false, true_and, false_and, decide_True, decide_False,
      Bool.false_eq_true] <;>
    omega

theorem daysBeforeYear_mono (a b : Nat) (h : a ≤ b) : daysBeforeYear a ≤ daysBeforeYear b := by
  induction b with
  | zero =>
    have : a = 0 := by omega
    rw [this]
  | succ b ih =>
    by_cases hab : a = b + 1
    · rw [hab]
    · have := ih (by omega)
      rw [daysBeforeYear_succ]
      omega

theorem daysBeforeYear_ge (y : Nat) : 365 * y ≤ daysBeforeYear y := by
  induction y with
  | zero => simp
  | succ y ih => rw [daysBeforeYear_succ]; omega

theorem daysBeforeYear_le (y : Nat) : daysBeforeYear y ≤ 366 * y := by
  induction y with
  | zero => decide
  | succ y ih => rw [daysBeforeYear_succ]; split_ifs <;> omega

theorem yearLoop_spec (fuel : Nat) : ∀ (n y : Nat), daysBeforeYear y ≤ n →
    n < daysBeforeYear (y + fuel) →
    daysBeforeYear (yearLoop fuel n y) ≤ n ∧ n < daysBeforeYear (yearLoop fuel n y + 1) := by
  induction fuel with
  | zero => intro n y h1 h2; simp at h2; omega
  | succ f ih =>
    intro n y h1 h2
    unfold yearLoop
    by_cases h : daysBeforeYear (y + 1) ≤ n
    · rw [if_pos h]
      exact ih n (y + 1) h (by rw [show y + 1 + f = y + (f + 1) by omega]; exact h2)
    · rw [if_neg h]
      exact ⟨h1, by omega⟩

theorem yearOfDay_spec (n : Nat) :
    daysBeforeYear (yearOfDay n) ≤ n ∧ n < daysBeforeYear (yearOfDay n + 1) := by
  unfold yearOfDay
  apply yearLoop_spec
  · have := daysBeforeYear_le (n / 366)
    omega
  · have := daysBeforeYear_ge (n / 366 + (n / 100000 + 2))
    omega

theorem yearOfDay_mono (a b : Nat) (h : a ≤ b) : yearOfDay a ≤ yearOfDay b := by
  by_contra hc
  have h1 := yearOfDay_spec a
  have h2 := yearOfDay_spec b
  have := daysBeforeYear_mono (yearOfDay b + 1) (yearOfDay a) (by omega)
  omega

theorem yearOfDay_lt (n : Nat) (h : n < 146097) : yearOfDay n < 400 := by
  by_contra hc
  have h1 := yearOfDay_spec n
  have := daysBeforeYear_mono 400 (yearOfDay n) (by omega)
  have h400 : daysBeforeYear 400 = 146097 := by decide
  omega

theorem monthLoop_month_ge (l : List Nat) : ∀ m d, m ≤ (monthLoop l m d).1 := by
  induction l with
  | nil => intro m d; exact le_refl _
  | cons len rest ih =>
    intro m d
    unfold monthLoop
    split_ifs
    · exact le_refl _
    · exact le_trans (Nat.le_succ m) (ih (m + 1) (d - len))

theorem monthLoop_month_le (l : List Nat) : ∀ m d, (monthLoop l m d).1 ≤ m + l.length := by
  induction l with
  | nil => intro m d; exact le_refl _
  | cons len rest ih =>
    intro m d
    unfold monthLoop
    split_ifs
    · simp
    · have := ih (m + 1) (d - len)
      simp only [List.length_cons]
      omega

theorem monthLoop_lt (l : List Nat) : ∀ m a b, a < b →
    (monthLoop l m a).1 < (monthLoop l m b).1 ∨
      ((monthLoop l m a).1 = (monthLoop l m b).1 ∧ (monthLoop l m a).2 < (monthLoop l m b).2) := by
  induction l with
  | nil => intro m a b h; right; exact ⟨rfl, by simp [monthLoop]; exact h⟩
  | cons len rest ih =>
    intro m a b h
    unfold monthLoop
    by_cases ha : a < len
    · rw [if_pos ha]
      by_cases hb : b < len
      · rw [if_pos hb]; right; exact ⟨rfl, by simp; exact h⟩
      · rw [if_neg hb]; left
        exact lt_of_lt_of_le (Nat.lt_succ_self m) (monthLoop_month_ge rest (m + 1) (b - len))
    · rw [if_neg ha, if_neg (by omega)]
      exact ih (m + 1) (a - len) (b - len) (by omega)

theorem monthLoop_day (l : List Nat) (hl : ∀ x ∈ l, x ≤ 31) : ∀ m d, d < l.sum + 31 →
    1 ≤ (monthLoop l m d).2 ∧ (monthLoop l m d).2 ≤ 31 := by
  induction l with
  | nil => intro m d h; simp [monthLoop] at h ⊢; omega
  | cons len rest ih =>
    intro m d h
    unfold monthLoop
    have hlen : len ≤ 31 := hl len (List.mem_cons_self _ _)
    by_cases ha : d < len
    · rw [if_pos ha]; simp; omega
    · rw [if_neg ha]
      apply ih (fun x hx => hl x (List.mem_cons_of_mem _ hx))
      simp only [List.sum_cons] at h
      omega

theorem monthDay_bounds (leap : Bool) (doy : Nat) (h : doy < 365 + (if leap then 1 else 0)) :
    1 ≤ (monthDay leap doy).1 ∧ (monthDay leap doy).1 ≤ 12 ∧
    1 ≤ (monthDay leap doy).2 ∧ (monthDay leap doy).2 ≤ 31 := by
  unfold monthDay
  have h1 := monthLoop_month_ge (monthLengths leap) 1 doy
  have h2 := monthLoop_month_le (monthLengths leap) 1 doy
  have hlen : (monthLengths leap).length = 11 := by cases leap <;> rfl
  have h3 := monthLoop_day (monthLengths leap) (by cases leap <;> decide) 1 doy
    (by cases leap <;> simp [monthLengths] at h ⊢ <;> omega)
  rw [hlen] at h2
  exact ⟨h1, h2, h3.1, h3.2⟩

theorem monthDay_lt (leap : Bool) (a b : Nat) (h : a < b) :
    (monthDay leap a).1 < (monthDay leap b).1 ∨
      ((monthDay leap a).1 = (monthDay leap b).1 ∧ (monthDay leap a).2 < (monthDay leap b).2) :=
  monthLoop_lt _ 1 a b h

theorem sameSecond_of_abs_eq (t u : Time) (h : t.abs = u.abs) : t.sameSecond u := by
  have hd : t.daysAbs = u.daysAbs := by unfold Time.daysAbs; rw [h]
  have hs : t.secOfDay = u.secOfDay := by unfold Time.secOfDay; rw [h]
  have he : t.dayOfEra = u.dayOfEra := by unfold Time.dayOfEra; rw [hd]
  have hy : t.yearOfEra = u.yearOfEra := by unfold Time.yearOfEra; rw [he]
  have hdoy : t.dayOfYear = u.dayOfYear := by unfold Time.dayOfYear; rw [he, hy]
  refine ⟨?_, ?_, ?_, ?_, ?_, ?_⟩
  · unfold Time.year; rw [hd, hy]
  · unfold Time.month; rw [hy, hdoy]
  · unfold Time.day; rw [hy, hdoy]
  · unfold Time.hour; rw [hs]
  · unfold Time.minute; rw [hs]
  · unfold Time.second; rw [hs]

theorem dayOfEra_lt (t : Time) : t.dayOfEra < 146097 := by
  unfold Time.dayOfEra
  omega

theorem yearOfEra_lt (t : Time) : t.yearOfEra < 400 :=
  yearOfDay_lt _ (dayOfEra_lt t)

theorem dayOfYear_lt (t : Time) :
    t.dayOfYear < 365 + (if isLeap t.yearOfEra then 1 else 0) := by
  unfold Time.dayOfYear
  have h := yearOfDay_spec t.dayOfEra
  rw [daysBeforeYear_succ] at h
  unfold Time.yearOfEra
  omega

theorem secOfDay_lt (t : Time) : t.secOfDay < 86400 := by
  unfold Time.secOfDay
  omega

theorem field_bounds (t : Time) :
    1 ≤ t.month ∧ t.month ≤ 12 ∧ 1 ≤ t.day ∧ t.day ≤ 31 ∧
    t.hour ≤ 23 ∧ t.minute ≤ 59 ∧ t.second ≤ 59 := by
  obtain ⟨h1, h2, h3, h4⟩ := monthDay_bounds (isLeap t.yearOfEra) t.dayOfYear (dayOfYear_lt t)
  have hs := secOfDay_lt t
  refine ⟨h1, h2, h3, h4, ?_, ?_, ?_⟩
  · unfold Time.hour; omega
  · unfold Time.minute; omega
  · unfold Time.second; omega

theorem secondBefore_of_abs_lt (t u : Time) (h : t.abs < u.abs) : t.secondBefore u := by
  unfold Time.secondBefore
  by_cases hd : t.daysAbs = u.daysAbs
  · -- the same day: the clock decides
    have he : t.dayOfEra = u.dayOfEra := by unfold Time.dayOfEra; rw [hd]
    have hy : t.yearOfEra = u.yearOfEra := by unfold Time.yearOfEra; rw [he]
    have hdoy : t.dayOfYear = u.dayOfYear := by unfold Time.dayOfYear; rw [he, hy]
    have e1 : t.year = u.year := by unfold Time.year; rw [hd, hy]
    have e2 : t.month = u.month := by unfold Time.month; rw [hy, hdoy]
    have e3 : t.day = u.day := by unfold Time.day; rw [hy, hdoy]
    have hs : t.secOfDay < u.secOfDay := by
      unfold Time.secOfDay
      unfold Time.daysAbs at hd
      omega
    refine Or.inr ⟨e1, Or.inr ⟨e2, Or.inr ⟨e3, ?_⟩⟩⟩
    unfold Time.hour Time.minute Time.second
    have := secOfDay_lt u
    omega
  · have hlt : t.daysAbs < u.daysAbs := by
      unfold Time.daysAbs at hd ⊢
      omega
    have hyt := yearOfEra_lt t
    have hyu := yearOfEra_lt u
    by_cases her : t.daysAbs / 146097 = u.daysAbs / 146097
    · have hdoe : t.dayOfEra < u.dayOfEra := by
        unfold Time.dayOfEra
        omega
      have hmono : t.yearOfEra ≤ u.yearOfEra := yearOfDay_mono _ _ (le_of_lt hdoe)
      by_cases hye : t.yearOfEra = u.yearOfEra
      · have e1 : t.year = u.year := by unfold Time.year; rw [her, hye]
        have hdoy : t.dayOfYear < u.dayOfYear := by
          unfold Time.dayOfYear
          rw [hye]
          have := (yearOfDay_spec t.dayOfEra).1
          have h2 : daysBeforeYear t.yearOfEra ≤ t.dayOfEra := this
          rw [hye] at h2
          omega
        have hm := monthDay_lt (isLeap u.yearOfEra) _ _ hdoy
        refine Or.inr ⟨e1, ?_⟩
        unfold Time.month Time.day
        rw [hye]
        rcases hm with hm | ⟨hm1, hm2⟩
        · exact Or.inl hm
        · exact Or.inr ⟨hm1, Or.inl hm2⟩
      · left
        unfold Time.year
        rw [her]
        omega
    · left
      unfold Time.year
      have : t.daysAbs / 146097 < u.daysAbs / 146097 := by omega
      omega

theorem secondBefore_irrefl_of_same (t u : Time) (h : t.sameSecond u) : ¬ t.secondBefore u := by
  unfold Time.sameSecond at h
  unfold Time.secondBefore
  omega

theorem secondBefore_asymm (t u : Time) (h : t.secondBefore u) : ¬ u.secondBefore t := by
  unfold Time.secondBefore at h ⊢
  omega

theorem secondBefore_iff_abs (t u : Time) : t.secondBefore u ↔ t.abs < u.abs := by
  constructor
  · intro h
    by_contra hn
    rcases lt_or_eq_of_le (not_lt.1 hn) with h2 | h2
    · exact secondBefore_asymm t u h (secondBefore_of_abs_lt u t h2)
    · exact secondBefore_irrefl_of_same t u (sameSecond_of_abs_eq t u h2.symm) h
  · exact secondBefore_of_abs_lt t u

theorem sameSecond_iff_abs (t u : Time) : t.sameSecond u ↔ t.abs = u.abs := by
  constructor
  · intro h
    by_contra hn
    rcases lt_or_gt_of_ne hn with h2 | h2
    · exact secondBefore_irrefl_of_same t u h (secondBefore_of_abs_lt t u h2)
    · have h' : u.sameSecond t := by
        unfold Time.sameSecond at h ⊢
        omega
      exact secondBefore_irrefl_of_same u t h' (secondBefore_of_abs_lt u t h2)
  · exact sameSecond_of_abs_eq t u

theorem outName_data (t : Time) (ht : t.inRange) :
    (outName t).data =
      padDigits 4 t.year.toNat ++ ('-' :: (padDigits 2 t.month ++ ('-' ::
        (padDigits 2 t.day ++ ('_' :: (padDigits 2 t.hour ++ ('-' ::
          (padDigits 2 t.minute ++ ('-' ::
            (padDigits 2 t.second ++ ['.', 'm', 'p', '4'])))))))))) := by
  obtain ⟨h0, h1⟩ := ht
  obtain ⟨_, h3, _, h5, h6, h7, h8⟩ := field_bounds t
  have e : (outName t).data = (formatStamp t).data ++ ['.', 'm', 'p', '4'] := by
    unfold outName
    rw [String.data_append]
  rw [e]
  unfold formatStamp
  rw [appendInt_year t.year h0 h1, appendInt_two t.month (by omega),
    appendInt_two t.day (by omega), appendInt_two t.hour (by omega),
    appendInt_two t.minute (by omega), appendInt_two t.second (by omega)]
  simp only [List.append_assoc, List.cons_append]

theorem outName_less_iff (t u : Time) (ht : t.inRange) (hu : u.inRange) :
    strings.less (outName t).data (outName u).data = true ↔ t.secondBefore u := by
  rw [outName_data t ht, outName_data u hu]
  obtain ⟨t0, t1⟩ := ht
  obtain ⟨u0, u1⟩ := hu
  obtain ⟨_, t3, _, t5, t6, t7, t8⟩ := field_bounds t
  obtain ⟨_, u3, _, u5, u6, u7, u8⟩ := field_bounds u
  have p4 : (10 : Nat) ^ 4 = 10000 := by norm_num
  have p2 : (10 : Nat) ^ 2 = 100 := by norm_num
  rw [pad_block 4 _ _ _ _ (by omega) (by omega), less_cons_same,
    pad_block 2 _ _ _ _ (by omega) (by omega), less_cons_same,
    pad_block 2 _ _ _ _ (by omega) (by omega), less_cons_same,
    pad_block 2 _ _ _ _ (by omega) (by omega), less_cons_same,
    pad_block 2 _ _ _ _ (by omega) (by omega), less_cons_same,
    pad_block 2 _ _ _ _ (by omega) (by omega), less_irrefl]
  unfold Time.secondBefore
  have hy1 : t.year.toNat < u.year.toNat ↔ t.year < u.year := by omega
  have hy2 : t.year.toNat = u.year.toNat ↔ t.year = u.year := by omega
  rw [hy1, hy2]
  simp

theorem outName_eq_iff (t u : Time) (ht : t.inRange) (hu : u.inRange) :
    outName t = outName u ↔ t.sameSecond u := by
  constructor
  · intro h
    have hlt := outName_less_iff t u ht hu
    have hgt := outName_less_iff u t hu ht
    rw [h, less_irrefl] at hlt
    rw [h, less_irrefl] at hgt
    have n1 : ¬ t.secondBefore u := fun x => by simpa using hlt.2 x
    have n2 : ¬ u.secondBefore t := fun x => by simpa using hgt.2 x
    unfold Time.secondBefore at n1 n2
    unfold Time.sameSecond
    omega
  · rintro ⟨h1, h2, h3, h4, h5, h6⟩
    unfold outName formatStamp
    rw [h1, h2, h3, h4, h5, h6]

theorem outPath_base (t now : Time) (sz : Int) (outDir : String) :
    filepath.Base (ConvertOne_outPath (some ⟨t, sz⟩) now outDir) = outName t := by
  have h := Join_endsWithElem outDir (formatStamp t ++ ".mp4") _
    (stampName_isFileName t) (Or.inl (by simp [String.data_append]))
  have hb := Base_of_endsWithElem _ _ (stampName_isFileName t) h
  unfold ConvertOne_outPath
  rw [hb]
  unfold outName
  apply String.ext
  simp [String.data_append]

/-- C16 fails as stated: in a zone that leaves daylight saving time, the local
clock is set back, and of two modification times forty minutes apart the later
one gets the lexically smaller name. -/
theorem outName_fall_back_counterexample :
    sampleBeforeFallBack.offset = sampleZone sampleBeforeFallBack.unix ∧
    sampleAfterFallBack.offset = sampleZone sampleAfterFallBack.unix ∧
    sampleBeforeFallBack.inRange ∧ sampleAfterFallBack.inRange ∧
    sampleBeforeFallBack.unix < sampleAfterFallBack.unix ∧
    outName sampleBeforeFallBack = "2024-11-03_01-30-00.mp4" ∧
    outName sampleAfterFallBack = "2024-11-03_01-10-00.mp4" ∧
    strings.less (outName sampleAfterFallBack).data (outName sampleBeforeFallBack).data =
      true := by
  refine ⟨by decide, by decide, by unfold Time.inRange; decide, by unfold Time.inRange; decide,
    by decide, by decide, by decide, by decide⟩

/-- C16 (amended). The file `ConvertOne` writes for an input last modified at
`t` is named by the stamp `YYYY-MM-DD_HH-MM-SS` of the wall-clock reading of
`t` in its Location, followed by `.mp4`. For two modification times in one
Location whose readings have years 0000 to 9999, the names compare as strings
exactly as the wall-clock readings down to the second do: one name is below
the other iff its reading (the seconds of the instant plus the zone offset in
effect) is the smaller one, field by field from the year to the second, and
the names are equal iff the readings are equal. So where the zone offset is the
same at both times, the names compare as the instants truncated to the second
do; and two times within the same second give the same name. -/
theorem outName_lexically_sortable (loc : Int → Int) (t u now : Time) (sz : Int)
    (outDir : String)
    (htl : t.offset = loc t.unix) (hul : u.offset = loc u.unix)
    (ht : t.inRange) (hu : u.inRange) :
    filepath.Base (ConvertOne_outPath (some ⟨t, sz⟩) now outDir) = outName t ∧
    (outName t).data =
      padDigits 4 t.year.toNat ++ ('-' :: (padDigits 2 t.month ++ ('-' ::
        (padDigits 2 t.day ++ ('_' :: (padDigits 2 t.hour ++ ('-' ::
          (padDigits 2 t.minute ++ ('-' ::
            (padDigits 2 t.second ++ ['.', 'm', 'p', '4'])))))))))) ∧
    (outName t).data.length = 23 ∧
    (strings.less (outName t).data (outName u).data = true ↔
      t.unix + t.offset < u.unix + u.offset) ∧
    (strings.less (outName t).data (outName u).data = true ↔ t.secondBefore u) ∧
    (outName t = outName u ↔ t.unix + t.offset = u.unix + u.offset) ∧
    (outName t = outName u ↔ t.sameSecond u) ∧
    (loc t.unix = loc u.unix →
      (strings.less (outName t).data (outName u).data = true ↔ t.unix < u.unix)) ∧
    (t.unix = u.unix → outName t = outName u) := by
  have hless := outName_less_iff t u ht hu
  have heq := outName_eq_iff t u ht hu
  have habs : t.abs < u.abs ↔ t.unix + t.offset < u.unix + u.offset := by
    unfold Time.abs; omega
  have habse : t.abs = u.abs ↔ t.unix + t.offset = u.unix + u.offset := by
    unfold Time.abs; omega
  refine ⟨outPath_base t now sz outDir, outName_data t ht, ?_, ?_, hless, ?_, heq, ?_, ?_⟩
  · rw [outName_data t ht]
    simp [padDigits_length]
  · rw [hless, secondBefore_iff_abs, habs]
  · rw [heq, sameSecond_iff_abs, habse]
  · intro hloc
    rw [hless, secondBefore_iff_abs, habs, htl, hul, hloc]
    omega
  · intro hsame
    rw [heq, sameSecond_iff_abs, habse, htl, hul, hsame]

/-- Witness for C16: in UTC the sample time gets the name
`2024-01-02_03-04-05.mp4`, which is below the name of a time in the next year
and equal to the name of a time half a second later. -/
theorem outName_lexically_sortable_witness :
    sampleTime.inRange ∧ sampleTimeNextYear.inRange ∧ sampleTimeLater.inRange ∧
    outName sampleTime = "2024-01-02_03-04-05.mp4" ∧
    strings.less (outName sampleTime).data (outName sampleTimeNextYear).data = true ∧
    outName sampleTime = outName sampleTimeLater :=
  ⟨by unfold Time.inRange; decide, by unfold Time.inRange; decide,
    by unfold Time.inRange; decide, by decide,
    (outName_lexically_sortable (fun _ => 0) sampleTime sampleTimeNextYear sampleTime 0 "out"
      rfl rfl (by unfold Time.inRange; decide) (by unfold Time.inRange; decide)).2.2.2.1.2
      (by decide),
    (outName_lexically_sortable (fun _ => 0) sampleTime sampleTimeLater sampleTime 0 "out"
      rfl rfl (by unfold Time.inRange; decide)
      (by unfold Time.inRange; decide)).2.2.2.2.2.2.2.2 rfl⟩

end NameClaims

/-! ## The default configuration (C23) -/

section DefaultClaims
open config

/-- C23. For every CPU count that `runtime.NumCPU` can report as an `int`
(short of the smallest one, where the subtraction would wrap), `NewDefault`
returns a configuration whose `Concurrent` is the larger of the count minus one
and 1, hence at least 1, with `Notify` true, `Preset` `faster` and `CRF` 22. -/
theorem NewDefault_concurrent (cwd : String) (numCPU : Int)
    (hlo : -9223372036854775808 < numCPU) (hhi : numCPU < 9223372036854775808) :
    (NewDefault cwd numCPU).Concurrent = max (numCPU - 1) 1 ∧
    1 ≤ (NewDefault cwd numCPU).Concurrent ∧
    (NewDefault cwd numCPU).Notify = true ∧
    (NewDefault cwd numCPU).Preset = "faster" ∧
    (NewDefault cwd numCPU).CRF = 22 := by
  have hw : wrapInt (numCPU - 1) = numCPU - 1 := by
    unfold wrapInt
    omega
  have hc : (NewDefault cwd numCPU).Concurrent =
      if wrapInt (numCPU - 1) < 1 then 1 else wrapInt (numCPU - 1) := rfl
  rw [hc, hw]
  refine ⟨?_, ?_, rfl, rfl, rfl⟩
  · by_cases h : numCPU - 1 < 1
    · rw [if_pos h, max_eq_right (by omega)]
    · rw [if_neg h, max_eq_left (by omega)]
  · by_cases h : numCPU - 1 < 1
    · rw [if_pos h]
    · rw [if_neg h]; omega

theorem NewDefault_concurrent_witness :
    (NewDefault "/work" 8).Concurrent = max (8 - 1) 1 ∧
    1 ≤ (NewDefault "/work" 8).Concurrent ∧
    (NewDefault "/work" 8).Notify = true ∧
    (NewDefault "/work" 8).Preset = "faster" ∧
    (NewDefault "/work" 8).CRF = 22 :=
  NewDefault_concurrent "/work" 8 (by decide) (by decide)

end DefaultClaims

/-! ## Pool capacities (C26) -/

section CapacityClaims
open convert

theorem advance_nil (i : Nat) (src dst : Phase) (err : Option (Option String)) :
    advance [] i src dst err = none := rfl

theorem blocked_poolStep (files : List String) (hne : files ≠ []) (s : PoolState)
    (h : Blocked files s) (a : PoolStep) : Blocked files (poolStep s a) := by
  obtain ⟨hc, hp, hw, hs, hcomp, hadd⟩ := h
  cases a with
  | add =>
    simp only [poolStep]
    by_cases hg : s.pending ≠ [] ∧ s.added = false
    · rw [if_pos hg]
      rcases hadd with ⟨_, h2⟩ | ⟨h1, _⟩
      · exact ⟨hc, hp, hw, hs, hcomp, Or.inr ⟨rfl, by simp [h2]⟩⟩
      · rw [h1] at hg; exact absurd hg.2 (by decide)
    · rw [if_neg hg]; exact ⟨hc, hp, hw, hs, hcomp, hadd⟩
  | acquire =>
    cases hpd : s.pending with
    | nil => simp only [poolStep, hpd]; exact ⟨hc, hp, hw, hs, hcomp, hadd⟩
    | cons x rest =>
      simp only [poolStep, hpd]
      rw [if_neg (by rw [hs, hc]; simp)]
      exact ⟨hc, hp, hw, hs, hcomp, hadd⟩
  | start i => simp only [poolStep, hw, advance_nil]; exact ⟨hc, hp, hw, hs, hcomp, hadd⟩
  | ret i err => simp only [poolStep, hw, advance_nil]; exact ⟨hc, hp, hw, hs, hcomp, hadd⟩
  | release i => simp only [poolStep, hw, advance_nil]; exact ⟨hc, hp, hw, hs, hcomp, hadd⟩
  | done i => simp only [poolStep, hw, advance_nil]; exact ⟨hc, hp, hw, hs, hcomp, hadd⟩
  | wait =>
    simp only [poolStep]
    rw [if_neg (by rw [hp]; exact fun h => hne h.1)]
    exact ⟨hc, hp, hw, hs, hcomp, hadd⟩

theorem blocked_chanStep (files : List String) (hne : files ≠ []) (s : PoolState)
    (h : Blocked files s) (a : ChanStep) : Blocked files (chanStep s a) := by
  cases a with
  | step a => exact blocked_poolStep files hne s h a
  | handoff i =>
    have hw := h.2.2.1
    cases hpd : s.pending with
    | nil => simp only [chanStep, hpd]; exact h
    | cons x rest =>
      simp only [chanStep, hpd, hw, advance_nil]
      split_ifs <;> exact h

theorem blocked_chanRun (files : List String) (hne : files ≠ []) (steps : List ChanStep) :
    ∀ s, Blocked files s → Blocked files (chanRun s steps) := by
  induction steps with
  | nil => intro s h; exact h
  | cons a rest ih =>
    intro s h
    exact ih _ (blocked_chanStep files hne s h a)

theorem convertCalls_blocked (files : List String) (hne : files ≠ []) (steps : List PoolStep) :
    ∀ s, Blocked files s → convertCalls s steps = [] := by
  induction steps with
  | nil => intro s _; rfl
  | cons a rest ih =>
    intro s h
    have hnext := ih _ (blocked_poolStep files hne s h a)
    cases a with
    | start i =>
      have hcs : canStart s i = false := by
        unfold canStart
        rw [h.2.2.1, advance_nil]
        rfl
      show (if canStart s i then [i] else []) ++ convertCalls (poolStep s (.start i)) rest = []
      rw [hnext, hcs]
      rfl
    | add => exact hnext
    | acquire => exact hnext
    | ret i err => exact hnext
    | release i => exact hnext
    | done i => exact hnext
    | wait => exact hnext

/-- C26. The sub-encode pool of split mode has the capacity `Concurrent`,
replaced by 4 when that is 0, hence at least 1 whenever `Concurrent` is not
negative. The batch pool of `ProcessFiles` has exactly the capacity
`Concurrent`; when that is 0 and the file list is not empty, then on every
schedule, the hand-over of a channel without buffer included, the send for the
first file never completes: the loop stays at the first file, no goroutine is
ever started, `Convert` is never called and completion is never reported. -/
theorem zero_capacity_never_starts (c : Config) (absDest stamp : String)
    (mkdirErr : Option String) (files : List String) (s0 : PoolState)
    (hinit : ProcessFiles_init c absDest stamp mkdirErr files = .ok s0) :
    subPoolCapacity c = (if c.Concurrent = 0 then 4 else c.Concurrent) ∧
    1 ≤ subPoolCapacity c ∧
    (s0.capacity : Int) = c.Concurrent ∧
    (c.Concurrent = 0 → files ≠ [] →
      (∀ steps : List ChanStep,
        (chanRun s0 steps).pending = files ∧ (chanRun s0 steps).workers = [] ∧
        (chanRun s0 steps).completed = false ∧
        chanStep (chanRun s0 steps) (.step .acquire) = chanRun s0 steps) ∧
      (∀ steps : List PoolStep, convertCalls s0 steps = [])) := by
  unfold ProcessFiles_init at hinit
  cases hm : mkdirErr with
  | some e => simp [hm] at hinit
  | none =>
    simp only [hm] at hinit
    by_cases hneg : c.Concurrent < 0
    · rw [if_pos hneg] at hinit; cases hinit
    · rw [if_neg hneg] at hinit
      have hs0 := (Except.ok.inj hinit).symm
      have hcap : (s0.capacity : Int) = c.Concurrent := by
        rw [hs0]
        exact Int.toNat_of_nonneg (by omega)
      refine ⟨rfl, ?_, hcap, ?_⟩
      · unfold subPoolCapacity
        split_ifs <;> omega
      · intro h0 hne
        have hb : Blocked files s0 := by
          rw [hs0]
          exact ⟨by simp [h0], rfl, rfl, rfl, rfl, Or.inl ⟨rfl, rfl⟩⟩
        refine ⟨fun steps => ?_, fun steps => convertCalls_blocked files hne steps s0 hb⟩
        have hr := blocked_chanRun files hne steps s0 hb
        refine ⟨hr.2.1, hr.2.2.1, hr.2.2.2.2.1, ?_⟩
        show poolStep (chanRun s0 steps) .acquire = chanRun s0 steps
        cases hpd : (chanRun s0 steps).pending with
        | nil => simp only [poolStep, hpd]
        | cons x rest =>
          simp only [poolStep, hpd]
          rw [if_neg (by rw [hr.2.2.2.1, hr.1]; simp)]

theorem zero_capacity_never_starts_witness :
    subPoolCapacity sampleNoSlots = 4 ∧
    (chanRun samplePool0 [.step .add, .step .acquire, .handoff 0, .step (.start 0),
      .step .wait]).workers = [] ∧
    convertCalls samplePool0 [.add, .acquire, .start 0, .wait] = [] :=
  have h := zero_capacity_never_starts sampleNoSlots "/out" "20240102" none sampleFiles
    samplePool0 rfl
  ⟨h.1, ((h.2.2.2 rfl (by decide)).1 _).2.1, (h.2.2.2 rfl (by decide)).2 _⟩

end CapacityClaims

/-! ## Stat results and dry runs (C22, C24) -/

section StatClaims
open convert

theorem afterWait_returned (c : Config) (env : SplitEnv) (inPath outDir tmpDir : String)
    (results : List result) (out : String)
    (h : (ConvertSplit_afterWait c env inPath outDir tmpDir results).2 = .returned out none) :
    ∃ info, env.stat = some info ∧
      out = filepath.Join outDir (time.formatStamp info.ModTime ++ ".mp4") ∧
      env.mergeExec = none ∧
      Effect.merge (mergeBin c) (mergeArgs tmpDir out) ∈
        (ConvertSplit_afterWait c env inPath outDir tmpDir results).1 := by
  unfold ConvertSplit_afterWait at h ⊢
  cases hce : checkErrors results [] with
  | error e => rw [hce] at h; cases h
  | ok convertedChunks =>
    rw [hce] at h
    simp only at h ⊢
    cases hcr : env.createErr with
    | some e => rw [hcr] at h; cases h
    | none =>
      rw [hcr] at h
      simp only at h ⊢
      cases hst : env.stat with
      | none => rw [hst] at h; cases h
      | some info =>
        rw [hst] at h
        simp only at h ⊢
        cases hme : env.mergeExec with
        | some p => rw [hme] at h; cases h
        | none =>
          rw [hme] at h
          simp only at h ⊢
          have hout : out = filepath.Join outDir (time.formatStamp info.ModTime ++ ".mp4") := by
            by_cases ht : (!c.NoTrash && !c.DryRun) = true
            · rw [if_pos ht] at h; cases h; rfl
            · rw [if_neg ht] at h; cases h; rfl
          refine ⟨info, by trivial, hout, by trivial, ?_⟩
          rw [hout]
          by_cases ht : (!c.NoTrash && !c.DryRun) = true
          · rw [if_pos ht]
            simp [mergeBin, mergeArgs]
          · rw [if_neg ht]
            simp [mergeBin, mergeArgs]

theorem ConvertSplit_returned (c : Config) (env : SplitEnv) (inPath outDir out : String)
    (h : (ConvertSplit c env inPath outDir).2 = .returned out none) :
    ∃ tmpDir info, env.mkdirTemp = .ok tmpDir ∧ env.stat = some info ∧
      out = filepath.Join outDir (time.formatStamp info.ModTime ++ ".mp4") ∧
      env.mergeExec = none ∧
      Effect.merge (mergeBin c) (mergeArgs tmpDir out) ∈ (ConvertSplit c env inPath outDir).1 := by
  unfold ConvertSplit at h ⊢
  cases hmk : env.mkdirTemp with
  | error e => rw [hmk] at h; cases h
  | ok tmpDir =>
    rw [hmk] at h
    simp only at h ⊢
    cases hsc : splitChunks c env inPath tmpDir with
    | mk r effs =>
      rw [hsc] at h
      cases r with
      | error e => cases h
      | ok chunks =>
        simp only at h ⊢
        by_cases hneg : c.Concurrent < 0
        · rw [if_pos hneg] at h; cases h
        · rw [if_neg hneg] at h
          rw [if_neg hneg]
          obtain ⟨info, h1, h2, h3, h4⟩ := afterWait_returned c env inPath outDir tmpDir _ out h
          refine ⟨tmpDir, info, rfl, h1, h2, h3, ?_⟩
          simp only [List.mem_append]
          exact Or.inl (Or.inr h4)

theorem chunkEffects_dry (c : Config) (env : SplitEnv) (tmpDir : String)
    (chunks : List String) (hd : c.DryRun = true) (e : Effect)
    (he : e ∈ chunkEffects c env tmpDir chunks) : e.startsProcess = false := by
  unfold chunkEffects at he
  rw [List.mem_flatMap] at he
  obtain ⟨i, _, hi⟩ := he
  split at hi
  · simp only [List.mem_cons, List.mem_singleton, List.not_mem_nil, or_false] at hi
    rcases hi with h | h <;> rw [h] <;> simp [Effect.startsProcess, hd]
  · cases hi

theorem splitChunks_dry (c : Config) (env : SplitEnv) (inPath tmpDir : String)
    (hd : c.DryRun = true) :
    splitChunks c env inPath tmpDir =
      (.ok [filepath.Join tmpDir "chunk_000.mp4", filepath.Join tmpDir "chunk_001.mp4",
        filepath.Join tmpDir "chunk_002.mp4"], []) := by
  unfold splitChunks
  rw [if_pos hd]

theorem afterWait_dry (c : Config) (env : SplitEnv) (inPath outDir tmpDir : String)
    (results : List result) (e : Effect)
    (he : e ∈ (ConvertSplit_afterWait c env inPath outDir tmpDir results).1)
    (hp : e.startsProcess = true) :
    ∃ out, e = .merge (mergeBin c) (mergeArgs tmpDir out) := by
  have hw : ∀ (l : List String) (x : Effect),
      x ∈ Effect.createList (filepath.Join tmpDir "concat.txt") :: l.map Effect.writeLine →
      x.startsProcess = false := by
    intro l x hx
    rcases List.mem_cons.1 hx with h | h
    · rw [h]; rfl
    · obtain ⟨ln, _, hln⟩ := List.mem_map.1 h
      rw [← hln]; rfl
  have no : ∀ x : Effect, x.startsProcess = false → x.startsProcess = true →
      ∃ out, x = .merge (mergeBin c) (mergeArgs tmpDir out) := by
    intro x h1 h2
    rw [h1] at h2
    cases h2
  unfold ConvertSplit_afterWait at he
  cases hc : checkErrors results [] with
  | error msg => rw [hc] at he; cases he
  | ok cc =>
    rw [hc] at he
    simp only at he
    cases hcr : env.createErr with
    | some msg =>
      rw [hcr] at he
      simp only [List.mem_singleton] at he
      exact no e (by rw [he]; rfl) hp
    | none =>
      rw [hcr] at he
      simp only at he
      cases hs : env.stat with
      | none =>
        rw [hs] at he
        exact no e (hw _ e he) hp
      | some info =>
        rw [hs] at he
        simp only at he
        cases hm : env.mergeExec with
        | some p =>
          rw [hm] at he
          simp only [List.mem_append, List.mem_singleton] at he
          rcases he with h | h
          · exact no e (hw _ e h) hp
          · exact ⟨_, h⟩
        | none =>
          rw [hm] at he
          simp only at he
          by_cases ht : (!c.NoTrash && !c.DryRun) = true
          · rw [if_pos ht] at he
            simp only [List.mem_append, List.mem_singleton] at he
            rcases he with (h | h) | h
            · exact no e (hw _ e h) hp
            · exact ⟨_, h⟩
            · exact no e (by rw [h]; rfl) hp
          · rw [if_neg ht] at he
            simp only [List.mem_append, List.mem_singleton] at he
            rcases he with h | h
            · exact no e (hw _ e h) hp
            · exact ⟨_, h⟩

theorem ConvertSplit_dry (c : Config) (env : SplitEnv) (inPath outDir : String)
    (hd : c.DryRun = true) (e : Effect) (he : e ∈ (ConvertSplit c env inPath outDir).1)
    (hp : e.startsProcess = true) :
    ∃ tmpDir out, e = .merge (mergeBin c) (mergeArgs tmpDir out) := by
  have no : ∀ x : Effect, x.startsProcess = false → x.startsProcess = true →
      ∃ tmpDir out, x = .merge (mergeBin c) (mergeArgs tmpDir out) := by
    intro x h1 h2
    rw [h1] at h2
    cases h2
  unfold ConvertSplit at he
  cases hmk : env.mkdirTemp with
  | error msg =>
    rw [hmk] at he
    simp only [List.mem_singleton] at he
    exact no e (by rw [he]; rfl) hp
  | ok tmpDir =>
    rw [hmk] at he
    simp only at he
    rw [splitChunks_dry c env inPath tmpDir hd] at he
    simp only at he
    split_ifs at he
    · simp only [List.cons_append, List.mem_cons, List.mem_append, List.mem_singleton,
        List.not_mem_nil, or_false, List.nil_append] at he
      rcases he with h | h
      · exact no e (by rw [h]; rfl) hp
      · exact no e (by rw [h]; rfl) hp
    · simp only [List.cons_append, List.mem_cons, List.mem_append, List.mem_singleton,
        List.not_mem_nil, or_false, List.nil_append] at he
      rcases he with h | (h | h) | h
      · exact no e (by rw [h]; rfl) hp
      · exact no e (chunkEffects_dry c env tmpDir _ hd e h) hp
      · obtain ⟨out, ho⟩ := afterWait_dry c env inPath outDir tmpDir _ e h hp
        exact ⟨tmpDir, out, ho⟩
      · exact no e (by rw [h]; rfl) hp

theorem Convert_split (c : Config) (one : OneEnv) (env : SplitEnv) (inPath outDir : String)
    (h : c.ParallelSplit = true) :
    Convert c one env inPath outDir = ConvertSplit c env inPath outDir := by
  unfold Convert
  simp only [h, if_true, ite_self]

theorem Convert_one (c : Config) (one : OneEnv) (env : SplitEnv) (inPath outDir : String)
    (h : c.ParallelSplit = false) :
    Convert c one env inPath outDir = ConvertOne c one inPath outDir := by
  unfold Convert
  simp [h]

/-- C22 does not hold of the code on the split path. In a dry run `ConvertOne`
starts nothing and returns the output path, and `convertFile` starts no
encoder; but `ConvertSplit` still runs the merge command: in a dry run the
merge is the only process it starts, it moves nothing to the trash, and it
returns an output path with no error only after it has run the merge and the
merge has succeeded. On the sample input the merge is run on the three mock
chunks, and when it fails `Convert` returns the merge error. -/
theorem dry_run_split_runs_merge :
    (∀ (c : Config) (one : OneEnv) (env : SplitEnv) (inPath outDir : String),
      c.DryRun = true → c.ParallelSplit = false →
      Convert c one env inPath outDir =
        ([], .returned (ConvertOne_outPath one.stat one.now outDir) none)) ∧
    (∀ (c : Config) (exec : ExecResult) (inPath outPath : String),
      c.DryRun = true → convertFile c exec inPath outPath = none) ∧
    (∀ (c : Config) (one : OneEnv) (env : SplitEnv) (inPath outDir : String),
      c.DryRun = true → c.ParallelSplit = true →
      (∀ e ∈ (Convert c one env inPath outDir).1,
        (∀ p, e ≠ .trash p) ∧
        (e.startsProcess = true →
          ∃ tmpDir out, e = .merge (mergeBin c) (mergeArgs tmpDir out))) ∧
      (∀ out, (Convert c one env inPath outDir).2 = .returned out none →
        env.mergeExec = none ∧
        ∃ tmpDir, Effect.merge (mergeBin c) (mergeArgs tmpDir out) ∈
          (Convert c one env inPath outDir).1)) ∧
    sampleDryRunSplit.DryRun = true ∧
    Effect.merge "ffmpeg"
        ["-f", "concat", "-safe", "0", "-i", "/tmp/rec-watch-split-1/concat.txt", "-c", "copy",
          "/out/2024-01-02_03-04-05.mp4"] ∈
      (Convert sampleDryRunSplit sampleOneEnv sampleSplitEnvMergeFail "/in/x.mov" "/out").1 ∧
    (Convert sampleDryRunSplit sampleOneEnv sampleSplitEnvMergeFail "/in/x.mov" "/out").2 =
      .returned "" (some "merge failed: exit status 1\nNo such file or directory") := by
  refine ⟨?_, ?_, ?_, rfl, by decide, by decide⟩
  · intro c one env inPath outDir hd hps
    rw [Convert_one c one env inPath outDir hps]
    unfold ConvertOne
    simp only [hd, if_true]
  · intro c exec inPath outPath hd
    unfold convertFile
    simp only [hd, if_true]
  · intro c one env inPath outDir hd hps
    rw [Convert_split c one env inPath outDir hps]
    refine ⟨fun e he => ⟨?_, ConvertSplit_dry c env inPath outDir hd e he⟩, ?_⟩
    · intro p hp
      have h := ((ConvertSplit_plain c env inPath outDir e he).2 p hp).2.2
      rw [hd] at h
      cases h
    · intro out hout
      obtain ⟨tmpDir, info, _, _, _, hme, hmem⟩ := ConvertSplit_returned c env inPath outDir out hout
      exact ⟨hme, tmpDir, hmem⟩

/-- C24 does not hold of the code. When the stat of the input succeeds,
`ConvertSplit` names its output by the rule of `ConvertOne`; but it has no
fallback: it reads the modification time of the stat result without looking at
the error, so with a failing stat it never returns an output path and panics
once the chunks are converted and the list is written, where `ConvertOne` takes
the current time for the name. `ConvertOne` itself reads the size of both stat
results after a successful encode without looking at the errors, and panics
when the stat of the input or of the output file failed. -/
theorem stat_results_read_unchecked :
    (∀ (c : Config) (env : SplitEnv) (inPath outDir out : String) (now : time.Time),
      (ConvertSplit c env inPath outDir).2 = .returned out none →
      ∃ info, env.stat = some info ∧ out = ConvertOne_outPath (some info) now outDir) ∧
    (∀ (now : time.Time) (outDir : String),
      ConvertOne_outPath none now outDir =
        filepath.Join outDir (time.formatStamp now ++ ".mp4")) ∧
    (∀ (c : Config) (env : SplitEnv) (inPath outDir out : String),
      env.stat = none → (ConvertSplit c env inPath outDir).2 ≠ .returned out none) ∧
    (∀ (c : Config) (env : SplitEnv) (inPath outDir tmpDir : String) (results : List result)
        (chunks : List String),
      checkErrors results [] = .ok chunks → env.createErr = none → env.stat = none →
      (ConvertSplit_afterWait c env inPath outDir tmpDir results).2 =
        .panicked "nil pointer dereference") ∧
    (ConvertSplit sampleSoftware sampleSplitEnvNoStat "/in/x.mov" "/out").2 =
      .panicked "nil pointer dereference" ∧
    (ConvertOne sampleDryRun sampleOneEnvNoStat "/in/x.mov" "/out").2 =
      .returned "/out/2024-01-02_03-04-05.mp4" none ∧
    (∀ (c : Config) (env : OneEnv) (inPath outDir : String),
      c.DryRun = false → env.exec = none → (env.stat = none ∨ env.statOut = none) →
      (ConvertOne c env inPath outDir).2 = .panicked "nil pointer dereference") ∧
    (ConvertOne sampleSoftware sampleOneEnvNoStat "/in/x.mov" "/out").2 =
      .panicked "nil pointer dereference" ∧
    (ConvertOne sampleSoftware sampleOneEnvNoStatOut "/in/x.mov" "/out").2 =
      .panicked "nil pointer dereference" := by
  refine ⟨?_, fun _ _ => rfl, ?_, ?_, by decide, by decide, ?_, by decide, by decide⟩
  · intro c env inPath outDir out now h
    obtain ⟨_, info, _, hs, ho, _, _⟩ := ConvertSplit_returned c env inPath outDir out h
    exact ⟨info, hs, ho⟩
  · intro c env inPath outDir out hs h
    obtain ⟨_, info, _, hs2, _⟩ := ConvertSplit_returned c env inPath outDir out h
    rw [hs] at hs2
    cases hs2
  · intro c env inPath outDir tmpDir results chunks hce hcr hs
    unfold ConvertSplit_afterWait
    simp only [hce, hcr, hs]
  · intro c env inPath outDir hd he hs
    rcases ConvertOne_cases c env inPath outDir with h | h | h | h
    · rw [hd] at h; cases h.1
    · obtain ⟨_, err, out, h2, _⟩ := h
      rw [he] at h2; cases h2
    · rw [h.2.2.2]
    · obtain ⟨_, _, info, infoOut, h1, h2, _⟩ := h
      rcases hs with hs | hs
      · rw [hs] at h1; cases h1
      · rw [hs] at h2; cases h2

end StatClaims

/-! ## Chunk order after sorting (C25) -/

section SortClaims
open split

theorem less_nil_right (a : List Char) : strings.less a [] = false := by
  cases a <;> rfl

theorem less_cons_iff (x y : Char) (a b : List Char) :
    strings.less (x :: a) (y :: b) = true ↔
      x.toNat < y.toNat ∨ (x = y ∧ strings.less a b = true) := by
  simp [strings.less]

theorem less_trans : ∀ a b c : List Char,
    strings.less a b = true → strings.less b c = true → strings.less a c = true := by
  intro a
  induction a with
  | nil =>
    intro b c h1 h2
    cases c with
    | nil => rw [less_nil_right] at h2; cases h2
    | cons z cs => rfl
  | cons x as ih =>
    intro b c h1 h2
    cases b with
    | nil => rw [less_nil_right] at h1; cases h1
    | cons y bs =>
      cases c with
      | nil => rw [less_nil_right] at h2; cases h2
      | cons z cs =>
        rw [less_cons_iff] at h1 h2 ⊢
        rcases h1 with h1 | ⟨e1, h1⟩
        · rcases h2 with h2 | ⟨e2, _⟩
          · exact Or.inl (by omega)
          · rw [← e2]; exact Or.inl h1
        · rcases h2 with h2 | ⟨e2, h2⟩
          · rw [e1]; exact Or.inl h2
          · exact Or.inr ⟨e1.trans e2, ih bs cs h1 h2⟩

theorem less_trichotomy : ∀ a b : List Char,
    strings.less a b = false → strings.less b a = false → a = b := by
  intro a
  induction a with
  | nil =>
    intro b h1 _
    cases b with
    | nil => rfl
    | cons y bs => cases h1
  | cons x as ih =>
    intro b h1 h2
    cases b with
    | nil => cases h2
    | cons y bs =>
      have n1 : ¬ (x.toNat < y.toNat ∨ (x = y ∧ strings.less as bs = true)) := by
        rw [← less_cons_iff, h1]; simp
      have n2 : ¬ (y.toNat < x.toNat ∨ (y = x ∧ strings.less bs as = true)) := by
        rw [← less_cons_iff, h2]; simp
      have hxy : x = y := by
        apply Char.ext
        apply UInt32.ext
        have a1 : ¬ x.toNat < y.toNat := fun h => n1 (Or.inl h)
        have a2 : ¬ y.toNat < x.toNat := fun h => n2 (Or.inl h)
        show x.toNat = y.toNat
        omega
      subst hxy
      have e1 : strings.less as bs = false := by
        cases h : strings.less as bs with
        | false => rfl
        | true => exact absurd (Or.inr ⟨rfl, h⟩) n1
      have e2 : strings.less bs as = false := by
        cases h : strings.less bs as with
        | false => rfl
        | true => exact absurd (Or.inr ⟨rfl, h⟩) n2
      rw [ih bs e1 e2]

theorem less_asymm (a b : List Char) (h : strings.less a b = true) :
    strings.less b a = false := by
  cases hb : strings.less b a with
  | false => rfl
  | true =>
    have := less_trans a b a h hb
    rw [less_irrefl] at this
    cases this

theorem le_total : IsTotal String sort.le :=
  ⟨fun a b => by
    unfold sort.le
    cases h : strings.less b.data a.data with
    | false => exact Or.inl rfl
    | true => exact Or.inr (less_asymm _ _ h)⟩

theorem le_trans : IsTrans String sort.le :=
  ⟨fun a b c hab hbc => by
    unfold sort.le at hab hbc ⊢
    cases h : strings.less c.data a.data with
    | false => rfl
    | true =>
      cases hab2 : strings.less a.data b.data with
      | false =>
        have e := less_trichotomy _ _ hab2 hab
        rw [e] at h
        rw [h] at hbc
        cases hbc
      | true =>
        have := less_trans _ _ _ h hab2
        rw [hbc] at this
        cases this⟩

theorem le_antisymm : IsAntisymm String sort.le :=
  ⟨fun a b hab hba => by
    unfold sort.le at hab hba
    exact String.ext (less_trichotomy _ _ hba hab)⟩

theorem Strings_sorted (x : List String) : (sort.Strings x).Sorted sort.le := by
  haveI := le_total
  haveI := le_trans
  exact List.sorted_insertionSort sort.le x

theorem Strings_perm (x : List String) : (sort.Strings x).Perm x :=
  List.perm_insertionSort sort.le x

theorem Strings_eq_of_sorted (x y : List String) (hp : x.Perm y) (hs : y.Sorted sort.le) :
    sort.Strings x = y := by
  haveI := le_antisymm
  exact List.eq_of_perm_of_sorted ((Strings_perm x).trans hp) (Strings_sorted x) hs

theorem joinSep_append_one (l : List (List Char)) (n : List Char) :
    filepath.joinSep (l ++ [n]) = l.foldr (fun e acc => e ++ '/' :: acc) [] ++ n := by
  induction l with
  | nil => rfl
  | cons e es ih =>
    cases es with
    | nil => simp [filepath.joinSep]
    | cons f fs =>
      simp only [List.cons_append, filepath.joinSep, List.foldr_cons, List.append_eq] at ih ⊢
      rw [ih]
      simp

theorem Join_fileName_prefix (a : String) :
    ∃ pre : List Char, ∀ n : List Char, filepath.isFileName n →
      (filepath.Join a ⟨n⟩).data = pre ++ n := by
  by_cases ha : a = ""
  · refine ⟨[], fun n hn => ?_⟩
    obtain ⟨c, cs, hc, hsep⟩ := fileName_cons n hn
    have hne : (⟨n⟩ : String) ≠ "" := by
      intro h
      have := congrArg String.data h
      rw [hc] at this
      cases this
    unfold filepath.Join
    rw [if_neg (not_not.2 ha), if_pos hne]
    unfold filepath.Clean
    have hd : (⟨n⟩ : String).data = n := rfl
    simp only [hd, hn.1, if_false, splitSep_of_noSep n hn.2.2.2, List.foldl_cons,
      List.foldl_nil, cleanStep_fileName _ _ n hn, List.reverse_cons, List.reverse_nil,
      List.nil_append, filepath.joinSep]
    have hr : (n.head?.any filepath.isSep) = false := by rw [hc]; simpa using hsep
    simp [hr, hn.1]
  · have had : a.data ≠ [] := by
      intro h
      apply ha
      exact String.ext h
    refine ⟨(if a.data.head?.any filepath.isSep then ['/'] else []) ++
      ((filepath.splitSep a.data).foldl
        (filepath.cleanStep (a.data.head?.any filepath.isSep)) []).reverse.foldr
          (fun e acc => e ++ '/' :: acc) [], fun n hn => ?_⟩
    unfold filepath.Join
    rw [if_pos ha]
    unfold filepath.Clean
    have hd : (⟨a.data ++ '/' :: n⟩ : String).data = a.data ++ '/' :: n := rfl
    have hne : a.data ++ '/' :: n ≠ [] := by simp
    have hhead : (a.data ++ '/' :: n).head? = a.data.head? := by
      cases hh : a.data with
      | nil => exact absurd hh had
      | cons c cs => rfl
    simp only [hd, hne, if_false, hhead, splitSep_append_sep, splitSep_of_noSep n hn.2.2.2,
      List.foldl_append, List.foldl_cons, List.foldl_nil, cleanStep_fileName _ _ n hn,
      List.reverse_cons, joinSep_append_one]
    have hbody : ∀ l : List Char, l ++ n ≠ [] := by
      intro l h
      exact hn.1 (List.append_eq_nil.1 h).2
    split_ifs with h1 h2
    · simp
    · exact absurd h2 (hbody _)
    · simp

theorem chunkName_data (i : Nat) :
    (chunkName i).data =
      ['c', 'h', 'u', 'n', 'k', '_'] ++ (time.appendInt (i : Int) 3 ++ ['.', 'm', 'p', '4']) := by
  unfold chunkName
  simp

theorem chunkName_isFileName (i : Nat) : filepath.isFileName (chunkName i).data := by
  rw [chunkName_data]
  refine ⟨by simp, by simp, by simp, ?_⟩
  intro ch h
  simp only [List.mem_append, List.mem_cons, List.not_mem_nil, or_false, List.cons_append,
    List.nil_append] at h
  have hd : isDigit ch → filepath.isSep ch = false := by
    intro hdig
    unfold filepath.isSep
    unfold isDigit at hdig
    have : ch ≠ '/' := by
      intro hc; rw [hc] at hdig; revert hdig; decide
    simp [this]
  rcases h with h | h | h | h | h | h | h | h | h | h | h
  any_goals (rw [h]; rfl)
  rcases appendInt_chars _ _ ch h with h | h
  · rw [h]; rfl
  · exact hd h

theorem chunkPath_data (outDir : String) :
    ∃ pre : List Char, ∀ i, (chunkPath outDir i).data = pre ++ (chunkName i).data := by
  obtain ⟨pre, hpre⟩ := Join_fileName_prefix outDir
  exact ⟨pre, fun i => hpre _ (chunkName_isFileName i)⟩

theorem less_common_prefix (pre x y : List Char) :
    strings.less (pre ++ x) (pre ++ y) = strings.less x y := by
  induction pre with
  | nil => rfl
  | cons c cs ih => rw [List.cons_append, List.cons_append, less_cons_same, ih]

theorem chunkName_less (i j : Nat) (hi : i < 1000) (hj : j < 1000) :
    strings.less (chunkName i).data (chunkName j).data = true ↔ i < j := by
  have p3 : (10 : Nat) ^ (2 + 1) = 1000 := by norm_num
  rw [chunkName_data, chunkName_data, less_common_prefix,
    appendInt_eq_pad 2 i (by omega), appendInt_eq_pad 2 j (by omega),
    pad_block (2 + 1) i j _ _ (by omega) (by omega), less_irrefl]
  simp

theorem chunkPath_less (outDir : String) (i j : Nat) (hi : i < 1000) (hj : j < 1000) :
    strings.less (chunkPath outDir i).data (chunkPath outDir j).data = true ↔ i < j := by
  obtain ⟨pre, hpre⟩ := chunkPath_data outDir
  rw [hpre, hpre, less_common_prefix]
  exact chunkName_less i j hi hj

theorem chunkPaths_sorted (outDir : String) (n : Nat) (hn : n ≤ 1000) :
    ((List.range n).map (chunkPath outDir)).Sorted sort.le := by
  unfold List.Sorted
  rw [List.pairwise_map]
  refine List.Pairwise.imp_of_mem ?_ (List.pairwise_lt_range n)
  intro a b ha hb hab
  rw [List.mem_range] at ha hb
  exact less_asymm _ _ ((chunkPath_less outDir a b (by omega) (by omega)).2 hab)

theorem chunkPaths_unsorted (outDir : String) (n : Nat) (hn : 1000 < n) :
    ¬ ((List.range n).map (chunkPath outDir)).Sorted sort.le := by
  intro hs
  unfold List.Sorted at hs
  rw [List.pairwise_map, List.pairwise_iff_getElem] at hs
  have h := hs 101 1000 (by simp; omega) (by simp; omega) (by decide)
  simp only [List.getElem_range] at h
  unfold sort.le at h
  obtain ⟨pre, hpre⟩ := chunkPath_data outDir
  rw [hpre, hpre, less_common_prefix] at h
  have : strings.less (chunkName 1000).data (chunkName 101).data = true := by decide
  rw [this] at h
  cases h

/-- C25 does not hold of the code for more than 1000 chunks. For at most
1000 chunk files named by `chunk_%03d.mp4`, in whatever order the glob finds
them, `Split` returns them in chunk-index order, so that position `i` is chunk
`i`. With more than 1000 chunks the index takes four digits and the string
order is no longer the index order: `chunk_1000.mp4` sorts between
`chunk_100.mp4` and `chunk_101.mp4`, and the list `Split` returns is not in
chunk-index order. -/
theorem chunk_order_breaks_past_1000 :
    (∀ (outDir inFile : String) (segmentTime : Int) (n : Nat) (files : List String),
      n ≤ 1000 → files.Perm ((List.range n).map (chunkPath outDir)) →
      Split none (.ok files) inFile outDir segmentTime =
        .ok ((List.range n).map (chunkPath outDir)) ∧
      ∀ i, i < n →
        (sort.Strings files).get? i = some (chunkPath outDir i)) ∧
    (∀ (outDir inFile : String) (segmentTime : Int) (n : Nat) (files : List String),
      1000 < n → files.Perm ((List.range n).map (chunkPath outDir)) →
      Split none (.ok files) inFile outDir segmentTime = .ok (sort.Strings files) ∧
      (sort.Strings files).Perm ((List.range n).map (chunkPath outDir)) ∧
      sort.Strings files ≠ (List.range n).map (chunkPath outDir)) ∧
    chunkName 100 = "chunk_100.mp4" ∧ chunkName 101 = "chunk_101.mp4" ∧
    chunkName 1000 = "chunk_1000.mp4" ∧
    sort.Strings [chunkName 100, chunkName 101, chunkName 1000] =
      [chunkName 100, chunkName 1000, chunkName 101] := by
  refine ⟨?_, ?_, by decide, by decide, by decide, by decide⟩
  · intro outDir inFile segmentTime n files hn hp
    have hs := Strings_eq_of_sorted files _ hp (chunkPaths_sorted outDir n hn)
    refine ⟨?_, ?_⟩
    · show Except.ok (sort.Strings files) = _
      rw [hs]
    · intro i hi
      rw [hs, List.get?_eq_getElem?, List.getElem?_map, List.getElem?_range hi]
      rfl
  · intro outDir inFile segmentTime n files hn hp
    refine ⟨rfl, (Strings_perm files).trans hp, ?_⟩
    intro h
    have hs := Strings_sorted files
    rw [h] at hs
    exact chunkPaths_unsorted outDir n hn hs

end SortClaims

/-! ## The TUI model (C27) -/

section TuiClaims
open tui

theorem findIndex_bounds (paths : List String) (path : String) (i : Int) :
    findIndex paths path i = -1 ∨
      (i ≤ findIndex paths path i ∧ findIndex paths path i < i + paths.length) := by
  induction paths generalizing i with
  | nil => left; rfl
  | cons p rest ih =>
    unfold findIndex
    by_cases hp : p = path
    · rw [if_pos hp]
      right
      simp only [List.length_cons, Nat.cast_add, Nat.cast_one]
      omega
    · rw [if_neg hp]
      rcases ih (i + 1) with h | h
      · left; exact h
      · right
        simp only [List.length_cons, Nat.cast_add, Nat.cast_one]
        omega

theorem length_remove (l : List String) (k : Nat) (hk : k < l.length) :
    (l.take k ++ l.drop (k + 1)).length = l.length - 1 := by
  simp only [List.length_append, List.length_take, List.length_drop]
  omega

theorem Update_inv (m : Model) (msg : Msg) (h : ModelInv m) :
    ∃ m2 cmd, Update m msg = .ok (m2, cmd) ∧ ModelInv m2 := by
  obtain ⟨hlen, h0, hcur⟩ := h
  cases msg with
  | KeyMsg key =>
    unfold Update
    simp only
    by_cases k1 : key = "q" ∨ key = "ctrl+c"
    · rw [if_pos k1]; exact ⟨_, _, rfl, hlen, h0, hcur⟩
    · rw [if_neg k1]
      by_cases k2 : key = "up" ∨ key = "k"
      · rw [if_pos k2]
        refine ⟨_, _, rfl, ?_⟩
        by_cases hc : m.cursor > 0
        · rw [if_pos hc]
          exact ⟨hlen, by show 0 ≤ m.cursor - 1; omega,
            by show m.cursor - 1 = 0 ∨ m.cursor - 1 < (m.queue.length : Int); omega⟩
        · rw [if_neg hc]; exact ⟨hlen, h0, hcur⟩
      · rw [if_neg k2]
        by_cases k3 : key = "down" ∨ key = "j"
        · rw [if_pos k3]
          refine ⟨_, _, rfl, ?_⟩
          by_cases hc : m.cursor < (m.queue.length : Int) - 1
          · rw [if_pos hc]
            exact ⟨hlen, by show 0 ≤ m.cursor + 1; omega,
              by show m.cursor + 1 = 0 ∨ m.cursor + 1 < (m.queue.length : Int); omega⟩
          · rw [if_neg hc]; exact ⟨hlen, h0, hcur⟩
        · rw [if_neg k3]
          by_cases k4 : key = " "
          · rw [if_pos k4]
            by_cases hq : (m.queue.length : Int) > 0 ∧ m.cursor < (m.paths.length : Int)
            · rw [if_pos hq, if_neg (by omega)]
              exact ⟨_, _, rfl, hlen, h0, hcur⟩
            · rw [if_neg hq]; exact ⟨_, _, rfl, hlen, h0, hcur⟩
          · rw [if_neg k4]; exact ⟨_, _, rfl, hlen, h0, hcur⟩
  | tickMsg => exact ⟨_, _, rfl, hlen, h0, hcur⟩
  | FileFoundEvent Path Name =>
    refine ⟨_, _, rfl, ?_, h0, ?_⟩
    · show (m.queue ++ [Name]).length = (m.paths ++ [Path]).length
      simp [hlen]
    · show m.cursor = 0 ∨ m.cursor < ((m.queue ++ [Name]).length : Int)
      simp only [List.length_append, List.length_singleton, Nat.cast_add, Nat.cast_one]
      omega
  | StartConvertEvent Path =>
    unfold Update
    simp only
    by_cases hidx : findIndex m.paths Path 0 ≥ 0
    · rw [if_pos hidx]
      have hb : findIndex m.paths Path 0 < (m.paths.length : Int) := by
        rcases findIndex_bounds m.paths Path 0 with h | h
        · omega
        · omega
      have hk : (findIndex m.paths Path 0).toNat < m.paths.length := by omega
      rw [if_neg (by omega)]
      have lq := length_remove m.queue _ (by omega : (findIndex m.paths Path 0).toNat < m.queue.length)
      have lp := length_remove m.paths _ hk
      by_cases hc : m.cursor ≥
          ((m.queue.take (findIndex m.paths Path 0).toNat ++
            m.queue.drop ((findIndex m.paths Path 0).toNat + 1)).length : Int) ∧ m.cursor > 0
      · rw [if_pos hc]
        refine ⟨_, _, rfl, ?_, ?_, ?_⟩
        · show (m.queue.take _ ++ m.queue.drop _).length = (m.paths.take _ ++ m.paths.drop _).length
          rw [lq, lp, hlen]
        · show 0 ≤ m.cursor - 1
          omega
        · show m.cursor - 1 = 0 ∨
            m.cursor - 1 < ((m.queue.take _ ++ m.queue.drop _).length : Int)
          rw [lq] at hc ⊢
          omega
      · rw [if_neg hc]
        refine ⟨_, _, rfl, ?_, h0, ?_⟩
        · show (m.queue.take _ ++ m.queue.drop _).length = (m.paths.take _ ++ m.paths.drop _).length
          rw [lq, lp, hlen]
        · show m.cursor = 0 ∨ m.cursor < ((m.queue.take _ ++ m.queue.drop _).length : Int)
          rw [lq] at hc ⊢
          omega
    · rw [if_neg hidx]
      exact ⟨_, _, rfl, hlen, h0, hcur⟩
  | SuccessEvent Path OutPath => exact ⟨_, _, rfl, hlen, h0, hcur⟩
  | FailureEvent Path Err => exact ⟨_, _, rfl, hlen, h0, hcur⟩
  | other => exact ⟨_, _, rfl, hlen, h0, hcur⟩

theorem run_inv (msgs : List Msg) : ∀ m, ModelInv m → ∃ m2, run m msgs = .ok m2 ∧ ModelInv m2 := by
  induction msgs with
  | nil => intro m h; exact ⟨m, rfl, h⟩
  | cons msg rest ih =>
    intro m h
    obtain ⟨m1, cmd, hu, hi⟩ := Update_inv m msg h
    obtain ⟨m2, hr, hi2⟩ := ih m1 hi
    refine ⟨m2, ?_, hi2⟩
    unfold run
    rw [hu]
    exact hr

/-- C27. The model of `NewModel` has `queue` and `paths` of the same length
and its cursor is 0; every message that `Update` handles on a model with
`queue` and `paths` of the same length and a cursor that is 0 or a valid index
of `queue` is handled without a panic and gives a model with the same
property; hence after any sequence of messages from `NewModel` on, the lengths
agree and the cursor is 0 or a valid index of `queue`. -/
theorem update_preserves_cursor_invariant (cfg : Config) :
    ModelInv (NewModel cfg) ∧
    (∀ m msg, ModelInv m → ∃ m2 cmd, Update m msg = .ok (m2, cmd) ∧ ModelInv m2) ∧
    (∀ msgs, ∃ m, run (NewModel cfg) msgs = .ok m ∧
      m.queue.length = m.paths.length ∧ 0 ≤ m.cursor ∧
      (m.cursor = 0 ∨ m.cursor < (m.queue.length : Int))) ∧
    (run (NewModel cfg) sampleSession).map (fun m => (m.queue, m.paths, m.cursor)) =
      .ok ([], [], 0) := by
  have hnew : ModelInv (NewModel cfg) := ⟨rfl, le_refl _, Or.inl rfl⟩
  refine ⟨hnew, Update_inv, fun msgs => ?_, ?_⟩
  · obtain ⟨m, hr, hi⟩ := run_inv msgs (NewModel cfg) hnew
    exact ⟨m, hr, hi⟩
  · rfl

end TuiClaims

/-! ## Lifecycle events (C21) -/

section EventClaims
open watcher

theorem handleEvent_events_of_accepts (tbl : Char → Char) (w : Watcher) (stat : StatResult)
    (event : Event) (m : ProcessingSet) (h : Accepts tbl w stat event m) :
    (handleEvent tbl w stat event m).events =
      if w.EventChan then [.FileFoundEvent event.Name (filepath.Base event.Name)] else [] := by
  obtain ⟨h1, h2, h3, h4, h5, h6⟩ := h
  have h1' : ¬ (event.Op &&& Create ≠ Create ∧ event.Op &&& Rename ≠ Rename) := by
    rintro ⟨ha, hb⟩
    rcases h1 with h | h
    · exact ha h
    · exact hb h
  unfold handleEvent
  simp only [h1', if_false, h2, Bool.false_eq_true, h3, Bool.not_true, h4, h5, checkAndInsert,
    h6, if_true]

theorem processFile_shape (w : Watcher) (env : ProcessEnv) (path name : String)
    (m : ProcessingSet) (hch : w.EventChan = true) :
    ((processFile w env path name m).events = [] ∧
      ((env.mkdirErr ≠ none ∧ (processFile w env path name m).outcome = .mkdirFailed) ∨
        (env.mkdirErr = none ∧ env.absPath.2 ≠ none ∧
          (processFile w env path name m).outcome = .absFailed))) ∨
    (∃ msg, env.mkdirErr = none ∧ env.absPath.2 = none ∧
      env.convert env.absPath.1 (batchDir w env) = .panicked msg ∧
      (processFile w env path name m).outcome = .convertPanicked ∧
      (processFile w env path name m).events = [.StartConvertEvent env.absPath.1]) ∨
    (∃ out err, env.mkdirErr = none ∧ env.absPath.2 = none ∧
      env.convert env.absPath.1 (batchDir w env) = .returned out (some err) ∧
      (processFile w env path name m).outcome = .convertFailed ∧
      (processFile w env path name m).events =
        [.StartConvertEvent env.absPath.1, .FailureEvent env.absPath.1 err]) ∨
    (∃ out, env.mkdirErr = none ∧ env.absPath.2 = none ∧
      env.convert env.absPath.1 (batchDir w env) = .returned out none ∧
      (processFile w env path name m).outcome = .converted ∧
      (processFile w env path name m).events =
        [.StartConvertEvent env.absPath.1, .SuccessEvent path out]) := by
  unfold processFile batchDir
  cases hm : env.mkdirErr with
  | some e => left; exact ⟨rfl, Or.inl ⟨by simp, rfl⟩⟩
  | none =>
    cases ha : env.absPath with
    | mk absPath aerr =>
      cases aerr with
      | some e => left; exact ⟨rfl, Or.inr ⟨rfl, by simp, rfl⟩⟩
      | none =>
        right
        simp only
        cases hc : env.convert absPath
            (if w.Cfg.BatchStamp then filepath.Join env.absDest env.nowStamp else env.absDest) with
        | panicked msg =>
          left
          refine ⟨msg, ?_⟩
          simp [hch]
        | returned out cerr =>
          right
          cases cerr with
          | some err =>
            left
            refine ⟨out, err, ?_⟩
            simp [hch]
          | none =>
            right
            refine ⟨out, ?_⟩
            simp [hch]

theorem job_found (tbl : Char → Char) (w : Watcher) (stat : StatResult) (event : Event)
    (m : ProcessingSet) (path name : String) (hch : w.EventChan = true)
    (hsp : (handleEvent tbl w stat event m).spawned = some ⟨path, name⟩) :
    (handleEvent tbl w stat event m).events = [.FileFoundEvent path name] := by
  have hacc : Accepts tbl w stat event m := by
    by_contra hn
    rw [(handleEvent_of_not_accepts tbl w stat event m hn).1] at hsp
    cases hsp
  have hjob := (handleEvent_spawned tbl w stat event m _ hsp).1
  have hev := handleEvent_events_of_accepts tbl w stat event m hacc
  rw [hev, if_pos hch]
  injection hjob with h1 h2
  rw [h1, h2]

/-- C21. A job that `processFile` runs with an event channel attached, for a
path that is absolute and clean (as the names of the events under the
directories that `Run` adds by their absolute paths are), sends each stage at
most once: no event when the output directory cannot be made; otherwise one
StartConvert event, followed by at most one terminal event: a Failure event
exactly when the conversion returned an error, a Success event exactly when it
returned a path with no error, never both, and none when the conversion
panicked. Every event carries the job's path. The `handleEvent` call that
starts the job has sent one Found event, with the job's path and name. -/
theorem job_events_once (tbl : Char → Char) (w : Watcher) (env : ProcessEnv)
    (wd : Except String String) (path name : String) (m : ProcessingSet)
    (stat : StatResult) (event : Event)
    (hch : w.EventChan = true) (habs : env.absPath = filepath.Abs wd path)
    (hisabs : filepath.IsAbs path = true) (hclean : filepath.Clean path = path) :
    (((processFile w env path name m).events = [] ∧ env.mkdirErr ≠ none) ∨
      ((∃ msg, env.convert path (batchDir w env) = .panicked msg) ∧
        (processFile w env path name m).events = [.StartConvertEvent path]) ∨
      (∃ out err, env.convert path (batchDir w env) = .returned out (some err) ∧
        (processFile w env path name m).events =
          [.StartConvertEvent path, .FailureEvent path err]) ∨
      (∃ out, env.convert path (batchDir w env) = .returned out none ∧
        (processFile w env path name m).events =
          [.StartConvertEvent path, .SuccessEvent path out])) ∧
    (processFile w env path name m).events.countP LifecycleEvent.isStart ≤ 1 ∧
    (processFile w env path name m).events.countP LifecycleEvent.isTerminal ≤ 1 ∧
    ((∃ p e, LifecycleEvent.FailureEvent p e ∈ (processFile w env path name m).events) ↔
      env.mkdirErr = none ∧
        ∃ out err, env.convert path (batchDir w env) = .returned out (some err)) ∧
    ((∃ p o, LifecycleEvent.SuccessEvent p o ∈ (processFile w env path name m).events) ↔
      env.mkdirErr = none ∧ ∃ out, env.convert path (batchDir w env) = .returned out none) ∧
    ¬ ((∃ p e, LifecycleEvent.FailureEvent p e ∈ (processFile w env path name m).events) ∧
      ∃ p o, LifecycleEvent.SuccessEvent p o ∈ (processFile w env path name m).events) ∧
    (∀ e ∈ (processFile w env path name m).events, e.Path = path) ∧
    ((handleEvent tbl w stat event m).spawned = some ⟨path, name⟩ →
      (handleEvent tbl w stat event m).events = [.FileFoundEvent path name]) := by
  have hA : env.absPath = (path, none) := by
    rw [habs]
    unfold filepath.Abs
    rw [if_pos hisabs, hclean]
  have hshape := processFile_shape w env path name m hch
  rw [hA] at hshape
  simp only [ne_eq, not_true_eq_false, false_and, and_false, or_false, true_and] at hshape
  rcases hshape with ⟨h, hmk, _⟩ | ⟨msg, hmk, hc, _, h⟩ | ⟨out, err, hmk, hc, _, h⟩ |
      ⟨out, hmk, hc, _, h⟩
  · refine ⟨Or.inl ⟨h, hmk⟩, by rw [h]; simp, by rw [h]; simp, ?_, ?_, ?_, ?_, ?_⟩
    · rw [h]; simp [hmk]
    · rw [h]; simp [hmk]
    · rw [h]; simp
    · rw [h]; simp
    · exact job_found tbl w stat event m path name hch
  · refine ⟨Or.inr (Or.inl ⟨⟨msg, hc⟩, h⟩), by rw [h]; simp [List.countP_cons, LifecycleEvent.isStart],
      by rw [h]; simp [List.countP_cons, LifecycleEvent.isTerminal],
      ?_, ?_, ?_, ?_, ?_⟩
    · rw [h]; simp [hc]
    · rw [h]; simp [hc]
    · rw [h]; simp
    · rw [h]; simp [LifecycleEvent.Path]
    · exact job_found tbl w stat event m path name hch
  · refine ⟨Or.inr (Or.inr (Or.inl ⟨out, err, hc, h⟩)), by rw [h]; simp [List.countP_cons, LifecycleEvent.isStart],
      by rw [h]; simp [List.countP_cons, LifecycleEvent.isTerminal],
      ?_, ?_, ?_, ?_, ?_⟩
    · rw [h]; simp [hc, hmk]
    · rw [h]; simp [hc]
    · rw [h]; simp
    · rw [h]; simp [LifecycleEvent.Path]
    · exact job_found tbl w stat event m path name hch
  · refine ⟨Or.inr (Or.inr (Or.inr ⟨out, hc, h⟩)), by rw [h]; simp [List.countP_cons, LifecycleEvent.isStart],
      by rw [h]; simp [List.countP_cons, LifecycleEvent.isTerminal],
      ?_, ?_, ?_, ?_, ?_⟩
    · rw [h]; simp [hc]
    · rw [h]; simp [hc, hmk]
    · rw [h]; simp
    · rw [h]; simp [LifecycleEvent.Path]
    · exact job_found tbl w stat event m path name hch

/-- Witness for C21: for the absolute and clean path `/rec/clip.mov` a
successful job sends StartConvert and Success, a failing one StartConvert and
Failure, one whose conversion panics StartConvert only, and every event of the
successful job carries `/rec/clip.mov`. -/
theorem job_events_once_witness :
    (processFile sampleTuiWatcher (sampleProcessEnv "/rec/clip.mov") "/rec/clip.mov" "clip.mov"
        emptySet).events =
      [.StartConvertEvent "/rec/clip.mov",
        .SuccessEvent "/rec/clip.mov" "/out/20240102/2024-01-02_03-04-05.mp4"] ∧
    (processFile sampleTuiWatcher (sampleProcessEnvFail "/rec/clip.mov") "/rec/clip.mov"
        "clip.mov" emptySet).events =
      [.StartConvertEvent "/rec/clip.mov", .FailureEvent "/rec/clip.mov" "ffmpeg実行エラー"] ∧
    (processFile sampleTuiWatcher (sampleProcessEnvPanic "/rec/clip.mov") "/rec/clip.mov"
        "clip.mov" emptySet).events = [.StartConvertEvent "/rec/clip.mov"] ∧
    ∀ e ∈ (processFile sampleTuiWatcher (sampleProcessEnv "/rec/clip.mov") "/rec/clip.mov"
        "clip.mov" emptySet).events, e.Path = "/rec/clip.mov" :=
  ⟨by decide, by decide, by decide,
    (job_events_once id sampleTuiWatcher (sampleProcessEnv "/rec/clip.mov") (.ok "/work")
      "/rec/clip.mov" "clip.mov" emptySet .found ⟨"/rec/clip.mov", 1⟩ rfl rfl
      (by decide) (by decide)).2.2.2.2.2.2.1⟩

end EventClaims

/-! ## A conversion that panics (C11) -/

section CrashClaims
open convert

theorem runRun_steps (steps : List PoolStep) :
    ∀ s0 : PoolState, runRun (RunState.init s0) (steps.map RunStep.step) =
      RunState.init (poolRun s0 steps) := by
  induction steps with
  | nil => intro s0; rfl
  | cons a rest ih =>
    intro s0
    show runRun (runStep (RunState.init s0) (.step a)) (rest.map RunStep.step) = _
    have h : runStep (RunState.init s0) (.step a) = RunState.init (poolStep s0 a) := rfl
    rw [h, ih]
    rfl

theorem runStep_crashed (s : RunState) (a : RunStep) (h : s.crashed = true) :
    runStep s a = s := by
  cases a with
  | step a => simp [runStep, h]
  | panic i msg => simp [runStep, h]
  | crash i =>
    simp only [runStep]
    split_ifs
    · cases s
      simp only at h
      simp [h]
    · rfl

theorem runRun_crashed (steps : List RunStep) :
    ∀ s : RunState, s.crashed = true → runRun s steps = s := by
  induction steps with
  | nil => intro s _; rfl
  | cons a rest ih =>
    intro s h
    show runRun (runStep s a) rest = s
    rw [runStep_crashed s a h]
    exact ih s h

/-- C11 does not hold of the code when a conversion panics. In the runs of
`ProcessFiles` with concurrency at least 1 in which every `Convert` call
returns, with a path or with an error, all is as claimed: the files are
dispatched in list order, no goroutine calls `Convert` twice, the slots held
are the values in the channel, completion is reported only when every file has
a goroutine that has returned from `Convert` and run its deferred release and
`Done`, and for every pattern of returned outcomes some step is enabled until
completion and a schedule runs to completion. But a `Convert` call can panic,
and the goroutine has no `recover`: its deferred function runs, then the
runtime terminates the program and nothing happens any more. In the sample run
with one slot and two files the conversion of the first file panics (the stat
of its output fails after the encoder has succeeded): the slot is released, the
program is terminated, the second file is still pending and is never handed to
`Convert`, and completion is never reported. -/
theorem pool_batch_aborts_on_panic :
    (∀ (c : Config) (absDest stamp : String) (mkdirErr : Option String)
        (files : List String) (s0 : PoolState),
      1 ≤ c.Concurrent → ProcessFiles_init c absDest stamp mkdirErr files = .ok s0 →
      (∀ steps,
        runRun (RunState.init s0) (steps.map RunStep.step) = RunState.init (poolRun s0 steps) ∧
        (poolRun s0 steps).workers.map (fun w => w.inPath) ++ (poolRun s0 steps).pending =
          files ∧
        (convertCalls s0 steps).Nodup ∧
        (poolRun s0 steps).workers.countP holdsSlot = (poolRun s0 steps).semaphore ∧
        ((poolRun s0 steps).completed = true →
          (poolRun s0 steps).workers.map (fun w => w.inPath) = files ∧
          (∀ w ∈ (poolRun s0 steps).workers, w.phase = .finished) ∧
          (convertCalls s0 steps).Perm (List.range files.length) ∧
          (poolRun s0 steps).semaphore = 0)) ∧
      (∀ steps errs, (poolRun s0 steps).completed = false →
        ∃ a, followsOutcomes errs [a] ∧ poolStep (poolRun s0 steps) a ≠ poolRun s0 steps) ∧
      (∀ errs, ∃ steps, followsOutcomes errs steps ∧ (poolRun s0 steps).completed = true)) ∧
    (∀ s a, poolStep s a ≠ s → poolMeasure (poolStep s a) < poolMeasure s) ∧
    (∀ (s : RunState) (steps : List RunStep), s.crashed = true → runRun s steps = s) ∧
    ProcessFiles_init sampleOneSlot "/out" "20240102" none sampleTwoFiles = .ok samplePoolOne ∧
    (Convert sampleOneSlot sampleOneEnvNoStatOut sampleSplitEnvOk "a.mov" "/out/20240102").2 =
      .panicked "nil pointer dereference" ∧
    (runRun (RunState.init samplePoolOne) sampleCrash).crashed = true ∧
    (runRun (RunState.init samplePoolOne) sampleCrash).pool.workers =
      [⟨"a.mov", .finished, some "nil pointer dereference"⟩] ∧
    (runRun (RunState.init samplePoolOne) sampleCrash).pool.pending = ["b.mov"] ∧
    (runRun (RunState.init samplePoolOne) sampleCrash).pool.semaphore = 0 ∧
    (runRun (RunState.init samplePoolOne) sampleCrash).pool.completed = false ∧
    (∀ more, runRun (RunState.init samplePoolOne) (sampleCrash ++ more) =
      runRun (RunState.init samplePoolOne) sampleCrash) ∧
    (poolRun samplePool sampleSequential).completed = true ∧
    convertCalls samplePool sampleSequential = [0, 1, 2, 3, 4] := by
  refine ⟨?_, poolStep_measure, fun s steps h => runRun_crashed steps s h, rfl, by decide,
    by decide, by decide, by decide, by decide, by decide, ?_, by decide, by decide⟩
  · intro c absDest stamp mkdirErr files s0 hn hinit
    obtain ⟨h1, h2, _, h4⟩ := pool_run_returns c absDest stamp mkdirErr files s0 hn hinit
    exact ⟨fun steps => ⟨runRun_steps steps s0, h1 steps⟩, h2, h4⟩
  · intro more
    unfold runRun
    rw [List.foldl_append]
    exact runRun_crashed more _ (by decide)

/-- Witness for C11: with two slots and five files handled one after the other,
every conversion returning and the second one with an error, completion is
reported, all five goroutines have finished, each of them called `Convert`
once, and no slot is held. -/
theorem pool_batch_aborts_on_panic_witness :
    (poolRun samplePool sampleSequential).completed = true ∧
    (poolRun samplePool sampleSequential).workers.map (fun w => w.inPath) = sampleFiles ∧
    (convertCalls samplePool sampleSequential).Perm (List.range sampleFiles.length) ∧
    (poolRun samplePool sampleSequential).semaphore = 0 :=
  ⟨by decide,
   ((((pool_batch_aborts_on_panic.1 sampleTwoSlots "/out" "20240102" none sampleFiles
      samplePool (by decide) rfl).1 sampleSequential).2.2.2.2) (by decide)).1,
   ((((pool_batch_aborts_on_panic.1 sampleTwoSlots "/out" "20240102" none sampleFiles
      samplePool (by decide) rfl).1 sampleSequential).2.2.2.2) (by decide)).2.2.1,
   ((((pool_batch_aborts_on_panic.1 sampleTwoSlots "/out" "20240102" none sampleFiles
      samplePool (by decide) rfl).1 sampleSequential).2.2.2.2) (by decide)).2.2.2⟩

end CrashClaims

end RecWatch
